import Mathlib

/-!
# mobilegraph: a shallow embedding of `library.cpp`

Byte buffers (`char[]`, `unsigned char[]`, memory behind a `const void *`) are
functions `Nat → Nat` from an index to the byte stored there.  Machine integers
are natural numbers, reduced modulo `2^w` at the places where the C++ code
truncates them.  The host is taken to be little-endian (the page length is a
`uint16_t` read through a `reinterpret_cast`).  A C++ operation whose behaviour
is undefined (a `memcpy` that leaves the page buffer, a read through a page
pointer whose page was evicted and deleted, a read behind the end of a string
literal) returns `none`.
-/

namespace MobileGraph

/-! ## Record and page geometry (`#define`s of the source) -/

@[simp] abbrev NODE_IN_USE_SIZE : Nat := 1
@[simp] abbrev NODE_IN_USE_OFFSET : Nat := 0
@[simp] abbrev NODE_EXTERNAL_ID_SIZE : Nat := 4
@[simp] abbrev NODE_EXTERNAL_ID_OFFSET : Nat := NODE_IN_USE_OFFSET + NODE_IN_USE_SIZE
@[simp] abbrev NODE_FIRST_PROP_SIZE : Nat := 4
@[simp] abbrev NODE_FIRST_PROP_OFFSET : Nat := NODE_EXTERNAL_ID_OFFSET + NODE_EXTERNAL_ID_SIZE
@[simp] abbrev NODE_REL_SIZE : Nat := 4
@[simp] abbrev NODE_REL_OFFSET : Nat := NODE_FIRST_PROP_OFFSET + NODE_FIRST_PROP_SIZE
@[simp] abbrev NODE_LABELS_SIZE : Nat := 6
@[simp] abbrev NODE_LABELS_OFFSET : Nat := NODE_REL_OFFSET + NODE_REL_SIZE
@[simp] abbrev NODE_MORE_LABELS_SIZE : Nat := 1
@[simp] abbrev NODE_MORE_LABELS_OFFSET : Nat := NODE_LABELS_OFFSET + NODE_LABELS_SIZE
@[simp] abbrev NODE_SIZE : Nat := NODE_MORE_LABELS_OFFSET + NODE_MORE_LABELS_SIZE

@[simp] abbrev NODE_PROP_IN_USE_SIZE : Nat := 1
@[simp] abbrev NODE_PROP_IN_USE_OFFSET : Nat := 0
@[simp] abbrev NODE_PROP_KEY_SIZE : Nat := 4
@[simp] abbrev NODE_PROP_KEY_OFFSET : Nat := NODE_PROP_IN_USE_OFFSET + NODE_PROP_IN_USE_SIZE
@[simp] abbrev NODE_PROP_VALUE_SIZE : Nat := 4
@[simp] abbrev NODE_PROP_VALUE_OFFSET : Nat := NODE_PROP_KEY_OFFSET + NODE_PROP_KEY_SIZE
@[simp] abbrev NODE_PROP_NEXT_PROP_SIZE : Nat := 4
@[simp] abbrev NODE_PROP_NEXT_PROP_OFFSET : Nat := NODE_PROP_VALUE_OFFSET + NODE_PROP_VALUE_SIZE
@[simp] abbrev NODE_PROP_SIZE : Nat := NODE_PROP_NEXT_PROP_OFFSET + NODE_PROP_NEXT_PROP_SIZE

@[simp] abbrev PAGE_LENGTH_SIZE : Nat := 2
@[simp] abbrev PAGE_LENGTH_OFFSET : Nat := 0
@[simp] abbrev PAGE_DATA_SIZE : Nat := 4094
@[simp] abbrev PAGE_DATA_OFFSET : Nat := PAGE_LENGTH_OFFSET + PAGE_LENGTH_SIZE
@[simp] abbrev PAGE_SIZE : Nat := PAGE_DATA_OFFSET + PAGE_DATA_SIZE

@[simp] abbrev LABEL_TEXT_SIZE : Nat := 17
@[simp] abbrev LABEL_TEXT_OFFSET : Nat := 0
@[simp] abbrev LABEL_NUM_PAGES_SIZE : Nat := 1
@[simp] abbrev LABEL_NUM_PAGES_OFFSET : Nat := LABEL_TEXT_OFFSET + LABEL_TEXT_SIZE
@[simp] abbrev LABEL_SIZE : Nat := LABEL_NUM_PAGES_OFFSET + LABEL_NUM_PAGES_SIZE

@[simp] abbrev NODE_LABEL_STORE_TABLE_SIZE : Nat := 227

/-- Width of `unsigned int` / `uint32_t`. -/
@[simp] abbrev U32 : Nat := 4294967296

/-! ## Raw memory -/

/-- The buffer after `memcpy(buf + dst, src, len)`: `len` bytes of `src` land at
indices `dst .. dst + len - 1`, every other byte is kept. -/
def memcpy (buf : Nat → Nat) (dst : Nat) (src : Nat → Nat) (len : Nat) : Nat → Nat :=
  fun i => if dst ≤ i ∧ i < dst + len then src (i - dst) else buf i

/-- The memory seen through the pointer `buf + off`. -/
def shift (buf : Nat → Nat) (off : Nat) : Nat → Nat :=
  fun i => buf (off + i)

/-! ## Page -/

/-- A `Page`: its number and the 4096 bytes `char bytes[PAGE_SIZE]`. -/
structure Page where
  page_number : Nat
  bytes : Nat → Nat

/-- The constructor `Page(page_number)`: all bytes zero. -/
def Page.new (page_number : Nat) : Page :=
  { page_number := page_number, bytes := fun _ => 0 }

/-- The value `*data_length()`: the `uint16_t` stored in bytes 0 and 1. -/
def Page.data_length (p : Page) : Nat :=
  p.bytes PAGE_LENGTH_OFFSET + 256 * p.bytes (PAGE_LENGTH_OFFSET + 1)

/-- The assignment `*data_length() = v`, `v` truncated to 16 bits. -/
def Page.set_data_length (p : Page) (v : Nat) : Page :=
  { p with bytes := fun i =>
      if i = PAGE_LENGTH_OFFSET then v % 256
      else if i = PAGE_LENGTH_OFFSET + 1 then v / 256 % 256
      else p.bytes i }

/-- The memory seen through `data_at_offset(offset)`, that is `bytes + 2 + offset`. -/
def Page.data_at_offset (p : Page) (offset : Nat) : Nat → Nat :=
  shift p.bytes (PAGE_DATA_OFFSET + offset)

/-- `Page::set_at_offset(data, offset, len)`.  The guard compares the 32-bit sum
`offset + len` with `PAGE_SIZE`; a `memcpy` that would leave `bytes` is undefined
behaviour (`none`).  The result is the returned flag and the page afterwards. -/
def Page.set_at_offset (p : Page) (data : Nat → Nat) (offset len : Nat) :
    Option (Bool × Page) :=
  if (offset + len) % U32 ≥ PAGE_SIZE then some (false, p)
  else if PAGE_DATA_OFFSET + offset + len > PAGE_SIZE then none
  else
    let p1 : Page := { p with bytes := memcpy p.bytes (PAGE_DATA_OFFSET + offset) data len }
    if (offset + len) % U32 > p1.data_length then
      some (true, p1.set_data_length ((offset + len) % U32))
    else some (true, p1)

/-- `Page::append(data, len, raw_offset)`.  `raw_offset` is a `uint8_t &`: it is
passed in and handed back, and the value stored in it is the length truncated to
8 bits.  The components of the result are the returned flag, `raw_offset`
afterwards and the page afterwards. -/
def Page.append (p : Page) (data : Nat → Nat) (len : Nat) (raw_offset : Nat) :
    Option (Bool × Nat × Page) :=
  if (p.data_length + len) % U32 ≥ PAGE_DATA_SIZE then some (false, raw_offset, p)
  else
    let raw_offset1 := p.data_length % 256
    match p.set_at_offset data raw_offset1 len with
    | none => none
    | some (rc, p1) =>
        some (rc, raw_offset1, p1.set_data_length ((p1.data_length + len) % 65536))

/-! ## FileHandler -/

/-- The backing file: `contents i` is the byte at absolute offset `i` (zero
beyond the end of the file, which is what a short read into a zeroed page and a
write past the end both amount to) and `file_length` is the member set once when
the file is opened. -/
structure FileHandler where
  contents : Nat → Nat
  file_length : Nat

/-- `FileHandler::write(offset, data, len)`: the file afterwards. -/
def FileHandler.write (fh : FileHandler) (offset : Nat) (data : Nat → Nat) (len : Nat) :
    FileHandler :=
  { fh with contents := memcpy fh.contents offset data len }

/-- `FileHandler::read(into, offset, len)`: the buffer `into` afterwards. -/
def FileHandler.read (fh : FileHandler) (into : Nat → Nat) (offset len : Nat) : Nat → Nat :=
  memcpy into 0 (shift fh.contents offset) len

/-! ## Pager

`cache_ref_list` is the `list<pair<int, list<uint32_t>>>` of frequency buckets and
`cache_holder` the `unordered_map` from page number to page, kept as an
association list with one entry per key.  A `Page *` handed out by the pager is
represented by the page number it was asked for: reading or writing through it
is a lookup in `cache_holder`, which fails once the page was evicted (deleted).
The iterators `it_pair` and `it_key` stored with a resident key always designate
the list nodes that hold that key, so the model finds them by searching for the
key. -/

structure Pager where
  file_handler : FileHandler
  cache_cap : Int
  cache_ref_list : List (Nat × List Nat)
  cache_holder : List (Nat × Page)

/-- The constructor `Pager(file_handler, cache_capacity)`: empty cache. -/
def Pager.new (file_handler : FileHandler) (cache_capacity : Int) : Pager :=
  { file_handler := file_handler, cache_cap := cache_capacity,
    cache_ref_list := [], cache_holder := [] }

/-- `cache_holder.find(key)`. -/
def holder_find (key : Nat) : List (Nat × Page) → Option Page
  | [] => none
  | (k, p) :: rest => if k = key then some p else holder_find key rest

/-- `cache_holder.erase(key)`. -/
def holder_erase (key : Nat) : List (Nat × Page) → List (Nat × Page)
  | [] => []
  | (k, p) :: rest =>
      if k = key then holder_erase key rest else (k, p) :: holder_erase key rest

/-- `cache_holder[key] = page`. -/
def holder_assign (key : Nat) (page : Page) : List (Nat × Page) → List (Nat × Page)
  | [] => [(key, page)]
  | (k, p) :: rest =>
      if k = key then (key, page) :: rest else (k, p) :: holder_assign key page rest

/-- `Pager::load_from_disk(key)`: a zeroed page filled by a read of `PAGE_SIZE`
bytes at the 32-bit product `key * PAGE_SIZE`. -/
def Pager.load_from_disk (pg : Pager) (key : Nat) : Page :=
  { page_number := key,
    bytes := pg.file_handler.read (Page.new key).bytes (key * PAGE_SIZE % U32) PAGE_SIZE }

/-- The eviction step of `Pager::load_page`: when the cache holds `cache_cap`
pages, the first key of the front bucket leaves the cache and the bucket is
dropped if that empties it.  `front()` of an empty list is undefined. -/
def Pager.evict (pg : Pager) : Option Pager :=
  if (pg.cache_holder.length : Int) = pg.cache_cap then
    match pg.cache_ref_list with
    | (c, k :: ks) :: rest =>
        some { pg with
          cache_holder := holder_erase k pg.cache_holder,
          cache_ref_list := if ks = [] then rest else (c, ks) :: rest }
    | _ => none
  else some pg

/-- The insertion step of `Pager::load_page` on the bucket list: the key joins
the front bucket if that has count 1, else a new bucket `(1, [key])` is pushed
in front. -/
def ref_insert (key : Nat) : List (Nat × List Nat) → List (Nat × List Nat)
  | [] => [(1, [key])]
  | (c, ks) :: rest =>
      if c ≠ 1 then (1, [key]) :: (c, ks) :: rest else (c, ks ++ [key]) :: rest

/-- `Pager::load_page(key)`. -/
def Pager.load_page (pg : Pager) (key : Nat) : Option Pager :=
  match pg.evict with
  | none => none
  | some pg1 =>
      some { pg1 with
        cache_ref_list := ref_insert key pg1.cache_ref_list,
        cache_holder := holder_assign key (pg1.load_from_disk key) pg1.cache_holder }

/-- The second half of `Pager::visit`, on the part of the bucket list that starts
at `it_pair` after the key was taken out of its bucket: join the next bucket if
its count is `count`, else insert a new bucket there. -/
def ref_promote (count key : Nat) : List (Nat × List Nat) → List (Nat × List Nat)
  | [] => [(count, [key])]
  | (c, ks) :: rest =>
      if c ≠ count then (count, [key]) :: (c, ks) :: rest else (c, ks ++ [key]) :: rest

/-- `Pager::visit(it, key)` on the bucket list. -/
def visit (key : Nat) : List (Nat × List Nat) → List (Nat × List Nat)
  | [] => []
  | (c, ks) :: rest =>
      if key ∈ ks then
        if ks.erase key = [] then ref_promote (c + 1) key rest
        else (c, ks.erase key) :: ref_promote (c + 1) key rest
      else (c, ks) :: visit key rest

/-- `Pager::get_page(key)`: the pager afterwards; the returned `Page *` is
represented by `key`. -/
def Pager.get_page (pg : Pager) (key : Nat) : Option Pager :=
  match holder_find key pg.cache_holder with
  | none => pg.load_page key
  | some _ => some { pg with cache_ref_list := visit key pg.cache_ref_list }

/-- `Pager::last_page()`, an `int`. -/
def Pager.last_page (pg : Pager) : Int :=
  if pg.file_handler.file_length = 0 then 0
  else Int.ofNat (pg.file_handler.file_length / PAGE_SIZE) - 1

/-- `Pager::flush_page(page)`. -/
def Pager.flush_page (pg : Pager) (page : Page) : Pager :=
  { pg with file_handler :=
      pg.file_handler.write (page.page_number * PAGE_SIZE % U32) page.bytes PAGE_SIZE }

/-- Reading through a `Page *` obtained for `key`. -/
def Pager.page_at (pg : Pager) (key : Nat) : Option Page :=
  holder_find key pg.cache_holder

/-- Writing through a `Page *` obtained for `key`: the cached page becomes `page`. -/
def Pager.put_page (pg : Pager) (key : Nat) (page : Page) : Option Pager :=
  match holder_find key pg.cache_holder with
  | none => none
  | some _ => some { pg with cache_holder := holder_assign key page pg.cache_holder }

/-- A run of `get_page` calls, in order. -/
def Pager.get_pages (pg : Pager) : List Nat → Option Pager
  | [] => some pg
  | key :: keys =>
      match pg.get_page key with
      | none => none
      | some pg1 => pg1.get_pages keys

/-- Whether `key` is in the cache (`cache_holder.find(key) != cache_holder.end()`). -/
def Pager.resident (pg : Pager) (key : Nat) : Bool :=
  (holder_find key pg.cache_holder).isSome

/-- The page numbers held by the frequency buckets, front to back. -/
def refKeys : List (Nat × List Nat) → List Nat
  | [] => []
  | (_, ks) :: rest => ks ++ refKeys rest

/-- The page numbers held by the cache map. -/
def holderKeys (h : List (Nat × Page)) : List Nat :=
  h.map Prod.fst

/-- Consistency of the two cache structures. -/
structure PagerInv (pg : Pager) : Prop where
  nodup : (holderKeys pg.cache_holder).Nodup
  perm : (refKeys pg.cache_ref_list).Perm (holderKeys pg.cache_holder)
  nonempty : ∀ b ∈ pg.cache_ref_list, b.2 ≠ []
  size : (pg.cache_holder.length : Int) ≤ pg.cache_cap

/-! ## Node -/

/-- A `Node`: the 20 bytes `unsigned char bytes[NODE_SIZE]`. -/
structure Node where
  bytes : Nat → Nat

/-- The default member initialiser of `Node::bytes`: in use, all ids zero, the
three label slots empty `(0xFF, 0x00)`, no additional labels. -/
def Node.new : Node :=
  { bytes := fun i =>
      if i = NODE_IN_USE_OFFSET then 0x01
      else if i = NODE_LABELS_OFFSET ∨ i = NODE_LABELS_OFFSET + 2 ∨ i = NODE_LABELS_OFFSET + 4
      then 0xFF else 0x00 }

/-- `Node::get_label(pos, page_num, slot_num)`: the pair read. -/
def Node.get_label (n : Node) (pos : Nat) : Nat × Nat :=
  (n.bytes (NODE_LABELS_OFFSET + pos * 2), n.bytes (NODE_LABELS_OFFSET + pos * 2 + 1))

/-- `Node::set_label(pos, page_num, slot_num)`. -/
def Node.set_label (n : Node) (pos page_num slot_num : Nat) : Node :=
  { bytes := fun i =>
      if i = NODE_LABELS_OFFSET + pos * 2 then page_num
      else if i = NODE_LABELS_OFFSET + pos * 2 + 1 then slot_num
      else n.bytes i }

/-- `Node::set_in_use(in_use)`. -/
def Node.set_in_use (n : Node) (in_use : Bool) : Node :=
  { bytes := fun i => if i = NODE_IN_USE_OFFSET then (if in_use then 1 else 0) else n.bytes i }

/-- `Node::set_external_id(id)`: the four bytes of the `uint32_t`, low byte first. -/
def Node.set_external_id (n : Node) (id : Nat) : Node :=
  { bytes := memcpy n.bytes NODE_EXTERNAL_ID_OFFSET (fun j => id / 256 ^ j % 256)
      NODE_EXTERNAL_ID_SIZE }

/-- The loop of `Node::add_label` from slot `i` with `left` slots to go.  `none`
is the fatal exit after the loop ("Need to implement label overflow."). -/
def Node.add_label_loop (n : Node) (page_num slot_num : Nat) : Nat → Nat → Option Node
  | _, 0 => none
  | i, left + 1 =>
      if (n.get_label i).1 = 0xFF then some (n.set_label i page_num slot_num)
      else if (n.get_label i).1 = page_num ∧ (n.get_label i).2 = slot_num then some n
      else Node.add_label_loop n page_num slot_num (i + 1) left

/-- `Node::add_label(page_num, slot_num)`. -/
def Node.add_label (n : Node) (page_num slot_num : Nat) : Option Node :=
  n.add_label_loop page_num slot_num 0 3

/-- `Node::get_labels(a)`: the three pairs read. -/
def Node.get_labels (n : Node) : List (Nat × Nat) :=
  [n.get_label 0, n.get_label 1, n.get_label 2]

/-- A run of `add_label` calls, one per address of the list, in order; `none`
once a call takes the fatal exit. -/
def Node.add_labels (n : Node) : List (Nat × Nat) → Option Node
  | [] => some n
  | a :: rest =>
      match n.add_label a.1 a.2 with
      | none => none
      | some n1 => Node.add_labels n1 rest

/-- The shape every node built by `add_label` calls has: behind a slot whose
page byte is `0xFF` every later slot still holds the initial pair
`(0xFF, 0x00)`. -/
def Node.EmptyTail (n : Node) : Prop :=
  ∀ i j, i < j → j < 3 → (n.get_label i).1 = 0xFF → n.get_label j = (0xFF, 0x00)

/-! ## NodeStore -/

/-- The empty file a store starts from. -/
def FileHandler.empty : FileHandler :=
  { contents := fun _ => 0, file_length := 0 }

/-- `NodeStore::insert(node)`: the pager afterwards and the returned id.  The
`int` from `last_page()` is converted to the `uint32_t` key of `get_page`. -/
def NodeStore.insert (pg : Pager) (node : Node) : Option (Pager × Nat) :=
  let last_page := (pg.last_page % U32).toNat
  match pg.get_page last_page with
  | none => none
  | some pg1 =>
    match pg1.page_at last_page with
    | none => none
    | some page =>
      let offset := page.data_length
      match page.set_at_offset node.bytes offset NODE_SIZE with
      | none => none
      | some (_, page1) =>
        match pg1.put_page last_page page1 with
        | none => none
        | some pg2 => some (pg2.flush_page page1, offset / NODE_SIZE)

/-- `NodeStore::get(id)`: the pager afterwards and the 20 bytes seen through the
returned `Node *`, which points at data offset `(id % PAGE_DATA_SIZE) * NODE_SIZE`
of page `id / PAGE_DATA_SIZE`; a pointer whose 20 bytes are not all inside the
page buffer gives `none`. -/
def NodeStore.get (pg : Pager) (id : Nat) : Option (Pager × Node) :=
  let page_num := id / PAGE_DATA_SIZE
  match pg.get_page page_num with
  | none => none
  | some pg1 =>
    match pg1.page_at page_num with
    | none => none
    | some page =>
      let offset := (id % PAGE_DATA_SIZE) * NODE_SIZE
      if PAGE_DATA_OFFSET + offset + NODE_SIZE ≤ PAGE_SIZE then
        some (pg1, { bytes := fun j => if j < NODE_SIZE then page.data_at_offset offset j else 0 })
      else none

/-- A run of `NodeStore::insert` calls: the pager afterwards and the ids
returned, in order. -/
def NodeStore.insert_all (pg : Pager) : List Node → Option (Pager × List Nat)
  | [] => some (pg, [])
  | node :: nodes =>
      match NodeStore.insert pg node with
      | none => none
      | some (pg1, id) =>
          match NodeStore.insert_all pg1 nodes with
          | none => none
          | some (pg2, ids) => some (pg2, id :: ids)

/-- The page number and the data offset `NodeStore::get(id)` computes:
`id / PAGE_DATA_SIZE` and `(id % PAGE_DATA_SIZE) * NODE_SIZE`. -/
def NodeStore.get_address (id : Nat) : Nat × Nat :=
  (id / PAGE_DATA_SIZE, (id % PAGE_DATA_SIZE) * NODE_SIZE)

/-- The address of the record `id` in the words of the specification: with
`R = PAGE_DATA_SIZE / NODE_SIZE = 204` records per page, page `id / R` and data
offset `(id % R) * 20`. -/
def NodeStore.get_address_spec (id : Nat) : Nat × Nat :=
  (id / (PAGE_DATA_SIZE / NODE_SIZE), (id % (PAGE_DATA_SIZE / NODE_SIZE)) * NODE_SIZE)

/-! ## NodeProp and NodePropStore -/

/-- A `NodeProp`: the 13 bytes behind `unsigned char *bytes`. -/
structure NodeProp where
  bytes : Nat → Nat

/-- The default constructor `NodeProp()`: in use, key, value and next all zero. -/
def NodeProp.new : NodeProp :=
  { bytes := fun i => if i = NODE_PROP_IN_USE_OFFSET then 0x01 else 0x00 }

/-- `NodePropStore::insert(node_prop)` on the store's `pager` (the key and value
pagers are not touched): the pager afterwards.  The result of `set_at_offset` is
not looked at. -/
def NodePropStore.insert (pg : Pager) (node_prop : NodeProp) : Option Pager :=
  match pg.get_page 0 with
  | none => none
  | some pg1 =>
    match pg1.page_at 0 with
    | none => none
    | some page =>
      let offset := page.data_length
      match page.set_at_offset node_prop.bytes offset NODE_PROP_SIZE with
      | none => none
      | some (_, page1) =>
        match pg1.put_page 0 page1 with
        | none => none
        | some pg2 => some (pg2.flush_page page1)

/-- A run of `NodePropStore::insert` calls. -/
def NodePropStore.insert_all (pg : Pager) : List NodeProp → Option Pager
  | [] => some pg
  | node_prop :: rest =>
      match NodePropStore.insert pg node_prop with
      | none => none
      | some pg1 => NodePropStore.insert_all pg1 rest

/-! ## C strings -/

/-- The memory behind a `const char *` that points at the bytes `text` followed
by zero bytes. -/
def cstr (text : List Nat) : Nat → Nat :=
  fun i => text.getD i 0

/-- Whether one of the bytes `src[0 .. i-1]` is NUL. -/
def has_nul_before (src : Nat → Nat) : Nat → Bool
  | 0 => false
  | i + 1 => has_nul_before src i || src i == 0

/-- Byte `i` of what `strncpy(dst, src, n)` writes (for `i < n`): the byte of
`src`, or zero once a NUL was passed. -/
def copied (src : Nat → Nat) (i : Nat) : Nat :=
  if has_nul_before src i then 0 else src i

/-- The buffer after `strncpy(dst, src, n)`: the bytes of `src` up to its first
NUL, then zero bytes up to `n` bytes in all. -/
def strncpy (dst src : Nat → Nat) (n : Nat) : Nat → Nat :=
  fun i => if i < n then copied src i else dst i

/-- `strncmp(a, b, n) == 0`: the two agree at every index below `n` that is not
behind a NUL. -/
def strncmp_eq (a b : Nat → Nat) (n : Nat) : Bool :=
  (List.range n).all (fun i => has_nul_before a i || a i == b i)

/-- `strcmp(str, lit) == 0` for a literal `lit` without NUL bytes: `str` holds
the bytes of `lit` and then a NUL. -/
def strcmp_eq (str : Nat → Nat) (lit : List Nat) : Bool :=
  (List.range (lit.length + 1)).all (fun i => str i == lit.getD i 0)

/-! ## NodeLabel -/

/-- A `NodeLabel` is a pointer `bytes` into a page: the page it points into and
the index `base` of `page.bytes` it points at.  The store only builds labels at
`base = PAGE_DATA_OFFSET + slot * LABEL_SIZE` with `slot < 227`, whose 18 bytes
lie inside the page. -/
structure NodeLabel where
  page : Page
  base : Nat

/-- `NodeLabel::get_text()`: the 17 bytes of the text field; reading them past
the end of the page buffer is undefined. -/
def NodeLabel.get_text (l : NodeLabel) : Option (List Nat) :=
  if l.base + LABEL_TEXT_OFFSET + LABEL_TEXT_SIZE ≤ PAGE_SIZE then
    some ((List.range LABEL_TEXT_SIZE).map (fun i => l.page.bytes (l.base + LABEL_TEXT_OFFSET + i)))
  else none

/-- `NodeLabel::is_text(text)`. -/
def NodeLabel.is_text (l : NodeLabel) (text : Nat → Nat) : Bool :=
  strncmp_eq (shift l.page.bytes (l.base + LABEL_TEXT_OFFSET)) text LABEL_TEXT_SIZE

/-- `NodeLabel::set_text(text)`: the label over the page as written. -/
def NodeLabel.set_text (l : NodeLabel) (text : Nat → Nat) : NodeLabel :=
  { base := l.base,
    page :=
      { page_number := l.page.page_number,
        bytes := memcpy l.page.bytes (l.base + LABEL_TEXT_OFFSET)
          (strncpy (shift l.page.bytes (l.base + LABEL_TEXT_OFFSET)) text LABEL_TEXT_SIZE)
          LABEL_TEXT_SIZE } }

/-- The value `*num_pages()`. -/
def NodeLabel.num_pages (l : NodeLabel) : Nat :=
  l.page.bytes (l.base + LABEL_NUM_PAGES_OFFSET)

/-- The assignment `*num_pages() = v`, `v` truncated to 8 bits. -/
def NodeLabel.set_num_pages (l : NodeLabel) (v : Nat) : NodeLabel :=
  { base := l.base,
    page :=
      { page_number := l.page.page_number,
        bytes := fun i =>
          if i = l.base + LABEL_NUM_PAGES_OFFSET then v % 256 else l.page.bytes i } }

/-! ## NodeLabelStore -/

/-- The bytes of the literal `"TEACHES"`. -/
def TEACHES : List Nat := [84, 69, 65, 67, 72, 69, 83]

/-- The bytes of the literal `"TEACHES_HOMEROOM"`. -/
def TEACHES_HOMEROOM : List Nat :=
  [84, 69, 65, 67, 72, 69, 83, 95, 72, 79, 77, 69, 82, 79, 79, 77]

/-- The bytes of the literal `"COORDINATES"`. -/
def COORDINATES : List Nat := [67, 79, 79, 82, 68, 73, 78, 65, 84, 69, 83]

/-- The conversion of `str[i]`, a `char`, to `u_int32_t`: when `char` is signed
the bytes from 128 on are sign-extended. -/
def char_to_u32 (char_is_signed : Bool) (b : Nat) : Nat :=
  if char_is_signed ∧ 128 ≤ b then U32 - 256 + b else b

/-- The value of `hash` after `i` rounds of the loop of `slot_for`. -/
def slot_hash (char_is_signed : Bool) (str : Nat → Nat) : Nat → Nat
  | 0 => 5381
  | i + 1 =>
      let hash := slot_hash char_is_signed str i
      ((hash * 32 % U32 + hash) % U32 + char_to_u32 char_is_signed (str i)) % U32

/-- The part of `slot_for` below the two test branches. -/
def slot_for_hashed (char_is_signed : Bool) (str : Nat → Nat) : Nat :=
  slot_hash char_is_signed str LABEL_TEXT_SIZE % NODE_LABEL_STORE_TABLE_SIZE

/-- The loop and the reduction of `slot_for` on a `char` array of `size` bytes
that is neither test literal.  The loop reads `str[0]` to `str[16]`, whatever
the array holds: on an array of fewer than 17 bytes it reads behind the end of
the array, which is undefined. -/
def slot_for_array (char_is_signed : Bool) (str : Nat → Nat) (size : Nat) : Option Nat :=
  if LABEL_TEXT_SIZE ≤ size then some (slot_for_hashed char_is_signed str) else none

/-- `NodeLabelStore::slot_for(str)`.  The argument of a caller is taken to be an
array of at least 17 bytes.  The two test branches call `slot_for("TEACHES")`:
the literal is an array of 8 bytes (the text and its NUL) and is neither test
literal, so that call runs the loop over 17 bytes of an 8-byte array. -/
def NodeLabelStore.slot_for (char_is_signed : Bool) (str : Nat → Nat) : Option Nat :=
  if strcmp_eq str TEACHES_HOMEROOM then
    slot_for_array char_is_signed (cstr TEACHES) (TEACHES.length + 1)
  else if strcmp_eq str COORDINATES then
    slot_for_array char_is_signed (cstr TEACHES) (TEACHES.length + 1)
  else slot_for_array char_is_signed str LABEL_TEXT_SIZE

/-- The hash in the words of the specification, after `i` bytes: `h 0 = 5381`
and `h (i + 1) = (h i * 33 + byte i) mod 2^32`, the text padded with zero
bytes. -/
def djb2_spec (text : List Nat) : Nat → Nat
  | 0 => 5381
  | i + 1 => (djb2_spec text i * 33 + text.getD i 0) % 2 ^ 32

/-- The slot in the words of the specification: the hash over the 17 bytes,
modulo 227. -/
def slot_for_spec (text : List Nat) : Nat :=
  djb2_spec text 17 % 227

/-- The `for` loop of `NodeLabelStore::insert` from `page_number` on: the pager
afterwards, the value of `page_number` when the loop is left and whether it was
left by the `return` on a match.  The bound `*first_page_label.num_pages()` is
read through `first_page` (page 0) on every round.  The first argument bounds
the number of rounds; the counter is a byte, so 256 is never reached. -/
def NodeLabelStore.scan (text : Nat → Nat) (page_offset : Nat) :
    Nat → Pager → Nat → Option (Pager × Nat × Bool)
  | 0, _, _ => none
  | fuel + 1, pg, page_number =>
    match pg.page_at 0 with
    | none => none
    | some first_page =>
      if page_number <
          (NodeLabel.mk first_page (PAGE_DATA_OFFSET + page_offset)).num_pages then
        match pg.get_page page_number with
        | none => none
        | some pg1 =>
          match pg1.page_at page_number with
          | none => none
          | some page =>
            if (NodeLabel.mk page (PAGE_DATA_OFFSET + page_offset)).is_text text then
              some (pg1, page_number, true)
            else NodeLabelStore.scan text page_offset fuel pg1 ((page_number + 1) % 256)
      else some (pg, page_number, false)

/-- The last branch of `NodeLabelStore::insert` after a scan without a match:
the text goes to page `*first_page_label.num_pages()`, the counter of page 0
becomes that page number plus one (a byte), both pages are flushed. -/
def NodeLabelStore.insert_chain (pg : Pager) (text : Nat → Nat) (page_offset slot_number : Nat) :
    Option (Pager × Nat × Nat) :=
  match pg.page_at 0 with
  | none => none
  | some first_page =>
    let page_number := (NodeLabel.mk first_page (PAGE_DATA_OFFSET + page_offset)).num_pages
    match pg.get_page page_number with
    | none => none
    | some pg1 =>
      match pg1.page_at page_number with
      | none => none
      | some page =>
        let label := (NodeLabel.mk page (PAGE_DATA_OFFSET + page_offset)).set_text text
        match pg1.put_page page_number label.page with
        | none => none
        | some pg2 =>
          match pg2.page_at 0 with
          | none => none
          | some first_page1 =>
            let first_page_label :=
              (NodeLabel.mk first_page1 (PAGE_DATA_OFFSET + page_offset)).set_num_pages
                (page_number + 1)
            match pg2.put_page 0 first_page_label.page with
            | none => none
            | some pg3 =>
              some ((pg3.flush_page label.page).flush_page first_page_label.page,
                page_number, slot_number)

/-- The first branch of `NodeLabelStore::insert` (the slot of page 0 is empty):
the text and the counter 1 are written through the label into `first_page`,
`set_at_offset` copies the 18 bytes of the label onto themselves and raises the
page length, page 0 is flushed. -/
def NodeLabelStore.insert_empty (pg : Pager) (first_page : Page) (text : Nat → Nat)
    (page_offset slot_number : Nat) : Option (Pager × Nat × Nat) :=
  let first_page_label : NodeLabel := ⟨first_page, PAGE_DATA_OFFSET + page_offset⟩
  let label1 := first_page_label.set_text text
  let label2 := label1.set_num_pages (label1.num_pages + 1)
  match label2.page.set_at_offset (shift label2.page.bytes label2.base) page_offset
      LABEL_SIZE with
  | none => none
  | some (_, first_page1) =>
    match pg.put_page 0 first_page1 with
    | none => none
    | some pg1 => some (pg1.flush_page first_page1, 0, slot_number)

/-- The body of `NodeLabelStore::insert` from `page_offset` on, `slot_number`
being the value `slot_for(text)` returned: the pager afterwards and the two
out-parameters. -/
def NodeLabelStore.insert_from (pg : Pager) (text : Nat → Nat) (slot_number : Nat) :
    Option (Pager × Nat × Nat) :=
  let page_offset := slot_number * LABEL_SIZE
  match pg.get_page 0 with
  | none => none
  | some pg1 =>
    match pg1.page_at 0 with
    | none => none
    | some first_page =>
      let first_page_label : NodeLabel := ⟨first_page, PAGE_DATA_OFFSET + page_offset⟩
      if first_page_label.num_pages = 0 then
        NodeLabelStore.insert_empty pg1 first_page text page_offset slot_number
      else if first_page_label.is_text text then some (pg1, 0, slot_number)
      else
        match NodeLabelStore.scan text page_offset 256 pg1 1 with
        | none => none
        | some (pg2, page_number, true) => some (pg2, page_number, slot_number)
        | some (pg2, _, false) => NodeLabelStore.insert_chain pg2 text page_offset slot_number

/-- `NodeLabelStore::insert(text, page_number, slot_number)`: the pager
afterwards and the two out-parameters. -/
def NodeLabelStore.insert (char_is_signed : Bool) (pg : Pager) (text : Nat → Nat) :
    Option (Pager × Nat × Nat) :=
  match NodeLabelStore.slot_for char_is_signed text with
  | none => none
  | some slot_number => NodeLabelStore.insert_from pg text slot_number

/-- `NodeLabelStore::get(page_number, slot_number)`: the pager afterwards and
the label returned. -/
def NodeLabelStore.get (pg : Pager) (page_number slot_number : Nat) :
    Option (Pager × NodeLabel) :=
  match pg.get_page page_number with
  | none => none
  | some pg1 =>
    match pg1.page_at page_number with
    | none => none
    | some page => some (pg1, ⟨page, PAGE_DATA_OFFSET + slot_number * LABEL_SIZE⟩)

/-- A run of `NodeLabelStore::get` calls, one per address of the list: the
pager afterwards. -/
def NodeLabelStore.get_all (pg : Pager) : List (Nat × Nat) → Option Pager
  | [] => some pg
  | a :: rest =>
      match NodeLabelStore.get pg a.1 a.2 with
      | none => none
      | some (pg1, _) => NodeLabelStore.get_all pg1 rest

/-- A run of `NodeLabelStore::insert` calls: the pager afterwards and the
addresses returned, in order. -/
def NodeLabelStore.insert_all (char_is_signed : Bool) (pg : Pager) :
    List (Nat → Nat) → Option (Pager × List (Nat × Nat))
  | [] => some (pg, [])
  | text :: texts =>
      match NodeLabelStore.insert char_is_signed pg text with
      | none => none
      | some (pg1, a) =>
          match NodeLabelStore.insert_all char_is_signed pg1 texts with
          | none => none
          | some (pg2, addrs) => some (pg2, a :: addrs)

/-- The state of a node store's pager over a file that was empty when opened:
the file length member is 0, so `last_page()` is 0 and page 0 is the only page
ever asked for; `page` is the current page 0 (from the file while the cache is
still empty, from the cache afterwards). -/
def NodeHome (pg : Pager) (page : Page) : Prop :=
  pg.file_handler.file_length = 0 ∧ 1 ≤ pg.cache_cap ∧
  ((pg.cache_holder = [] ∧ pg.cache_ref_list = [] ∧ page = pg.load_from_disk 0) ∨
    ∃ c, pg.cache_holder = [(0, page)] ∧ pg.cache_ref_list = [(c, [0])])

/-- Byte `i` of the label record in slot `s` of page `p`, as the file holds it. -/
def lbl (pg : Pager) (p s i : Nat) : Nat :=
  (pg.load_from_disk p).bytes (PAGE_DATA_OFFSET + s * LABEL_SIZE + i)

/-- Whether `is_text(text)` holds of the label in slot `s` of page `p` of the
file. -/
def holds (pg : Pager) (p s : Nat) (text : Nat → Nat) : Bool :=
  (NodeLabel.mk (pg.load_from_disk p) (PAGE_DATA_OFFSET + s * LABEL_SIZE)).is_text text

/-- The buckets `bs` lie below count `m`, and a key from `j` on can still be
promoted once without reaching `m`. -/
def Below (m j : Nat) (bs : List (Nat × List Nat)) : Prop :=
  ∀ b ∈ bs, b.1 < m ∧ ∀ k ∈ b.2, j ≤ k → b.1 + 1 < m

/-- The state of a label store's pager between two calls: capacity at least 1,
consistent cache structures, page numbers that fit a byte, every cached page
equal to its image in the file (each mutation is flushed), and chain counters
that are bytes. -/
structure StoreInv (pg : Pager) : Prop where
  cap : 1 ≤ pg.cache_cap
  inv : PagerInv pg
  small : ∀ k ∈ holderKeys pg.cache_holder, k < 256
  coherent : ∀ k p, holder_find k pg.cache_holder = some p → p = pg.load_from_disk k
  counters : ∀ s, s < 227 → lbl pg 0 s 17 < 256

/-- The invariant of a label store on a pager of capacity at least 2 that is
only used through `insert`: either nothing was done yet on an all-zero file, or
page 0, which every call asks for first, sits alone in the last bucket, above
every other page. -/
def LabelInv (pg : Pager) : Prop :=
  StoreInv pg ∧
  ((pg.cache_holder = [] ∧ pg.cache_ref_list = [] ∧ ∀ i, pg.file_handler.contents i = 0) ∨
    ∃ bs m, pg.cache_ref_list = bs ++ [(m, [0])] ∧ 1 ≤ m ∧ ∀ b ∈ bs, b.1 < m) ∧
  2 ≤ pg.cache_cap

/-- No byte of the page lies behind the 4096 bytes of the buffer. -/
def Page.Tidy (p : Page) : Prop :=
  ∀ i, 4096 ≤ i → p.bytes i = 0

/-- The effect on the file of writing `text` to slot `s` of page `c` and
raising the chain counter of the slot (in page 0) to `c + 1`, a byte: these 18
bytes change and no other byte of any label record. -/
def Written (pg pg1 : Pager) (c s : Nat) (text : Nat → Nat) : Prop :=
  ∀ p2 s2 i, p2 < 256 → s2 < 227 → i < 18 →
    lbl pg1 p2 s2 i =
      if p2 = c ∧ s2 = s ∧ i < 17 then copied text i
      else if p2 = 0 ∧ s2 = s ∧ i = 17 then (c + 1) % 256
      else lbl pg p2 s2 i

/-- Slot `s` holds the chain `done`: the counter of the slot in page 0 is the
number of texts (as a byte) and page `q` holds the `q`-th text, zero-padded. -/
def Chain (pg : Pager) (s : Nat) (done : List (List Nat)) : Prop :=
  lbl pg 0 s 17 = done.length % 256 ∧
  ∀ q, q < done.length → ∀ i, i < 17 → lbl pg q s i = cstr (done.getD q []) i

/-- The 16-byte text `nnnnn_NODE_LABEL`, where `nnnnn` are the five decimal
digits of `n`.  With its NUL byte it is an array of exactly 17 bytes, so the
loop of `slot_for` reads it without leaving the array, also where the text is
given as a string literal. -/
def label_text (n : Nat) : List Nat :=
  [48 + n / 10000 % 10, 48 + n / 1000 % 10, 48 + n / 100 % 10, 48 + n / 10 % 10, 48 + n % 10]
    ++ [95, 78, 79, 68, 69, 95, 76, 65, 66, 69, 76]

/-- The numbers of 257 texts `nnnnn_NODE_LABEL` that all hash to slot 26. -/
def overflow_numbers : List Nat :=
  [269, 364, 939, 957, 1519, 1537, 1614, 1796, 1891, 2117, 2376, 2471,
   2969, 3051, 3549, 3626, 3644, 3721, 4129, 4206, 4301, 4388, 4483, 5063,
   5638, 5656, 5733, 6218, 6236, 6313, 6495, 6590, 6906, 7075, 7170, 7668,
   7745, 7763, 7840, 8248, 8325, 8343, 8420, 8918, 9000, 9087, 9182, 9757,
   9775, 9852, 9870, 10265, 10360, 10935, 11515, 11610, 11697, 11792, 12277, 12372,
   12947, 13527, 13622, 14107, 14202, 14289, 14384, 14959, 15539, 15634, 16119, 16214,
   16396, 16491, 16807, 17071, 17646, 17741, 18226, 18321, 18819, 19083, 19658, 19753,
   20148, 20166, 20243, 20261, 20836, 20931, 21416, 21511, 21598, 21675, 21693, 21770,
   22178, 22255, 22273, 22350, 22848, 22943, 23428, 23523, 23782, 24008, 24103, 24267,
   24285, 24362, 24380, 24955, 25535, 25630, 25794, 26115, 26210, 26297, 26374, 26392,
   26967, 27547, 27642, 28127, 28222, 28481, 28979, 29061, 29559, 29654, 30049, 30144,
   30719, 30737, 30814, 30832, 30996, 31317, 31576, 31671, 32156, 32251, 32749, 32826,
   32844, 32921, 33329, 33406, 33424, 33501, 33588, 33683, 34004, 34168, 34263, 34838,
   34856, 34933, 34951, 35418, 35436, 35513, 35531, 35695, 35790, 36016, 36275, 36370,
   36868, 36945, 36963, 37448, 37525, 37543, 37620, 38028, 38105, 38123, 38200, 38287,
   38382, 38957, 38975, 39537, 39555, 39632, 39650, 40045, 40140, 40715, 40810, 40897,
   40992, 41477, 41572, 42057, 42152, 42727, 42822, 43307, 43402, 43489, 43584, 44069,
   44164, 44739, 44834, 45319, 45414, 45596, 45691, 46176, 46271, 46846, 46941, 47426,
   47521, 48006, 48101, 48188, 48283, 48858, 48953, 49438, 49533, 50023, 50041, 50616,
   50711, 50798, 50893, 50970, 51378, 51455, 51473, 51550, 52035, 52053, 52130, 52628,
   52723, 52982, 53208, 53303, 53485, 53562, 53580, 54065, 54142, 54160, 54735, 54830,
   55315, 55410, 55497, 55592, 56077]

/-- 257 pairwise distinct label texts of 16 bytes that all hash to slot 26. -/
def overflow_texts : List (List Nat) :=
  overflow_numbers.map label_text

/-- A label file that holds a chain of three texts in slot 26
(`"00269_NODE_LABEL"`, `"00364_NODE_LABEL"` and `"00939_NODE_LABEL"`, written by
three `insert` calls on a pager of capacity 2), closed and opened again with a
pager of capacity 2: the file has three pages and the cache is empty. -/
def reopened_chain : Option Pager :=
  (NodeLabelStore.insert_all true (Pager.new FileHandler.empty 2)
      [cstr (label_text 269), cstr (label_text 364), cstr (label_text 939)]).map
    fun r => Pager.new ⟨r.1.file_handler.contents, 3 * PAGE_SIZE⟩ 2

/-- The counts of a bucket list increase strictly from front to back and all
lie above `lo`. -/
def StrictFrom : Nat → List (Nat × List Nat) → Prop
  | _, [] => True
  | lo, (c, _) :: rest => lo < c ∧ StrictFrom c rest

/-- The bucket list that holds the keys `a` at count `c`: no bucket when `a` is
empty. -/
def bucket (c : Nat) (a : List Nat) : List (Nat × List Nat) :=
  if a = [] then [] else [(c, a)]

/-! ## Theorems -/

/-- C9 (evaluation at the failing input): on a fresh page,
`set_at_offset(data, 4074, 20)` has `offset + len = 4094`, the data region size,
and yet reports success; and with `offset + len = 4095` the guard is passed too
and the copy leaves the page buffer. -/
theorem set_at_offset_accepts_4094 (data : Nat → Nat) :
    4074 + 20 ≥ PAGE_DATA_SIZE ∧
    Option.map Prod.fst ((Page.new 0).set_at_offset data 4074 20) = some true ∧
    (Page.new 0).set_at_offset data 4075 20 = none := by
  refine ⟨by decide, ?_, ?_⟩
  · simp [Page.set_at_offset, Page.new, Page.data_length, memcpy]
  · simp [Page.set_at_offset]

/-- C10 (evaluation at the failing input): appending 5 bytes to a fresh page
(length 0) succeeds and reports offset 0, but the length afterwards is 10, not 5;
and on a page of length 256 the reported offset is 0 and the data is written at
data-region offset 0, not 256. -/
theorem append_advances_twice :
    (∃ p, (Page.new 0).append (fun i => i + 1) 5 0 = some (true, 0, p) ∧
      p.data_length = 10) ∧
    (∃ p, ((Page.new 0).set_data_length 256).append (fun i => i + 1) 5 7 =
        some (true, 0, p) ∧ p.data_at_offset 0 0 = 1 ∧ p.data_at_offset 256 0 = 0) := by
  refine ⟨⟨_, rfl, by decide⟩, ⟨_, rfl, by decide, by decide⟩⟩

/-! ### The cache map -/

theorem holder_find_eq_none {key : Nat} {h : List (Nat × Page)} :
    holder_find key h = none ↔ key ∉ holderKeys h := by
  induction h with
  | nil => simp [holder_find, holderKeys]
  | cons e rest ih =>
    obtain ⟨k, p⟩ := e
    by_cases hk : k = key
    · simp [holder_find, holderKeys, hk]
    · have hk2 : ¬ key = k := fun h => hk h.symm
      simpa [holder_find, holderKeys, hk, hk2] using ih

theorem holder_find_isSome {key : Nat} {h : List (Nat × Page)} :
    (holder_find key h).isSome = true ↔ key ∈ holderKeys h := by
  rw [← not_iff_not, ← holder_find_eq_none]
  cases holder_find key h <;> simp

theorem holderKeys_assign_new {key : Nat} {p : Page} {h : List (Nat × Page)}
    (hk : key ∉ holderKeys h) : holderKeys (holder_assign key p h) = holderKeys h ++ [key] := by
  induction h with
  | nil => simp [holder_assign, holderKeys]
  | cons e rest ih =>
    obtain ⟨k, q⟩ := e
    simp only [holderKeys, List.map_cons, List.mem_cons, not_or] at hk
    have hne : ¬ k = key := fun h => hk.1 h.symm
    have := ih hk.2
    simp only [holderKeys] at this
    simp [holder_assign, holderKeys, hne, this]

theorem holderKeys_assign_old {key : Nat} {p : Page} {h : List (Nat × Page)} :
    key ∈ holderKeys h → holderKeys (holder_assign key p h) = holderKeys h := by
  induction h with
  | nil => simp [holderKeys]
  | cons e rest ih =>
    obtain ⟨k, q⟩ := e
    intro hk
    by_cases hne : k = key
    · simp [holder_assign, holderKeys, hne]
    · simp only [holderKeys, List.map_cons, List.mem_cons] at hk
      have hin : key ∈ holderKeys rest := by
        rcases hk with h | h
        · exact absurd h.symm hne
        · exact h
      have := ih hin
      simp only [holderKeys] at this
      simp [holder_assign, holderKeys, hne, this]

theorem holderKeys_erase (key : Nat) (h : List (Nat × Page)) :
    holderKeys (holder_erase key h) = (holderKeys h).filter (fun k => k != key) := by
  induction h with
  | nil => simp [holder_erase, holderKeys]
  | cons e rest ih =>
    obtain ⟨k, q⟩ := e
    simp only [holderKeys] at ih
    by_cases hne : k = key
    · simp [holder_erase, holderKeys, hne, ih]
    · simp [holder_erase, holderKeys, hne, ih]

theorem holder_find_assign_same (key : Nat) (p : Page) (h : List (Nat × Page)) :
    holder_find key (holder_assign key p h) = some p := by
  induction h with
  | nil => simp [holder_assign, holder_find]
  | cons e rest ih =>
    obtain ⟨k, q⟩ := e
    by_cases hne : k = key
    · simp [holder_assign, holder_find, hne]
    · simp [holder_assign, holder_find, hne, ih]

theorem holder_find_assign_other {key k2 : Nat} (p : Page) (h : List (Nat × Page))
    (hne : k2 ≠ key) : holder_find k2 (holder_assign key p h) = holder_find k2 h := by
  induction h with
  | nil =>
    have : ¬ key = k2 := fun h => hne h.symm
    simp [holder_assign, holder_find, this]
  | cons e rest ih =>
    obtain ⟨k, q⟩ := e
    by_cases hk : k = key
    · subst hk
      have : ¬ k = k2 := fun h => hne h.symm
      simp [holder_assign, holder_find, this]
    · by_cases hk2 : k = k2
      · subst hk2
        simp [holder_assign, holder_find, hk]
      · simp [holder_assign, holder_find, hk, hk2, ih]

theorem holder_find_erase_other {key k2 : Nat} (h : List (Nat × Page))
    (hne : k2 ≠ key) : holder_find k2 (holder_erase key h) = holder_find k2 h := by
  induction h with
  | nil => simp [holder_erase, holder_find]
  | cons e rest ih =>
    obtain ⟨k, q⟩ := e
    by_cases hk : k = key
    · subst hk
      have : ¬ k = k2 := fun h => hne h.symm
      simp [holder_erase, holder_find, this, ih]
    · by_cases hk2 : k = k2
      · subst hk2
        simp [holder_erase, holder_find, hk]
      · simp [holder_erase, holder_find, hk, hk2, ih]

/-! ### The bucket list -/

theorem refKeys_promote (count key : Nat) (l : List (Nat × List Nat)) :
    (refKeys (ref_promote count key l)).Perm (key :: refKeys l) := by
  cases l with
  | nil => simp [ref_promote, refKeys]
  | cons b rest =>
    obtain ⟨c, ks⟩ := b
    by_cases hc : c = count
    · simp only [ref_promote, hc, ne_eq, not_true_eq_false, if_false, refKeys]
      rw [List.append_assoc]
      exact (List.perm_middle).trans (List.Perm.refl _)
    · simp [ref_promote, hc, refKeys]

theorem refKeys_insert (key : Nat) (l : List (Nat × List Nat)) :
    (refKeys (ref_insert key l)).Perm (key :: refKeys l) := by
  cases l with
  | nil => simp [ref_insert, refKeys]
  | cons b rest =>
    obtain ⟨c, ks⟩ := b
    by_cases hc : c = 1
    · simp only [ref_insert, hc, ne_eq, not_true_eq_false, if_false, refKeys]
      rw [List.append_assoc]
      exact (List.perm_middle).trans (List.Perm.refl _)
    · simp [ref_insert, hc, refKeys]

theorem refKeys_visit {key : Nat} {l : List (Nat × List Nat)} (hk : key ∈ refKeys l) :
    (refKeys (visit key l)).Perm (refKeys l) := by
  induction l with
  | nil => simp [refKeys] at hk
  | cons b rest ih =>
    obtain ⟨c, ks⟩ := b
    by_cases hin : key ∈ ks
    · have h1 : (ks.erase key ++ refKeys (ref_promote (c + 1) key rest)).Perm
          (ks ++ refKeys rest) := by
        have h2 := (refKeys_promote (c + 1) key rest).append_left (ks.erase key)
        refine h2.trans ?_
        refine (List.perm_middle).trans ?_
        rw [← List.cons_append]
        exact (List.perm_cons_erase hin).symm.append_right _
      by_cases he : ks.erase key = []
      · simp only [visit, hin, if_true, he, refKeys]
        simpa [he] using h1
      · simp only [visit, hin, if_true, he, if_false, refKeys]
        exact h1
    · simp only [refKeys, List.mem_append] at hk
      have hr : key ∈ refKeys rest := by
        rcases hk with h | h
        · exact absurd h hin
        · exact h
      simp only [visit, hin, if_false, refKeys]
      exact (ih hr).append_left ks

theorem ref_promote_nonempty (count key : Nat) {l : List (Nat × List Nat)}
    (h : ∀ b ∈ l, b.2 ≠ []) : ∀ b ∈ ref_promote count key l, b.2 ≠ [] := by
  cases l with
  | nil => simp [ref_promote]
  | cons b rest =>
    obtain ⟨c, ks⟩ := b
    by_cases hc : c = count
    · intro b hb
      simp only [ref_promote, hc, ne_eq, not_true_eq_false, if_false, List.mem_cons] at hb
      rcases hb with hb | hb
      · subst hb; simp
      · exact h b (List.mem_cons_of_mem _ hb)
    · intro b hb
      simp only [ref_promote, hc, ne_eq, not_false_eq_true, if_true, List.mem_cons] at hb
      rcases hb with hb | hb | hb
      · subst hb; simp
      · subst hb; exact h _ (List.mem_cons_self _ _)
      · exact h b (List.mem_cons_of_mem _ hb)

theorem ref_insert_nonempty (key : Nat) {l : List (Nat × List Nat)}
    (h : ∀ b ∈ l, b.2 ≠ []) : ∀ b ∈ ref_insert key l, b.2 ≠ [] := by
  cases l with
  | nil => simp [ref_insert]
  | cons b rest =>
    obtain ⟨c, ks⟩ := b
    by_cases hc : c = 1
    · intro b hb
      simp only [ref_insert, hc, ne_eq, not_true_eq_false, if_false, List.mem_cons] at hb
      rcases hb with hb | hb
      · subst hb; simp
      · exact h b (List.mem_cons_of_mem _ hb)
    · intro b hb
      simp only [ref_insert, hc, ne_eq, not_false_eq_true, if_true, List.mem_cons] at hb
      rcases hb with hb | hb | hb
      · subst hb; simp
      · subst hb; exact h _ (List.mem_cons_self _ _)
      · exact h b (List.mem_cons_of_mem _ hb)

theorem visit_nonempty (key : Nat) {l : List (Nat × List Nat)}
    (h : ∀ b ∈ l, b.2 ≠ []) : ∀ b ∈ visit key l, b.2 ≠ [] := by
  induction l with
  | nil => simp [visit]
  | cons b rest ih =>
    obtain ⟨c, ks⟩ := b
    have hrest : ∀ b ∈ rest, b.2 ≠ [] := fun b hb => h b (List.mem_cons_of_mem _ hb)
    by_cases hin : key ∈ ks
    · by_cases he : ks.erase key = []
      · simp only [visit, hin, if_true, he]
        exact ref_promote_nonempty _ _ hrest
      · simp only [visit, hin, if_true, he, if_false]
        intro b hb
        rcases List.mem_cons.1 hb with hb | hb
        · subst hb; exact he
        · exact ref_promote_nonempty _ _ hrest b hb
    · simp only [visit, hin, if_false]
      intro b hb
      rcases List.mem_cons.1 hb with hb | hb
      · subst hb; exact h _ (List.mem_cons_self _ _)
      · exact ih hrest b hb

/-! ### The pager invariant -/

theorem holder_length (h : List (Nat × Page)) : (holderKeys h).length = h.length := by
  simp [holderKeys]

/-- The eviction step keeps the two cache structures consistent and leaves room
for one more page. -/
theorem evict_spec {pg : Pager} (hinv : PagerInv pg) (hcap : 1 ≤ pg.cache_cap) :
    ∃ pg1, pg.evict = some pg1 ∧
      (holderKeys pg1.cache_holder).Nodup ∧
      (refKeys pg1.cache_ref_list).Perm (holderKeys pg1.cache_holder) ∧
      (∀ b ∈ pg1.cache_ref_list, b.2 ≠ []) ∧
      (pg1.cache_holder.length : Int) < pg.cache_cap ∧
      pg1.cache_cap = pg.cache_cap ∧ pg1.file_handler = pg.file_handler ∧
      (∀ k, k ∈ holderKeys pg1.cache_holder → k ∈ holderKeys pg.cache_holder) := by
  by_cases hfull : (pg.cache_holder.length : Int) = pg.cache_cap
  · have hlen := hinv.perm.length_eq
    rw [holder_length] at hlen
    obtain ⟨fh, cap, refs, holder⟩ := pg
    simp only at hfull hlen hcap
    cases refs with
    | nil =>
      simp only [refKeys, List.length_nil] at hlen
      omega
    | cons b rest =>
      obtain ⟨c, ks⟩ := b
      cases ks with
      | nil => exact absurd rfl (hinv.nonempty (c, []) (List.mem_cons_self _ _))
      | cons k ks =>
        have hnodup : (holderKeys holder).Nodup := hinv.nodup
        have hperm : (k :: (ks ++ refKeys rest)).Perm (holderKeys holder) := by
          simpa [refKeys] using hinv.perm
        have hperm2 : (ks ++ refKeys rest).Perm
            ((holderKeys holder).filter (fun x => x != k)) := by
          have h1 := hperm.erase k
          rw [List.erase_cons_head] at h1
          rw [hnodup.erase_eq_filter] at h1
          exact h1
        have hlen2 := hperm2.length_eq
        have hlen3 := hperm.length_eq
        rw [← holderKeys_erase, holder_length] at hlen2
        rw [holder_length, List.length_cons] at hlen3
        have hne : ∀ b ∈ (c, k :: ks) :: rest, b.2 ≠ [] := hinv.nonempty
        refine ⟨{ file_handler := fh, cache_cap := cap,
                  cache_ref_list := if ks = [] then rest else (c, ks) :: rest,
                  cache_holder := holder_erase k holder }, ?_, ?_, ?_, ?_, ?_, rfl, rfl, ?_⟩
        · simp only [Pager.evict, hfull, if_true]
        · simp only [holderKeys_erase]
          exact hnodup.filter _
        · simp only [holderKeys_erase]
          by_cases he : ks = []
          · simpa [he, refKeys] using hperm2
          · simpa [he, refKeys] using hperm2
        · intro b hb
          by_cases he : ks = []
          · simp only [he, if_true] at hb
            exact hne b (List.mem_cons_of_mem _ hb)
          · simp only [he, if_false, List.mem_cons] at hb
            rcases hb with hb | hb
            · subst hb; exact he
            · exact hne b (List.mem_cons_of_mem _ hb)
        · simp only
          omega
        · intro x hx
          simp only [holderKeys_erase, List.mem_filter] at hx
          exact hx.1
  · have hsz := hinv.size
    refine ⟨pg, by simp [Pager.evict, hfull], hinv.nodup, hinv.perm, hinv.nonempty, ?_,
      rfl, rfl, fun _ h => h⟩
    omega

/-- Every `get_page` on a consistent pager of capacity at least 1 is defined,
keeps the pager consistent, leaves the file alone and makes the key resident. -/
theorem get_page_inv {pg : Pager} (hinv : PagerInv pg) (hcap : 1 ≤ pg.cache_cap) (key : Nat) :
    ∃ pg1, pg.get_page key = some pg1 ∧ PagerInv pg1 ∧
      pg1.cache_cap = pg.cache_cap ∧ pg1.file_handler = pg.file_handler ∧
      pg1.resident key = true := by
  cases hfind : holder_find key pg.cache_holder with
  | some p =>
    have hmem : key ∈ holderKeys pg.cache_holder := by
      rw [← holder_find_isSome, hfind]; rfl
    have hmem2 : key ∈ refKeys pg.cache_ref_list := hinv.perm.mem_iff.2 hmem
    refine ⟨{ pg with cache_ref_list := visit key pg.cache_ref_list },
      by simp only [Pager.get_page, hfind], ?_, rfl, rfl, ?_⟩
    · exact ⟨hinv.nodup, (refKeys_visit hmem2).trans hinv.perm,
        visit_nonempty _ hinv.nonempty, hinv.size⟩
    · simp [Pager.resident, hfind]
  | none =>
    obtain ⟨pg1, hev, hnd, hperm, hne, hsz, hcap1, hfh, hsub⟩ := evict_spec hinv hcap
    have hnot : key ∉ holderKeys pg1.cache_holder := fun h =>
      (holder_find_eq_none.1 hfind) (hsub _ h)
    refine ⟨{ pg1 with
        cache_ref_list := ref_insert key pg1.cache_ref_list,
        cache_holder := holder_assign key (pg1.load_from_disk key) pg1.cache_holder },
      by simp only [Pager.get_page, hfind, Pager.load_page, hev], ?_, hcap1, hfh, ?_⟩
    · refine ⟨?_, ?_, ref_insert_nonempty _ hne, ?_⟩
      · simp only [holderKeys_assign_new hnot]
        exact List.nodup_append.2 ⟨hnd, List.nodup_singleton _, by simpa using hnot⟩
      · simp only [holderKeys_assign_new hnot]
        refine (refKeys_insert key _).trans ?_
        refine (List.Perm.cons key hperm).trans ?_
        exact (List.perm_append_singleton key _).symm
      · have h1 : (holder_assign key (pg1.load_from_disk key) pg1.cache_holder).length
            = pg1.cache_holder.length + 1 := by
          rw [← holder_length, holderKeys_assign_new hnot, List.length_append, holder_length]
          rfl
        simp only [h1, hcap1]
        push_cast
        omega
    · simp [Pager.resident, holder_find_assign_same]

theorem pagerInv_new (fh : FileHandler) (cap : Int) (hcap : 0 ≤ cap) :
    PagerInv (Pager.new fh cap) :=
  ⟨by simp [Pager.new, holderKeys], by simp [Pager.new, holderKeys, refKeys],
    by simp [Pager.new], by simpa [Pager.new] using hcap⟩

/-- A run of `get_page` calls on a consistent pager is defined and keeps it
consistent. -/
theorem get_pages_inv (keys : List Nat) : ∀ {pg : Pager}, PagerInv pg → 1 ≤ pg.cache_cap →
    ∃ pg1, pg.get_pages keys = some pg1 ∧ PagerInv pg1 ∧ pg1.cache_cap = pg.cache_cap := by
  induction keys with
  | nil => intro pg hinv _; exact ⟨pg, rfl, hinv, rfl⟩
  | cons key keys ih =>
    intro pg hinv hcap
    obtain ⟨pg1, h1, hinv1, hcap1, _, _⟩ := get_page_inv hinv hcap key
    obtain ⟨pg2, h2, hinv2, hcap2⟩ := ih hinv1 (by rw [hcap1]; exact hcap)
    exact ⟨pg2, by simp only [Pager.get_pages, h1, h2], hinv2, by rw [hcap2, hcap1]⟩

/-- C6. Pager capacity invariant: on a pager of capacity `C ≥ 1` that starts with
an empty cache (over any file), every sequence of `get_page` calls is defined and
leaves at most `C` resident pages. -/
theorem pager_capacity_invariant (fh : FileHandler) (C : Int) (hC : 1 ≤ C) (keys : List Nat) :
    ∃ pg, (Pager.new fh C).get_pages keys = some pg ∧ (pg.cache_holder.length : Int) ≤ C := by
  obtain ⟨pg, h, hinv, hcap⟩ :=
    get_pages_inv keys (pagerInv_new fh C (by omega)) (by simpa [Pager.new] using hC)
  refine ⟨pg, h, ?_⟩
  have := hinv.size
  rw [hcap] at this
  simpa [Pager.new] using this

/-- C6 at a concrete input: capacity 2 and the requests 0, 1, 0, 2, 3, 3. -/
theorem pager_capacity_invariant_witness :
    (1 : Int) ≤ 2 ∧ ∃ pg, (Pager.new ⟨fun _ => 0, 0⟩ 2).get_pages [0, 1, 0, 2, 3, 3] = some pg ∧
      (pg.cache_holder.length : Int) ≤ 2 :=
  ⟨by decide, pager_capacity_invariant ⟨fun _ => 0, 0⟩ 2 (by decide) [0, 1, 0, 2, 3, 3]⟩

/-! ### Exact cache states for runs of distinct keys -/

theorem get_pages_append (xs ys : List Nat) : ∀ pg : Pager,
    pg.get_pages (xs ++ ys) = (pg.get_pages xs).bind (fun p => p.get_pages ys) := by
  induction xs with
  | nil => intro pg; simp [Pager.get_pages]
  | cons x xs ih =>
    intro pg
    cases h : pg.get_page x with
    | none => simp [Pager.get_pages, h]
    | some pg1 => simp [Pager.get_pages, h, ih pg1]

theorem resident_iff {pg : Pager} {key : Nat} :
    pg.resident key = true ↔ key ∈ holderKeys pg.cache_holder :=
  holder_find_isSome

/-- A miss while there is room: the key joins the back of the count-1 bucket. -/
theorem get_page_miss_room {pg : Pager} {a : List Nat} {k : Nat}
    (href : pg.cache_ref_list = bucket 1 a) (hkeys : holderKeys pg.cache_holder = a)
    (hk : k ∉ a) (hroom : (a.length : Int) < pg.cache_cap) :
    ∃ pg1, pg.get_page k = some pg1 ∧ pg1.cache_ref_list = bucket 1 (a ++ [k]) ∧
      holderKeys pg1.cache_holder = a ++ [k] ∧ pg1.cache_cap = pg.cache_cap := by
  have hfind : holder_find k pg.cache_holder = none := by
    rw [holder_find_eq_none, hkeys]; exact hk
  have hlen : (pg.cache_holder.length : Int) ≠ pg.cache_cap := by
    rw [← holder_length, hkeys]; omega
  have hev : pg.evict = some pg := by simp [Pager.evict, hlen]
  refine ⟨{ pg with
      cache_ref_list := ref_insert k pg.cache_ref_list,
      cache_holder := holder_assign k (pg.load_from_disk k) pg.cache_holder },
    by simp only [Pager.get_page, hfind, Pager.load_page, hev], ?_, ?_, rfl⟩
  · simp only [href]
    by_cases ha : a = []
    · simp [bucket, ha, ref_insert]
    · simp [bucket, ha, ref_insert]
  · simp only
    rw [holderKeys_assign_new (by rw [hkeys]; exact hk), hkeys]

/-- Distinct keys loaded while there is room all end up, in order, in the
count-1 bucket. -/
theorem get_pages_distinct (ks : List Nat) : ∀ {pg : Pager} {a : List Nat},
    pg.cache_ref_list = bucket 1 a → holderKeys pg.cache_holder = a →
    (a ++ ks).Nodup → ((a ++ ks).length : Int) ≤ pg.cache_cap →
    ∃ pg1, pg.get_pages ks = some pg1 ∧ pg1.cache_ref_list = bucket 1 (a ++ ks) ∧
      holderKeys pg1.cache_holder = a ++ ks ∧ pg1.cache_cap = pg.cache_cap := by
  induction ks with
  | nil =>
    intro pg a href hkeys _ _
    exact ⟨pg, rfl, by simpa using href, by simpa using hkeys, rfl⟩
  | cons k ks ih =>
    intro pg a href hkeys hnd hlen
    have hk : k ∉ a := by
      intro h
      have := (List.nodup_append.1 hnd).2.2
      exact this h (List.mem_cons_self _ _)
    have hroom : (a.length : Int) < pg.cache_cap := by
      simp only [List.length_append, List.length_cons] at hlen
      push_cast at hlen
      omega
    obtain ⟨pg1, h1, href1, hkeys1, hcap1⟩ := get_page_miss_room href hkeys hk hroom
    have hnd1 : ((a ++ [k]) ++ ks).Nodup := by simpa using hnd
    have hlen1 : (((a ++ [k]) ++ ks).length : Int) ≤ pg1.cache_cap := by
      rw [hcap1]; simpa using hlen
    obtain ⟨pg2, h2, href2, hkeys2, hcap2⟩ := ih href1 hkeys1 hnd1 hlen1
    refine ⟨pg2, by simp only [Pager.get_pages, h1, h2], ?_, ?_, by rw [hcap2, hcap1]⟩
    · simpa using href2
    · simpa using hkeys2

/-- A miss on a full cache evicts the first key of the front bucket, and nothing
else leaves the cache. -/
theorem get_page_miss_full {pg : Pager} {X c k : Nat} {ks : List Nat}
    {more : List (Nat × List Nat)} (hX : pg.resident X = false)
    (hfull : (pg.cache_holder.length : Int) = pg.cache_cap)
    (href : pg.cache_ref_list = (c, k :: ks) :: more) :
    ∃ pg1, pg.get_page X = some pg1 ∧
      ∀ y, pg1.resident y = true ↔ (y = X ∨ (pg.resident y = true ∧ y ≠ k)) := by
  have hfind : holder_find X pg.cache_holder = none := by
    cases h : holder_find X pg.cache_holder with
    | none => rfl
    | some p => simp [Pager.resident, h] at hX
  have hXk : X ∉ holderKeys (holder_erase k pg.cache_holder) := by
    rw [holderKeys_erase]
    intro h
    exact (holder_find_eq_none.1 hfind) (List.mem_filter.1 h).1
  let pg0 : Pager := { pg with
      cache_holder := holder_erase k pg.cache_holder,
      cache_ref_list := if ks = [] then more else (c, ks) :: more }
  have hev : pg.evict = some pg0 := by
    simp only [Pager.evict, hfull, if_true, href, pg0]
  refine ⟨{ pg0 with
      cache_ref_list := ref_insert X pg0.cache_ref_list,
      cache_holder := holder_assign X (pg0.load_from_disk X) pg0.cache_holder },
    by simp only [Pager.get_page, hfind, Pager.load_page, hev], ?_⟩
  intro y
  simp only [resident_iff]
  rw [holderKeys_assign_new hXk, holderKeys_erase]
  simp only [List.mem_append, List.mem_filter, List.mem_singleton, bne_iff_ne, ne_eq]
  tauto

/-- C8. First-in-first-out eviction among equally used pages: on an empty cache
of capacity `C ≥ 1`, after `get_page` was called once on each of `C + 1` pairwise
distinct page numbers `k1 :: rest`, in order, `k1` is not resident and every other
one is. -/
theorem fifo_eviction (fh : FileHandler) (C : Nat) (hC : 1 ≤ C) (k1 : Nat) (rest : List Nat)
    (hlen : (k1 :: rest).length = C + 1) (hnd : (k1 :: rest).Nodup) :
    ∃ pg, (Pager.new fh C).get_pages (k1 :: rest) = some pg ∧
      pg.resident k1 = false ∧ ∀ k ∈ rest, pg.resident k = true := by
  have hsplit : k1 :: rest = (k1 :: rest.dropLast) ++ [rest.getLast?.getD 0] := by
    cases hr : rest.getLast? with
    | none =>
      rw [List.getLast?_eq_none_iff] at hr
      subst hr
      simp at hlen
      omega
    | some x =>
      obtain ⟨ys, hys⟩ := List.getLast?_eq_some_iff.1 hr
      subst hys
      simp
  generalize hX : rest.getLast?.getD 0 = X at hsplit
  generalize hini : rest.dropLast = ini at hsplit
  have hnd2 : ((k1 :: ini) ++ [X]).Nodup := hsplit ▸ hnd
  have hlen2 : ((k1 :: ini) ++ [X]).length = C + 1 := hsplit ▸ hlen
  have hrest : rest = ini ++ [X] := by
    have := hsplit
    simpa using this
  have hlen3 : (k1 :: ini).length = C := by
    simp only [List.length_append, List.length_singleton] at hlen2
    omega
  obtain ⟨pg1, h1, href1, hkeys1, hcap1⟩ :=
    @get_pages_distinct (k1 :: ini) (Pager.new fh C) []
      (by simp [Pager.new, bucket]) (by simp [Pager.new, holderKeys])
      (by simpa using (List.nodup_append.1 hnd2).1)
      (by simp only [List.nil_append, hlen3, Pager.new]; exact le_refl _)
  have hXnot : X ∉ k1 :: ini := fun h =>
    (List.nodup_append.1 hnd2).2.2 h (List.mem_singleton_self X)
  have hres : pg1.resident X = false := by
    cases h : pg1.resident X with
    | false => rfl
    | true => rw [resident_iff, hkeys1] at h; exact absurd h hXnot
  have hfull : (pg1.cache_holder.length : Int) = pg1.cache_cap := by
    rw [← holder_length, hkeys1, hcap1]
    simp only [List.nil_append, hlen3, Pager.new]
  have href2 : pg1.cache_ref_list = (1, k1 :: ini) :: [] := by
    rw [href1]; simp [bucket]
  obtain ⟨pg2, h2, hres2⟩ := get_page_miss_full hres hfull href2
  refine ⟨pg2, ?_, ?_, ?_⟩
  · rw [hsplit, get_pages_append, h1]
    simp [Pager.get_pages, h2]
  · cases h : pg2.resident k1 with
    | false => rfl
    | true =>
      rcases (hres2 k1).1 h with h3 | h3
      · exact absurd (h3 ▸ List.mem_cons_self k1 ini) hXnot
      · exact absurd rfl h3.2
  · intro k hk
    rw [hrest] at hk
    rw [hres2]
    rcases List.mem_append.1 hk with hk | hk
    · right
      refine ⟨?_, ?_⟩
      · rw [resident_iff, hkeys1]
        exact List.mem_cons_of_mem _ hk
      · intro hkk
        subst hkk
        exact (List.nodup_cons.1 (List.nodup_append.1 hnd2).1).1 hk
    · left
      simpa using hk

/-- C8 at a concrete input: capacity 2 and the loads 7, 8, 9. -/
theorem fifo_eviction_witness :
    ∃ pg, (Pager.new ⟨fun _ => 0, 0⟩ (2 : Nat)).get_pages (7 :: [8, 9]) = some pg ∧
      pg.resident 7 = false ∧ ∀ k ∈ [8, 9], pg.resident k = true :=
  fifo_eviction ⟨fun _ => 0, 0⟩ 2 (by decide) 7 [8, 9] (by decide) (by decide)

/-! ### Second accesses: from the count-1 bucket to the count-2 bucket -/

theorem visit_two_buckets {y : Nat} {a b : List Nat} (hy : y ∈ a) :
    visit y (bucket 1 a ++ bucket 2 b) = bucket 1 (a.erase y) ++ bucket 2 (b ++ [y]) := by
  have ha : a ≠ [] := List.ne_nil_of_mem hy
  have hp : ref_promote 2 y (bucket 2 b) = [(2, b ++ [y])] := by
    by_cases hb : b = []
    · simp [bucket, hb, ref_promote]
    · simp [bucket, hb, ref_promote]
  have hb1 : bucket 1 a = [(1, a)] := by simp [bucket, ha]
  have hb2 : bucket 2 (b ++ [y]) = [(2, b ++ [y])] := by simp [bucket]
  rw [hb1, hb2]
  by_cases he : a.erase y = []
  · have hb3 : bucket 1 (a.erase y) = [] := by simp [bucket, he]
    rw [hb3]
    simp [visit, hy, he, hp]
  · have hb3 : bucket 1 (a.erase y) = [(1, a.erase y)] := by simp [bucket, he]
    rw [hb3]
    simp [visit, hy, he, hp]

/-- Hits on distinct keys of the count-1 bucket move them, in the order of the
accesses, to the count-2 bucket; the cache map is not touched. -/
theorem get_pages_second (ys : List Nat) : ∀ {pg : Pager} {a b : List Nat},
    pg.cache_ref_list = bucket 1 a ++ bucket 2 b → a.Nodup → ys.Nodup →
    (∀ y ∈ ys, y ∈ a) → (∀ y ∈ ys, pg.resident y = true) →
    ∃ pg1, pg.get_pages ys = some pg1 ∧
      pg1.cache_ref_list = bucket 1 (a.filter (fun x => decide (x ∉ ys))) ++ bucket 2 (b ++ ys) ∧
      pg1.cache_holder = pg.cache_holder ∧ pg1.cache_cap = pg.cache_cap := by
  induction ys with
  | nil =>
    intro pg a b href _ _ _ _
    exact ⟨pg, rfl, by simpa using href, rfl, rfl⟩
  | cons y ys ih =>
    intro pg a b href ha hys hsub hres
    have hy : y ∈ a := hsub y (List.mem_cons_self _ _)
    obtain ⟨p, hp⟩ := Option.isSome_iff_exists.1 (hres y (List.mem_cons_self _ _))
    have hfind : holder_find y pg.cache_holder = some p := hp
    have h1 : pg.get_page y = some { pg with cache_ref_list := visit y pg.cache_ref_list } := by
      simp only [Pager.get_page, hfind]
    have hnd := List.nodup_cons.1 hys
    obtain ⟨pg2, h2, href2, hh2, hcap2⟩ :=
      @ih { pg with cache_ref_list := visit y pg.cache_ref_list } (a.erase y) (b ++ [y])
        (by simp only [href]; exact visit_two_buckets hy)
        (ha.erase y) hnd.2
        (fun z hz => (ha.mem_erase_iff).2
          ⟨fun h => hnd.1 (h ▸ hz), hsub z (List.mem_cons_of_mem _ hz)⟩)
        (fun z hz => hres z (List.mem_cons_of_mem _ hz))
    refine ⟨pg2, by simp only [Pager.get_pages, h1, h2], ?_, hh2, hcap2⟩
    rw [href2, ha.erase_eq_filter, List.filter_filter, List.append_assoc]
    congr 2
    apply List.filter_congr
    intro x _
    by_cases hx : x = y
    · simp [hx]
    · simp [hx]

theorem filter_not_mem_erase {ks ys : List Nat} {kj : Nat} (hnd : ks.Nodup) (hkj : kj ∈ ks)
    (hys : ys.Perm (ks.erase kj)) : ks.filter (fun x => decide (x ∉ ys)) = [kj] := by
  have h1 : ks.filter (fun x => decide (x ∉ ys)) = ks.filter (fun x => x == kj) := by
    apply List.filter_congr
    intro x hx
    have : x ∈ ys ↔ x ≠ kj ∧ x ∈ ks := by
      rw [hys.mem_iff, hnd.mem_erase_iff]
    by_cases hxk : x = kj
    · subst hxk
      simp [this]
    · simp [this, hxk, hx]
  rw [h1, List.filter_beq, List.count_eq_one_of_mem hnd hkj]
  rfl

/-- C7. Least-frequently-used eviction: on an empty cache of capacity `C ≥ 2`,
after `get_page` was called once on each of the `C` distinct page numbers `ks`
and then once more, in any order `ys`, on every one of them except `kj`, the
call `get_page(X)` for a page number `X` outside `ks` evicts `kj` and only `kj`:
afterwards `kj` is not resident, `X` is, and so is every other key of `ks`. -/
theorem lfu_eviction (fh : FileHandler) (C : Nat) (hC : 2 ≤ C) (ks : List Nat)
    (hlen : ks.length = C) (hnd : ks.Nodup) (kj : Nat) (hkj : kj ∈ ks) (X : Nat)
    (hX : X ∉ ks) (ys : List Nat) (hys : ys.Perm (ks.erase kj)) :
    ∃ pg, (Pager.new fh C).get_pages (ks ++ ys ++ [X]) = some pg ∧
      pg.resident kj = false ∧ pg.resident X = true ∧
      ∀ k ∈ ks, k ≠ kj → pg.resident k = true := by
  obtain ⟨pg1, h1, href1, hkeys1, hcap1⟩ :=
    @get_pages_distinct ks (Pager.new fh C) []
      (by simp [Pager.new, bucket]) (by simp [Pager.new, holderKeys])
      (by simpa using hnd) (by simp [hlen, Pager.new])
  simp only [List.nil_append] at href1 hkeys1
  have hysnd : ys.Nodup := hys.nodup_iff.2 (hnd.erase kj)
  have hysmem : ∀ y ∈ ys, y ∈ ks := fun y hy => List.mem_of_mem_erase (hys.mem_iff.1 hy)
  obtain ⟨pg2, h2, href2, hh2, hcap2⟩ :=
    @get_pages_second ys pg1 ks []
      (by simp [href1, bucket]) hnd hysnd hysmem
      (fun y hy => by rw [resident_iff, hkeys1]; exact hysmem y hy)
  rw [filter_not_mem_erase hnd hkj hys] at href2
  have hyslen : ys.length = C - 1 := by
    rw [hys.length_eq, List.length_erase_of_mem hkj, hlen]
  have hysne : ys ≠ [] := by
    intro h
    rw [h] at hyslen
    simp at hyslen
    omega
  have href3 : pg2.cache_ref_list = (1, kj :: []) :: [(2, ys)] := by
    rw [href2]; simp [bucket, hysne]
  have hres : pg2.resident X = false := by
    cases h : pg2.resident X with
    | false => rfl
    | true => rw [resident_iff, hh2, hkeys1] at h; exact absurd h hX
  have hfull : (pg2.cache_holder.length : Int) = pg2.cache_cap := by
    rw [hh2, ← holder_length, hkeys1, hcap2, hcap1, hlen]
    rfl
  obtain ⟨pg3, h3, hres3⟩ := get_page_miss_full hres hfull href3
  refine ⟨pg3, ?_, ?_, ?_, ?_⟩
  · rw [get_pages_append, get_pages_append, h1]
    simp [Pager.get_pages, h2, h3]
  · cases h : pg3.resident kj with
    | false => rfl
    | true =>
      rcases (hres3 kj).1 h with h4 | h4
      · exact absurd (h4 ▸ hkj) hX
      · exact absurd rfl h4.2
  · rw [hres3]; left; rfl
  · intro k hk hne
    rw [hres3]
    right
    exact ⟨by rw [resident_iff, hh2, hkeys1]; exact hk, hne⟩

/-- C7 at the instance of the specification: capacity 2, page 10 (A) accessed
twice, page 11 (B) once, then page 12 is loaded; B is evicted and A stays. -/
theorem lfu_eviction_witness :
    ∃ pg, (Pager.new ⟨fun _ => 0, 0⟩ (2 : Nat)).get_pages ([10, 11] ++ [10] ++ [12]) = some pg ∧
      pg.resident 11 = false ∧ pg.resident 12 = true ∧
      ∀ k ∈ [10, 11], k ≠ 11 → pg.resident k = true :=
  lfu_eviction ⟨fun _ => 0, 0⟩ 2 (by decide) [10, 11] (by decide) (by decide) 11 (by decide) 12
    (by decide) [10] (by decide)

/-! ### NodeStore -/

theorem nodeHome_get_page {pg : Pager} {page : Page} (h : NodeHome pg page) :
    ∃ pg1 c, pg.get_page 0 = some pg1 ∧ pg1.cache_holder = [(0, page)] ∧
      pg1.cache_ref_list = [(c, [0])] ∧ pg1.file_handler = pg.file_handler ∧
      pg1.cache_cap = pg.cache_cap := by
  obtain ⟨_, hcap, h | ⟨c, hh, hr⟩⟩ := h
  · obtain ⟨hh, hr, hp⟩ := h
    have hev : pg.evict = some pg := by
      have : ¬ (0 : Int) = pg.cache_cap := by omega
      simp [Pager.evict, hh, this]
    refine ⟨{ pg with
        cache_ref_list := ref_insert 0 pg.cache_ref_list,
        cache_holder := holder_assign 0 (pg.load_from_disk 0) pg.cache_holder }, 1, ?_, ?_, ?_,
      rfl, rfl⟩
    · simp only [Pager.get_page, hh, holder_find, Pager.load_page, hev]
    · simp [hh, holder_assign, hp]
    · simp [hr, ref_insert]
  · refine ⟨{ pg with cache_ref_list := visit 0 pg.cache_ref_list }, c + 1, ?_, hh, ?_, rfl, rfl⟩
    · simp [Pager.get_page, hh, holder_find]
    · simp [hr, visit, ref_promote]

theorem memcpy_lt {buf src : Nat → Nat} {dst len i : Nat} (h : i < dst) :
    memcpy buf dst src len i = buf i := by
  have : ¬ (dst ≤ i ∧ i < dst + len) := by omega
  simp [memcpy, this]

theorem memcpy_ge {buf src : Nat → Nat} {dst len i : Nat} (h : dst + len ≤ i) :
    memcpy buf dst src len i = buf i := by
  have : ¬ (dst ≤ i ∧ i < dst + len) := by omega
  simp [memcpy, this]

theorem memcpy_mid {buf src : Nat → Nat} {dst len i : Nat} (h1 : dst ≤ i) (h2 : i < dst + len) :
    memcpy buf dst src len i = src (i - dst) := by
  simp [memcpy, h1, h2]

/-- The effect of a `set_at_offset` that passes the guard and stays inside the
page buffer. -/
theorem set_at_offset_ok (p : Page) (data : Nat → Nat) (offset len : Nat)
    (h : 2 + offset + len ≤ 4096) :
    ∃ p1, p.set_at_offset data offset len = some (true, p1) ∧
      p1.page_number = p.page_number ∧
      p1.data_length = max p.data_length (offset + len) ∧
      (∀ i, 2 ≤ i → p1.bytes i = memcpy p.bytes (2 + offset) data len i) := by
  have hmod : (offset + len) % 4294967296 = offset + len := Nat.mod_eq_of_lt (by omega)
  let q : Page := { page_number := p.page_number, bytes := memcpy p.bytes (2 + offset) data len }
  have hq : q.data_length = p.data_length := by
    have h0 : memcpy p.bytes (2 + offset) data len 0 = p.bytes 0 := memcpy_lt (by omega)
    have h1 : memcpy p.bytes (2 + offset) data len 1 = p.bytes 1 := memcpy_lt (by omega)
    show memcpy p.bytes (2 + offset) data len 0 + 256 * memcpy p.bytes (2 + offset) data len 1
      = p.bytes 0 + 256 * p.bytes 1
    rw [h0, h1]
  have hunf : p.set_at_offset data offset len =
      if offset + len > q.data_length then some (true, q.set_data_length (offset + len))
      else some (true, q) := by
    unfold Page.set_at_offset
    simp only [U32, PAGE_SIZE, PAGE_DATA_OFFSET, PAGE_LENGTH_OFFSET, PAGE_LENGTH_SIZE,
      PAGE_DATA_SIZE, hmod]
    rw [if_neg (by omega), if_neg (by omega)]
  by_cases hgt : offset + len > q.data_length
  · refine ⟨q.set_data_length (offset + len), by rw [hunf, if_pos hgt], rfl, ?_, ?_⟩
    · rw [hq] at hgt
      have hl : (q.set_data_length (offset + len)).data_length =
          (offset + len) % 256 + 256 * ((offset + len) / 256 % 256) := by
        simp [Page.set_data_length, Page.data_length]
      rw [hl, max_eq_right (by omega)]
      omega
    · intro i hi
      have h3 : ¬ i = 0 := by omega
      have h4 : ¬ i = 1 := by omega
      simp [Page.set_data_length, h3, h4, q]
  · refine ⟨q, by rw [hunf, if_neg hgt], rfl, ?_, ?_⟩
    · rw [hq] at hgt ⊢
      omega
    · intro i _
      rfl

/-- One `NodeStore::insert` on a page 0 of length `L` with room for the record:
the id is `L / 20`, the record lies at data offset `L`, the length becomes
`L + 20` and no other data byte changes. -/
theorem nodeStore_insert_step {pg : Pager} {page : Page} (h : NodeHome pg page) (node : Node)
    (hroom : page.data_length + 20 ≤ 4094) :
    ∃ pg1 page1, NodeStore.insert pg node = some (pg1, page.data_length / 20) ∧
      NodeHome pg1 page1 ∧ page1.data_length = page.data_length + 20 ∧
      (∀ j, j < 20 → page1.bytes (2 + page.data_length + j) = node.bytes j) ∧
      (∀ i, 2 ≤ i → i < 2 + page.data_length → page1.bytes i = page.bytes i) := by
  obtain ⟨pg1, c, hget, hh, hr, hfh, hcap⟩ := nodeHome_get_page h
  have hlast : (pg.last_page % U32).toNat = 0 := by simp [Pager.last_page, h.1]
  have hat : pg1.page_at 0 = some page := by simp [Pager.page_at, hh, holder_find]
  obtain ⟨page1, hset, _, hlen, hbytes⟩ :=
    set_at_offset_ok page node.bytes page.data_length 20 (by omega)
  have hput : pg1.put_page 0 page1 = some { pg1 with cache_holder := [(0, page1)] } := by
    simp [Pager.put_page, hh, holder_find, holder_assign]
  refine ⟨({ pg1 with cache_holder := [(0, page1)] } : Pager).flush_page page1, page1,
    ?_, ?_, ?_, ?_, ?_⟩
  · have hset2 : page.set_at_offset node.bytes page.data_length NODE_SIZE = some (true, page1) :=
      hset
    simp only [NodeStore.insert, hlast, hget, hat, hset2, hput]
    rfl
  · refine ⟨?_, ?_, Or.inr ⟨c, ?_, ?_⟩⟩
    · simp [Pager.flush_page, FileHandler.write, hfh, h.1]
    · simp [Pager.flush_page, hcap, h.2.1]
    · simp [Pager.flush_page]
    · simp [Pager.flush_page, hr]
  · rw [hlen]
    exact max_eq_right (by omega)
  · intro j hj
    rw [hbytes _ (by omega), memcpy_mid (by omega) (by omega)]
    congr 1
    omega
  · intro i h1 h2
    rw [hbytes _ h1, memcpy_lt (by omega)]

/-- `NodeStore::get` of an id below 204 reads the 20 bytes at data offset
`id * 20` of page 0. -/
theorem nodeStore_get {pg : Pager} {page : Page} (h : NodeHome pg page) (id : Nat)
    (hid : id < 204) :
    ∃ pg1 nd, NodeStore.get pg id = some (pg1, nd) ∧
      ∀ j, j < 20 → nd.bytes j = page.bytes (2 + id * 20 + j) := by
  obtain ⟨pg1, c, hget, hh, hr, hfh, hcap⟩ := nodeHome_get_page h
  have hat : pg1.page_at 0 = some page := by simp [Pager.page_at, hh, holder_find]
  have hdiv : id / 4094 = 0 := Nat.div_eq_of_lt (by omega)
  have hmod : id % 4094 = id := Nat.mod_eq_of_lt (by omega)
  have hin : 2 + id * 20 + 20 ≤ 4096 := by omega
  refine ⟨pg1, { bytes := fun j => if j < 20 then page.data_at_offset (id * 20) j else 0 },
    ?_, ?_⟩
  · show NodeStore.get pg id = _
    unfold NodeStore.get
    show (match pg.get_page (id / 4094) with
      | none => none
      | some pg1 =>
        match pg1.page_at (id / 4094) with
        | none => none
        | some page =>
          if 2 + id % 4094 * 20 + 20 ≤ 4096 then
            some (pg1, ({ bytes := fun j =>
              if j < 20 then page.data_at_offset (id % 4094 * 20) j else 0 } : Node))
          else none) = _
    rw [hdiv, hget]
    simp only [hat, hmod, if_pos hin]
  · intro j hj
    simp only [hj, if_true, Page.data_at_offset, shift]
    rfl

/-- A run of `NodeStore::insert` calls that fits into page 0: the ids count up
from the number of records already there and each record lies at its id times
20. -/
theorem nodeStore_insert_all (nodes : List Node) : ∀ {pg : Pager} {page : Page} (m : Nat),
    NodeHome pg page → page.data_length = 20 * m → m + nodes.length ≤ 204 →
    ∃ pg1 page1, NodeStore.insert_all pg nodes = some (pg1, List.range' m nodes.length) ∧
      NodeHome pg1 page1 ∧
      (∀ k (hk : k < nodes.length) j, j < 20 →
        page1.bytes (2 + (m + k) * 20 + j) = (nodes.get ⟨k, hk⟩).bytes j) ∧
      (∀ i, 2 ≤ i → i < 2 + 20 * m → page1.bytes i = page.bytes i) := by
  induction nodes with
  | nil =>
    intro pg page m h _ _
    exact ⟨pg, page, rfl, h, fun k hk => absurd hk (by simp), fun _ _ _ => rfl⟩
  | cons node nodes ih =>
    intro pg page m h hlen hfit
    simp only [List.length_cons] at hfit
    obtain ⟨pg1, page1, hins, hhome1, hlen1, hrec1, hkeep1⟩ :=
      nodeStore_insert_step h node (by omega)
    have hid : page.data_length / 20 = m := by omega
    obtain ⟨pg2, page2, hall, hhome2, hrec2, hkeep2⟩ := ih (m + 1) hhome1 (by omega) (by omega)
    refine ⟨pg2, page2, ?_, hhome2, ?_, ?_⟩
    · simp only [NodeStore.insert_all, hins, hall, hid, List.length_cons]
      rfl
    · intro k hk j hj
      cases k with
      | zero =>
        rw [hkeep2 _ (by omega) (by omega)]
        have h2 := hrec1 j hj
        have h3 : 2 + (m + 0) * 20 + j = 2 + page.data_length + j := by omega
        rw [h3, h2]
        rfl
      | succ k =>
        have hk2 : k < nodes.length := by simpa using hk
        have h1 := hrec2 k hk2 j hj
        have h3 : 2 + (m + (k + 1)) * 20 + j = 2 + (m + 1 + k) * 20 + j := by ring
        rw [h3, h1]
        rfl
    · intro i h1 h2
      rw [hkeep2 i h1 (by omega)]
      exact hkeep1 i h1 (by omega)

theorem nodeHome_new (cap : Int) (hcap : 1 ≤ cap) :
    NodeHome (Pager.new FileHandler.empty cap) ((Pager.new FileHandler.empty cap).load_from_disk 0) :=
  ⟨rfl, hcap, Or.inl ⟨rfl, rfl, rfl⟩⟩

/-- C1. NodeStore round trip within one page: on a pager of capacity at least 1
over a fresh (empty) node file, for every sequence of at most 204 nodes there is
one list `ids` of returned ids such that, for every `m`, the first `m` inserts
are defined and return the first `m` ids, and after them `NodeStore::get` of the
id returned for the `k`-th insert (`k < m`) is defined and shows the 20 bytes of
the `k`-th node.  So the record is read back right after its insert and also
after all later inserts of the sequence. -/
theorem node_round_trip (cap : Int) (hcap : 1 ≤ cap) (nodes : List Node)
    (hlen : nodes.length ≤ 204) :
    ∃ ids : List Nat, ids.length = nodes.length ∧
      ∀ m, m ≤ nodes.length →
        ∃ pg, NodeStore.insert_all (Pager.new FileHandler.empty cap) (nodes.take m)
            = some (pg, ids.take m) ∧
          ∀ k (hk : k < nodes.length), k < m →
            ∃ pg1 nd, NodeStore.get pg (ids.getD k 0) = some (pg1, nd) ∧
              ∀ j, j < NODE_SIZE → nd.bytes j = (nodes.get ⟨k, hk⟩).bytes j := by
  refine ⟨List.range' 0 nodes.length, by simp, ?_⟩
  intro m hm
  have hlen0 : ((Pager.new FileHandler.empty cap).load_from_disk 0).data_length = 20 * 0 := by
    simp [Pager.load_from_disk, Page.data_length, FileHandler.read, FileHandler.empty, Pager.new,
      memcpy, shift]
  have hmlen : (nodes.take m).length = m := by simp [hm]
  obtain ⟨pg, page, hall, hhome, hrec, _⟩ :=
    nodeStore_insert_all (nodes.take m) 0 (nodeHome_new cap hcap) hlen0 (by rw [hmlen]; omega)
  have htake : (List.range' 0 nodes.length).take m = List.range' 0 m := by
    apply List.ext_getElem
    · simp [hm]
    · intro i h1 h2
      simp
  refine ⟨pg, ?_, ?_⟩
  · rw [hall, hmlen, htake]
  · intro k hk hkm
    have hidk : (List.range' 0 nodes.length).getD k 0 = k := by
      rw [List.getD_eq_getElem?_getD, List.getElem?_range' _ _ hk]
      simp
    obtain ⟨pg1, nd, hget, hnd⟩ := nodeStore_get hhome k (by omega)
    refine ⟨pg1, nd, by rw [hidk]; exact hget, ?_⟩
    intro j hj
    rw [hnd j hj]
    have hk2 : k < (nodes.take m).length := by rw [hmlen]; exact hkm
    have := hrec k hk2 j hj
    rw [Nat.zero_add] at this
    rw [this]
    simp

/-- C1 at a concrete input: capacity 2 (as in `hello`) and two nodes, a default
one and one with external id 120. -/
theorem node_round_trip_witness :
    ∃ ids : List Nat, ids.length = [Node.new, Node.new.set_external_id 120].length ∧
      ∀ m, m ≤ [Node.new, Node.new.set_external_id 120].length →
        ∃ pg, NodeStore.insert_all (Pager.new FileHandler.empty 2)
            ([Node.new, Node.new.set_external_id 120].take m) = some (pg, ids.take m) ∧
          ∀ k (hk : k < [Node.new, Node.new.set_external_id 120].length), k < m →
            ∃ pg1 nd, NodeStore.get pg (ids.getD k 0) = some (pg1, nd) ∧
              ∀ j, j < NODE_SIZE →
                nd.bytes j = ([Node.new, Node.new.set_external_id 120].get ⟨k, hk⟩).bytes j :=
  node_round_trip 2 (by decide) [Node.new, Node.new.set_external_id 120] (by decide)

/-! ### The pager under a label store -/

theorem holder_find_erase_some {key k2 : Nat} {p : Page} {h : List (Nat × Page)}
    (hf : holder_find k2 (holder_erase key h) = some p) : holder_find k2 h = some p := by
  by_cases hk : k2 = key
  · subst hk
    have : k2 ∉ holderKeys (holder_erase k2 h) := by
      rw [holderKeys_erase]; simp
    rw [← holder_find_eq_none] at this
    rw [this] at hf
    exact absurd hf (by simp)
  · rwa [holder_find_erase_other h hk] at hf

/-- The three ways a `get_page` goes: a hit, a miss with room, a miss with an
eviction. -/
theorem get_page_cases {pg pg1 : Pager} {key : Nat} (h : pg.get_page key = some pg1) :
    (∃ p, holder_find key pg.cache_holder = some p ∧
      pg1 = { pg with cache_ref_list := visit key pg.cache_ref_list }) ∨
    (holder_find key pg.cache_holder = none ∧ (pg.cache_holder.length : Int) ≠ pg.cache_cap ∧
      pg1 = { pg with
        cache_ref_list := ref_insert key pg.cache_ref_list,
        cache_holder := holder_assign key (pg.load_from_disk key) pg.cache_holder }) ∨
    (holder_find key pg.cache_holder = none ∧ (pg.cache_holder.length : Int) = pg.cache_cap ∧
      ∃ c k ks rest, pg.cache_ref_list = (c, k :: ks) :: rest ∧
        pg1 = { pg with
          cache_ref_list := ref_insert key (if ks = [] then rest else (c, ks) :: rest),
          cache_holder := holder_assign key (pg.load_from_disk key)
            (holder_erase k pg.cache_holder) }) := by
  cases hfind : holder_find key pg.cache_holder with
  | some p =>
    left
    simp only [Pager.get_page, hfind, Option.some.injEq] at h
    exact ⟨p, rfl, h.symm⟩
  | none =>
    right
    simp only [Pager.get_page, hfind, Pager.load_page] at h
    by_cases hfull : (pg.cache_holder.length : Int) = pg.cache_cap
    · right
      refine ⟨rfl, hfull, ?_⟩
      obtain ⟨fh, cap, refs, holder⟩ := pg
      simp only [Pager.evict, hfull, if_true] at h
      match refs, h with
      | (c, k :: ks) :: rest, h =>
        simp only [Option.some.injEq] at h
        exact ⟨c, k, ks, rest, rfl, h.symm⟩
    · left
      simp only [Pager.evict, hfull, if_false, Option.some.injEq] at h
      exact ⟨rfl, hfull, h.symm⟩

/-- What a `get_page` leaves in the cache map: pages that were there, or the
requested page as the file holds it. -/
theorem get_page_holder {pg pg1 : Pager} {key : Nat} (h : pg.get_page key = some pg1) :
    pg1.file_handler = pg.file_handler ∧ pg1.cache_cap = pg.cache_cap ∧
    ∀ k2 p, holder_find k2 pg1.cache_holder = some p →
      holder_find k2 pg.cache_holder = some p ∨ (k2 = key ∧ p = pg.load_from_disk key) := by
  rcases get_page_cases h with ⟨p, _, rfl⟩ | ⟨_, _, rfl⟩ | ⟨_, _, c, k, ks, rest, _, rfl⟩
  · exact ⟨rfl, rfl, fun k2 p h => Or.inl h⟩
  · refine ⟨rfl, rfl, fun k2 p h => ?_⟩
    by_cases hk : k2 = key
    · subst hk
      rw [holder_find_assign_same] at h
      exact Or.inr ⟨rfl, (Option.some.inj h).symm⟩
    · rw [holder_find_assign_other _ _ hk] at h
      exact Or.inl h
  · refine ⟨rfl, rfl, fun k2 p h => ?_⟩
    by_cases hk : k2 = key
    · subst hk
      rw [holder_find_assign_same] at h
      exact Or.inr ⟨rfl, (Option.some.inj h).symm⟩
    · rw [holder_find_assign_other _ _ hk] at h
      exact Or.inl (holder_find_erase_some h)

theorem load_from_disk_congr {pg pg1 : Pager} (h : pg1.file_handler = pg.file_handler)
    (k : Nat) : pg1.load_from_disk k = pg.load_from_disk k := by
  simp [Pager.load_from_disk, h]

theorem lbl_congr {pg pg1 : Pager} (h : pg1.file_handler = pg.file_handler)
    (p s i : Nat) : lbl pg1 p s i = lbl pg p s i := by
  simp [lbl, load_from_disk_congr h]

/-- A `get_page` for a page number that fits a byte keeps the store invariant,
does not touch the file and hands out the page as the file holds it. -/
theorem get_page_store {pg : Pager} (hinv : StoreInv pg) (key : Nat) (hkey : key < 256) :
    ∃ pg1, pg.get_page key = some pg1 ∧ StoreInv pg1 ∧
      pg1.file_handler = pg.file_handler ∧
      pg1.page_at key = some (pg.load_from_disk key) := by
  obtain ⟨pg1, hget, hpinv, hcap, hfh, hres⟩ :=
    get_page_inv hinv.inv (by have := hinv.cap; omega) key
  obtain ⟨_, _, hhold⟩ := get_page_holder hget
  have hcoh : ∀ k p, holder_find k pg1.cache_holder = some p → p = pg1.load_from_disk k := by
    intro k p hf
    rw [load_from_disk_congr hfh]
    rcases hhold k p hf with h1 | ⟨h1, h2⟩
    · exact hinv.coherent k p h1
    · rw [h1, h2]
  refine ⟨pg1, hget, ⟨by rw [hcap]; exact hinv.cap, hpinv, ?_, hcoh, ?_⟩, hfh, ?_⟩
  · intro k hk
    obtain ⟨p, hp⟩ := Option.isSome_iff_exists.1 (holder_find_isSome.2 hk)
    rcases hhold k p hp with h1 | ⟨h1, _⟩
    · exact hinv.small k (holder_find_isSome.1 (by rw [h1]; rfl))
    · rw [h1]; exact hkey
  · intro s hs
    rw [lbl_congr hfh]
    exact hinv.counters s hs
  · obtain ⟨p, hp⟩ := Option.isSome_iff_exists.1 hres
    have hp2 : holder_find key pg1.cache_holder = some p := hp
    have := hcoh key p hp2
    rw [load_from_disk_congr hfh] at this
    simp only [Pager.page_at, hp2, this]

theorem get_page_cap {pg pg1 : Pager} {key : Nat} (h : pg.get_page key = some pg1) :
    pg1.cache_cap = pg.cache_cap := by
  rcases get_page_cases h with ⟨_, _, rfl⟩ | ⟨_, _, rfl⟩ | ⟨_, _, _, _, _, _, _, rfl⟩ <;> rfl

/-! ### Page 0 stays on top of the bucket list -/

theorem refKeys_append (a b : List (Nat × List Nat)) :
    refKeys (a ++ b) = refKeys a ++ refKeys b := by
  induction a with
  | nil => rfl
  | cons x a ih =>
    obtain ⟨c, ks⟩ := x
    simp [refKeys, ih]

theorem visit_append {key : Nat} {bs : List (Nat × List Nat)} (l : List (Nat × List Nat))
    (h : key ∉ refKeys bs) : visit key (bs ++ l) = bs ++ visit key l := by
  induction bs with
  | nil => rfl
  | cons x bs ih =>
    obtain ⟨c, ks⟩ := x
    simp only [refKeys, List.mem_append, not_or] at h
    simp [visit, h.1, ih h.2]

theorem Below.mono {m j j2 : Nat} {bs : List (Nat × List Nat)} (h : Below m j bs)
    (hj : j ≤ j2) : Below m j2 bs :=
  fun b hb => ⟨(h b hb).1, fun k hk hjk => (h b hb).2 k hk (by omega)⟩

theorem Below.tail {m j : Nat} {b : Nat × List Nat} {bs : List (Nat × List Nat)}
    (h : Below m j (b :: bs)) : Below m j bs :=
  fun x hx => h x (List.mem_cons_of_mem _ hx)

theorem Below.cons {m j : Nat} {b : Nat × List Nat} {bs : List (Nat × List Nat)}
    (hb : b.1 < m ∧ ∀ k ∈ b.2, j ≤ k → b.1 + 1 < m) (h : Below m j bs) :
    Below m j (b :: bs) := by
  intro x hx
  rcases List.mem_cons.1 hx with hx | hx
  · subst hx; exact hb
  · exact h x hx

/-- Promoting the key `j` from a bucket of count `c` with `c + 1 < m` stays in
front of the bucket of count `m`. -/
theorem ref_promote_below {m j c : Nat} {z : List Nat} (bs : List (Nat × List Nat))
    (h : Below m (j + 1) bs) (hc : c + 1 < m) :
    ∃ bs1, ref_promote (c + 1) j (bs ++ [(m, z)]) = bs1 ++ [(m, z)] ∧ Below m (j + 1) bs1 := by
  cases bs with
  | nil =>
    refine ⟨[(c + 1, [j])], ?_, ?_⟩
    · have : ¬ m = c + 1 := by omega
      simp [ref_promote, this]
    · intro b hb
      simp only [List.mem_singleton] at hb
      subst hb
      exact ⟨hc, fun k hk hjk => by simp at hk; omega⟩
  | cons x bs =>
    obtain ⟨c2, ks2⟩ := x
    by_cases hcc : c2 = c + 1
    · refine ⟨(c2, ks2 ++ [j]) :: bs, by simp [ref_promote, hcc], ?_⟩
      refine Below.cons ⟨(h _ (List.mem_cons_self _ _)).1, ?_⟩ h.tail
      intro k hk hjk
      rcases List.mem_append.1 hk with hk | hk
      · exact (h _ (List.mem_cons_self _ _)).2 k hk hjk
      · simp at hk; omega
    · refine ⟨(c + 1, [j]) :: (c2, ks2) :: bs, by simp [ref_promote, hcc], ?_⟩
      refine Below.cons ⟨hc, fun k hk hjk => by simp at hk; omega⟩ h

/-- A hit on a key `j` below the top bucket keeps the top bucket where it is. -/
theorem visit_below {m j : Nat} {z : List Nat} (bs : List (Nat × List Nat))
    (h : Below m j bs) (hj : j ∈ refKeys bs) :
    ∃ bs1, visit j (bs ++ [(m, z)]) = bs1 ++ [(m, z)] ∧ Below m (j + 1) bs1 := by
  induction bs with
  | nil => simp [refKeys] at hj
  | cons x bs ih =>
    obtain ⟨c, ks⟩ := x
    by_cases hin : j ∈ ks
    · have hc : c + 1 < m := (h _ (List.mem_cons_self _ _)).2 j hin (le_refl _)
      obtain ⟨bs1, h1, h2⟩ :=
        ref_promote_below (j := j) (z := z) bs (h.tail.mono (Nat.le_succ j)) hc
      by_cases he : ks.erase j = []
      · exact ⟨bs1, by simp [visit, hin, he, h1], h2⟩
      · refine ⟨(c, ks.erase j) :: bs1, by simp [visit, hin, he, h1], ?_⟩
        refine Below.cons ⟨(h _ (List.mem_cons_self _ _)).1, ?_⟩ h2
        intro k hk hjk
        exact (h _ (List.mem_cons_self _ _)).2 k (List.mem_of_mem_erase hk) (by omega)
    · have hj2 : j ∈ refKeys bs := by
        simp only [refKeys, List.mem_append] at hj
        rcases hj with hj | hj
        · exact absurd hj hin
        · exact hj
      obtain ⟨bs1, h1, h2⟩ := ih h.tail hj2
      refine ⟨(c, ks) :: bs1, by simp [visit, hin, h1], ?_⟩
      exact Below.cons ⟨(h _ (List.mem_cons_self _ _)).1,
        fun k hk hjk => (h _ (List.mem_cons_self _ _)).2 k hk (by omega)⟩ h2

/-- A new key `j` goes in front of the bucket of count `m ≥ 2`. -/
theorem ref_insert_below {m j : Nat} {z : List Nat} (bs : List (Nat × List Nat))
    (h : Below m j bs) (hm : 2 ≤ m) :
    ∃ bs1, ref_insert j (bs ++ [(m, z)]) = bs1 ++ [(m, z)] ∧ Below m (j + 1) bs1 := by
  cases bs with
  | nil =>
    refine ⟨[(1, [j])], ?_, ?_⟩
    · have : ¬ m = 1 := by omega
      simp [ref_insert, this]
    · intro b hb
      simp only [List.mem_singleton] at hb
      subst hb
      exact ⟨by omega, fun k hk hjk => by simp at hk; omega⟩
  | cons x bs =>
    obtain ⟨c2, ks2⟩ := x
    by_cases hcc : c2 = 1
    · refine ⟨(c2, ks2 ++ [j]) :: bs, by simp [ref_insert, hcc], ?_⟩
      refine Below.cons ⟨(h _ (List.mem_cons_self _ _)).1, ?_⟩ (h.tail.mono (by omega))
      intro k hk hjk
      rcases List.mem_append.1 hk with hk | hk
      · exact (h _ (List.mem_cons_self _ _)).2 k hk (by omega)
      · simp at hk; omega
    · refine ⟨(1, [j]) :: (c2, ks2) :: bs, by simp [ref_insert, hcc], ?_⟩
      exact Below.cons ⟨by omega, fun k hk hjk => by simp at hk; omega⟩ (h.mono (by omega))

/-- While page 0 is in the last bucket it is resident, as the file holds it. -/
theorem top_resident {pg : Pager} (hinv : StoreInv pg) {bs : List (Nat × List Nat)} {m : Nat}
    (href : pg.cache_ref_list = bs ++ [(m, [0])]) :
    pg.page_at 0 = some (pg.load_from_disk 0) := by
  have h0 : 0 ∈ refKeys pg.cache_ref_list := by
    rw [href, refKeys_append]; simp [refKeys]
  have h1 : 0 ∈ holderKeys pg.cache_holder := hinv.inv.perm.mem_iff.1 h0
  obtain ⟨p, hp⟩ := Option.isSome_iff_exists.1 (holder_find_isSome.2 h1)
  have hp2 : holder_find 0 pg.cache_holder = some p := hp
  simp only [Pager.page_at, hp2, hinv.coherent 0 p hp2]

/-- A `get_page` for a page `j ≥ 1` while page 0 sits alone in the last bucket,
of count `m ≥ 2`, above buckets that `j` cannot reach: page 0 is not evicted and
keeps its place. -/
theorem get_page_top {pg : Pager} (hinv : StoreInv pg) (hcap : 2 ≤ pg.cache_cap)
    {bs : List (Nat × List Nat)} {m j : Nat}
    (href : pg.cache_ref_list = bs ++ [(m, [0])]) (hm : 2 ≤ m) (hbelow : Below m j bs)
    (hj1 : 1 ≤ j) (hj2 : j < 256) :
    ∃ pg1 bs1, pg.get_page j = some pg1 ∧ StoreInv pg1 ∧
      pg1.file_handler = pg.file_handler ∧
      pg1.page_at j = some (pg.load_from_disk j) ∧
      pg1.cache_ref_list = bs1 ++ [(m, [0])] ∧ Below m (j + 1) bs1 := by
  obtain ⟨pg1, hget, hinv1, hfh, hat⟩ := get_page_store hinv j hj2
  have hkeys : refKeys pg.cache_ref_list = refKeys bs ++ [0] := by
    rw [href, refKeys_append]; simp [refKeys]
  rcases get_page_cases hget with ⟨p, hp, rfl⟩ | ⟨_, _, rfl⟩ | ⟨_, hfull, c, k, ks, rest, hr, rfl⟩
  · have hjmem : j ∈ refKeys bs := by
      have h1 : j ∈ holderKeys pg.cache_holder := holder_find_isSome.1 (by rw [hp]; rfl)
      have h2 := hinv.inv.perm.mem_iff.2 h1
      rw [hkeys, List.mem_append] at h2
      rcases h2 with h2 | h2
      · exact h2
      · simp at h2; omega
    obtain ⟨bs1, h1, h2⟩ := visit_below (z := [0]) bs hbelow hjmem
    exact ⟨_, bs1, hget, hinv1, hfh, hat, by simp only [href, h1], h2⟩
  · obtain ⟨bs1, h1, h2⟩ := ref_insert_below (z := [0]) bs hbelow hm
    exact ⟨_, bs1, hget, hinv1, hfh, hat, by simp only [href, h1], h2⟩
  · cases bs with
    | nil =>
      have hlen := hinv.inv.perm.length_eq
      rw [hkeys, holder_length] at hlen
      simp only [refKeys, List.nil_append, List.length_singleton] at hlen
      omega
    | cons x bs2 =>
      rw [href, List.cons_append, List.cons.injEq] at hr
      obtain ⟨hx, hrest⟩ := hr
      subst hx
      have hb1 : Below m j (if ks = [] then bs2 else (c, ks) :: bs2) := by
        by_cases he : ks = []
        · simp only [he, if_true]; exact hbelow.tail
        · simp only [he, if_false]
          refine Below.cons ⟨(hbelow _ (List.mem_cons_self _ _)).1, ?_⟩ hbelow.tail
          intro k2 hk2 hjk
          exact (hbelow _ (List.mem_cons_self _ _)).2 k2 (List.mem_cons_of_mem _ hk2) hjk
      obtain ⟨bs1, h1, h2⟩ := ref_insert_below (z := [0]) _ hb1 hm
      refine ⟨_, bs1, hget, hinv1, hfh, hat, ?_, h2⟩
      simp only [← hrest]
      rw [← h1]
      congr 1
      by_cases he : ks = []
      · simp [he]
      · simp [he]

/-- The first `get_page(0)` of a call: page 0 is handed out as the file holds
it, and either the store is still in its initial state (all-zero file, page 0
alone at count 1) or page 0 sits alone in the last bucket at a count `m ≥ 2`,
above buckets that any key can be promoted in once. -/
theorem get_page_zero {pg : Pager} (hinv : StoreInv pg)
    (hform : (pg.cache_holder = [] ∧ pg.cache_ref_list = [] ∧
        ∀ i, pg.file_handler.contents i = 0) ∨
      ∃ bs m, pg.cache_ref_list = bs ++ [(m, [0])] ∧ 1 ≤ m ∧ ∀ b ∈ bs, b.1 < m) :
    ∃ pg1 bs m, pg.get_page 0 = some pg1 ∧ StoreInv pg1 ∧
      pg1.file_handler = pg.file_handler ∧
      pg1.page_at 0 = some (pg.load_from_disk 0) ∧
      pg1.cache_ref_list = bs ++ [(m, [0])] ∧ 1 ≤ m ∧ Below m 0 bs ∧
      (m = 1 → ∀ i, pg.file_handler.contents i = 0) := by
  obtain ⟨pg1, hget, hinv1, hfh, hat⟩ := get_page_store hinv 0 (by decide)
  rcases hform with ⟨hh, hr, hz⟩ | ⟨bs, m, hr, hm, hb⟩
  · rcases get_page_cases hget with ⟨p, hp, _⟩ | ⟨_, _, rfl⟩ | ⟨_, hfull, _⟩
    · rw [hh] at hp; simp [holder_find] at hp
    · refine ⟨_, [], 1, hget, hinv1, hfh, hat, by simp [hr, ref_insert], le_refl _, ?_,
        fun _ => hz⟩
      intro b hb; simp at hb
    · rw [hh] at hfull
      have := hinv.cap
      simp at hfull
      omega
  · have h0 : 0 ∈ holderKeys pg.cache_holder := by
      refine hinv.inv.perm.mem_iff.1 ?_
      rw [hr, refKeys_append]; simp [refKeys]
    have hnd : (refKeys pg.cache_ref_list).Nodup := hinv.inv.perm.nodup_iff.2 hinv.inv.nodup
    have h0bs : 0 ∉ refKeys bs := by
      rw [hr, refKeys_append] at hnd
      intro hin
      exact (List.nodup_append.1 hnd).2.2 hin (by simp [refKeys])
    rcases get_page_cases hget with ⟨p, hp, rfl⟩ | ⟨hnone, _, _⟩ | ⟨hnone, _, _⟩
    · refine ⟨_, bs, m + 1, hget, hinv1, hfh, hat, ?_, by omega, ?_, fun h => by omega⟩
      · simp only [hr, visit_append _ h0bs]
        simp [visit, ref_promote]
      · intro b hb2
        exact ⟨by have := hb b hb2; omega, fun k _ _ => by have := hb b hb2; omega⟩
    · exact absurd h0 (holder_find_eq_none.1 hnone)
    · exact absurd h0 (holder_find_eq_none.1 hnone)

/-! ### C strings -/

theorem has_nul_before_iff {src : Nat → Nat} {i : Nat} :
    has_nul_before src i = true ↔ ∃ j, j < i ∧ src j = 0 := by
  induction i with
  | zero => simp [has_nul_before]
  | succ i ih =>
    simp only [has_nul_before, Bool.or_eq_true, ih, beq_iff_eq]
    constructor
    · rintro (⟨j, hj, h⟩ | h)
      · exact ⟨j, by omega, h⟩
      · exact ⟨i, by omega, h⟩
    · rintro ⟨j, hj, h⟩
      by_cases hji : j = i
      · right; rw [← hji]; exact h
      · left; exact ⟨j, by omega, h⟩

theorem strncmp_eq_iff {a b : Nat → Nat} {n : Nat} :
    strncmp_eq a b n = true ↔ ∀ i, i < n → has_nul_before a i = true ∨ a i = b i := by
  simp [strncmp_eq]

theorem has_nul_before_copied (text : Nat → Nat) (i : Nat) :
    has_nul_before (copied text) i = has_nul_before text i := by
  induction i with
  | zero => rfl
  | succ i ih =>
    simp only [has_nul_before, ih, copied]
    cases h : has_nul_before text i <;> simp

/-- What `strncpy` wrote compares equal to the text it was given. -/
theorem strncmp_copied (text : Nat → Nat) (n : Nat) : strncmp_eq (copied text) text n = true := by
  rw [strncmp_eq_iff]
  intro i _
  rw [has_nul_before_copied]
  cases h : has_nul_before text i
  · right; simp [copied, h]
  · left; rfl

theorem cstr_eq_zero {t : List Nat} (hnul : ∀ b ∈ t, b ≠ 0) {i : Nat} :
    cstr t i = 0 ↔ t.length ≤ i := by
  simp only [cstr, List.getD_eq_getElem?_getD]
  constructor
  · intro h
    by_contra hlt
    have hlt2 : i < t.length := by omega
    rw [List.getElem?_eq_getElem hlt2] at h
    exact hnul _ (List.getElem_mem hlt2) h
  · intro h
    rw [List.getElem?_eq_none h]
    rfl

/-- For a text without NUL bytes `strncpy` writes the text, zero-padded. -/
theorem copied_cstr {t : List Nat} (hnul : ∀ b ∈ t, b ≠ 0) (i : Nat) :
    copied (cstr t) i = cstr t i := by
  cases h : has_nul_before (cstr t) i
  · simp [copied, h]
  · obtain ⟨j, hj, hj0⟩ := has_nul_before_iff.1 h
    have h1 : t.length ≤ j := (cstr_eq_zero hnul).1 hj0
    have h2 : cstr t i = 0 := (cstr_eq_zero hnul).2 (by omega)
    simp [copied, h, h2]

/-- A zero-padded stored text that compares equal to a text without NUL bytes
is that text, zero-padded. -/
theorem stored_eq_of_strncmp {a : Nat → Nat} {t : List Nat} {n : Nat}
    (hpad : ∀ i j, i ≤ j → j < n → a i = 0 → a j = 0) (hnul : ∀ b ∈ t, b ≠ 0)
    (h : strncmp_eq a (cstr t) n = true) : ∀ i, i < n → a i = cstr t i := by
  rw [strncmp_eq_iff] at h
  intro i
  induction i using Nat.strong_induction_on with
  | _ i ih =>
    intro hi
    rcases h i hi with h1 | h1
    · obtain ⟨j, hj, hj0⟩ := has_nul_before_iff.1 h1
      have h2 : cstr t j = 0 := by rw [← ih j hj (by omega)]; exact hj0
      have h3 : t.length ≤ j := (cstr_eq_zero hnul).1 h2
      rw [hpad j i (by omega) hi hj0, (cstr_eq_zero hnul).2 (by omega)]
    · exact h1

/-- Two different texts of at most `n` bytes without NUL bytes do not compare
equal. -/
theorem strncmp_cstr_ne {t u : List Nat} {n : Nat} (ht : t.length ≤ n) (hu : u.length ≤ n)
    (hnt : ∀ b ∈ t, b ≠ 0) (hnu : ∀ b ∈ u, b ≠ 0) (hne : t ≠ u) :
    strncmp_eq (cstr t) (cstr u) n = false := by
  by_contra hcon
  have h : strncmp_eq (cstr t) (cstr u) n = true := by simpa using hcon
  have hall : ∀ i, i < n → cstr t i = cstr u i := by
    apply stored_eq_of_strncmp _ hnu h
    intro i j hij _ h0
    exact (cstr_eq_zero hnt).2 (le_trans ((cstr_eq_zero hnt).1 h0) hij)
  have hlen : t.length = u.length := by
    by_contra hl
    rcases Nat.lt_or_gt_of_ne hl with hl | hl
    · have h1 := hall t.length (by omega)
      rw [(cstr_eq_zero hnt).2 (le_refl _)] at h1
      have := (cstr_eq_zero hnu).1 h1.symm
      omega
    · have h1 := hall u.length (by omega)
      rw [(cstr_eq_zero hnu).2 (le_refl _)] at h1
      have := (cstr_eq_zero hnt).1 h1
      omega
  apply hne
  apply List.ext_getElem hlen
  intro i h1 h2
  have := hall i (by omega)
  simp only [cstr, List.getD_eq_getElem?_getD, List.getElem?_eq_getElem h1,
    List.getElem?_eq_getElem h2, Option.getD_some] at this
  exact this

theorem slot_for_some {sc : Bool} {str : Nat → Nat} {s : Nat}
    (h : NodeLabelStore.slot_for sc str = some s) :
    s = slot_for_hashed sc str ∧ strcmp_eq str TEACHES_HOMEROOM = false ∧
      strcmp_eq str COORDINATES = false := by
  unfold NodeLabelStore.slot_for at h
  have hlit : slot_for_array sc (cstr TEACHES) (TEACHES.length + 1) = none := rfl
  cases h1 : strcmp_eq str TEACHES_HOMEROOM with
  | true => rw [h1, if_pos rfl, hlit] at h; exact absurd h (by simp)
  | false =>
    cases h2 : strcmp_eq str COORDINATES with
    | true =>
      rw [h1, h2, if_neg (by simp), if_pos rfl, hlit] at h
      exact absurd h (by simp)
    | false =>
      rw [h1, h2, if_neg (by simp), if_neg (by simp)] at h
      have h3 : some (slot_for_hashed sc str) = some s := h
      exact ⟨(Option.some.inj h3).symm, rfl, rfl⟩

theorem slot_for_of_not_literal {sc : Bool} {str : Nat → Nat}
    (h1 : strcmp_eq str TEACHES_HOMEROOM = false) (h2 : strcmp_eq str COORDINATES = false) :
    NodeLabelStore.slot_for sc str = some (slot_for_hashed sc str) := by
  unfold NodeLabelStore.slot_for
  rw [h1, h2, if_neg (by simp), if_neg (by simp)]
  rfl

theorem slot_for_lt {sc : Bool} {str : Nat → Nat} {s : Nat}
    (h : NodeLabelStore.slot_for sc str = some s) : s < 227 := by
  rw [(slot_for_some h).1]
  exact Nat.mod_lt _ (by decide)

/-! ### Pages of the label file -/

theorem set_text_bytes (l : NodeLabel) (text : Nat → Nat) (i : Nat) :
    (l.set_text text).page.bytes i =
      if l.base ≤ i ∧ i < l.base + 17 then copied text (i - l.base) else l.page.bytes i := by
  simp only [NodeLabel.set_text, LABEL_TEXT_OFFSET, LABEL_TEXT_SIZE, Nat.add_zero, memcpy, strncpy]
  by_cases h : l.base ≤ i ∧ i < l.base + 17
  · have : i - l.base < 17 := by omega
    simp [h, this]
  · simp [h]

theorem set_num_pages_bytes (l : NodeLabel) (v i : Nat) :
    (l.set_num_pages v).page.bytes i =
      if i = l.base + 17 then v % 256 else l.page.bytes i := rfl

theorem load_from_disk_bytes (pg : Pager) (k i : Nat) :
    (pg.load_from_disk k).bytes i =
      if i < 4096 then pg.file_handler.contents (k * 4096 % 4294967296 + i) else 0 := by
  simp only [Pager.load_from_disk, FileHandler.read, memcpy, shift, Page.new, PAGE_SIZE,
    PAGE_DATA_OFFSET, PAGE_LENGTH_OFFSET, PAGE_LENGTH_SIZE, PAGE_DATA_SIZE, U32]
  by_cases h : i < 4096
  · simp [h]
  · simp [h]

theorem load_from_disk_tidy (pg : Pager) (k : Nat) : (pg.load_from_disk k).Tidy := by
  intro i hi
  rw [load_from_disk_bytes, if_neg (by omega)]

/-- After `flush_page(page)` the file holds `page` at its page number. -/
theorem flush_load_same (pg : Pager) {page : Page} {k : Nat} (hk : page.page_number = k)
    (hk2 : k < 256) (htidy : page.Tidy) : (pg.flush_page page).load_from_disk k = page := by
  have hmod : k * 4096 % 4294967296 = k * 4096 := Nat.mod_eq_of_lt (by omega)
  have hb : ((pg.flush_page page).load_from_disk k).bytes = page.bytes := by
    funext i
    rw [load_from_disk_bytes]
    by_cases h : i < 4096
    · simp only [h, if_true, Pager.flush_page, FileHandler.write, hk, PAGE_SIZE,
        PAGE_DATA_OFFSET, PAGE_LENGTH_OFFSET, PAGE_LENGTH_SIZE, PAGE_DATA_SIZE, U32, hmod]
      rw [memcpy_mid (by omega) (by omega)]
      congr 1
      omega
    · rw [if_neg h, htidy i (by omega)]
  have hn : ((pg.flush_page page).load_from_disk k).page_number = page.page_number := by
    rw [hk]; rfl
  cases page
  cases hl : (pg.flush_page _).load_from_disk k
  simp only [hl] at hb hn
  simp only [Page.mk.injEq]
  exact ⟨hn, hb⟩

/-- `flush_page(page)` leaves the other pages of the file alone. -/
theorem flush_load_other (pg : Pager) {page : Page} {k k2 : Nat} (hk : page.page_number = k)
    (hk1 : k < 256) (hk2 : k2 < 256) (hne : k2 ≠ k) :
    (pg.flush_page page).load_from_disk k2 = pg.load_from_disk k2 := by
  have hmod : k * 4096 % 4294967296 = k * 4096 := Nat.mod_eq_of_lt (by omega)
  have hmod2 : k2 * 4096 % 4294967296 = k2 * 4096 := Nat.mod_eq_of_lt (by omega)
  have hb : ((pg.flush_page page).load_from_disk k2).bytes = (pg.load_from_disk k2).bytes := by
    funext i
    rw [load_from_disk_bytes, load_from_disk_bytes]
    by_cases h : i < 4096
    · simp only [h, if_true, Pager.flush_page, FileHandler.write, hk, PAGE_SIZE,
        PAGE_DATA_OFFSET, PAGE_LENGTH_OFFSET, PAGE_LENGTH_SIZE, PAGE_DATA_SIZE, U32, hmod, hmod2]
      rcases Nat.lt_or_gt_of_ne hne with hlt | hgt
      · rw [memcpy_lt (by omega)]
      · rw [memcpy_ge (by omega)]
    · rw [if_neg h, if_neg h]
  simp only [Pager.load_from_disk] at hb ⊢
  rw [hb]

theorem put_page_resident {pg : Pager} {k : Nat} {p : Page} (page : Page)
    (h : pg.page_at k = some p) :
    pg.put_page k page = some { pg with cache_holder := holder_assign k page pg.cache_holder } := by
  have h2 : holder_find k pg.cache_holder = some p := h
  simp only [Pager.put_page, h2]

/-! ### The scan of the overflow pages -/

theorem holds_congr {pg pg1 : Pager} (h : pg1.file_handler = pg.file_handler)
    (p s : Nat) (text : Nat → Nat) : holds pg1 p s text = holds pg p s text := by
  simp [holds, load_from_disk_congr h]

theorem num_pages_load (pg : Pager) (s : Nat) :
    (NodeLabel.mk (pg.load_from_disk 0) (PAGE_DATA_OFFSET + s * LABEL_SIZE)).num_pages
      = lbl pg 0 s 17 := rfl

/-- The `for` loop of `insert`, started at page `j ≥ 1` while page 0 sits on top
of the bucket list: it is defined, does not touch the file, keeps page 0 on top,
and either stops at the first page from `j` on, below the counter `c` of the
slot, whose label is the text, or runs up to `c` without a match. -/
theorem scan_spec (text : Nat → Nat) (s : Nat) (hs : s < 227) (m : Nat) (hm : 2 ≤ m) :
    ∀ (fuel : Nat) {pg : Pager} {bs : List (Nat × List Nat)} {j : Nat},
      StoreInv pg → 2 ≤ pg.cache_cap → pg.cache_ref_list = bs ++ [(m, [0])] → Below m j bs →
      1 ≤ j → j ≤ lbl pg 0 s 17 → lbl pg 0 s 17 + 1 ≤ fuel + j →
      ∃ pg1 bs1 j1 found,
        NodeLabelStore.scan text (s * LABEL_SIZE) fuel pg j = some (pg1, j1, found) ∧
        StoreInv pg1 ∧ pg1.file_handler = pg.file_handler ∧
        pg1.cache_ref_list = bs1 ++ [(m, [0])] ∧ (∀ b ∈ bs1, b.1 < m) ∧
        (found = true → j ≤ j1 ∧ j1 < lbl pg 0 s 17 ∧ holds pg j1 s text = true ∧
          ∀ q, j ≤ q → q < j1 → holds pg q s text = false) ∧
        (found = false → j1 = lbl pg 0 s 17 ∧ Below m j1 bs1 ∧
          ∀ q, j ≤ q → q < lbl pg 0 s 17 → holds pg q s text = false) := by
  intro fuel
  induction fuel with
  | zero =>
    intro pg bs j _ _ _ _ _ h1 h2
    omega
  | succ fuel ih =>
    intro pg bs j hinv hcap href hbelow hj1 hjc hfuel
    have hc : lbl pg 0 s 17 < 256 := hinv.counters s hs
    have hp0 := top_resident hinv href
    by_cases hlt : j < lbl pg 0 s 17
    · obtain ⟨pg1, bs1, hget, hinv1, hfh1, hat1, href1, hbelow1⟩ :=
        get_page_top hinv hcap href hm hbelow hj1 (by omega)
      have hstep : NodeLabelStore.scan text (s * LABEL_SIZE) (fuel + 1) pg j =
          if holds pg j s text = true then some (pg1, j, true)
          else NodeLabelStore.scan text (s * LABEL_SIZE) fuel pg1 ((j + 1) % 256) := by
        simp only [NodeLabelStore.scan, hp0, num_pages_load, hlt, if_true, hget, hat1]
        rfl
      by_cases hmatch : holds pg j s text = true
      · refine ⟨pg1, bs1, j, true, by rw [hstep, if_pos hmatch], hinv1, hfh1, href1,
          fun b hb => (hbelow1 b hb).1, ?_, fun h => absurd h (by simp)⟩
        intro _
        exact ⟨le_refl _, hlt, hmatch, fun q h1 h2 => by omega⟩
      · have hmod : (j + 1) % 256 = j + 1 := Nat.mod_eq_of_lt (by omega)
        have hc1 : lbl pg1 0 s 17 = lbl pg 0 s 17 := lbl_congr hfh1 0 s 17
        obtain ⟨pg2, bs2, j2, found, hscan, hinv2, hfh2, href2, hb2, hfound, hnot⟩ :=
          ih hinv1 (by rw [get_page_cap hget]; exact hcap) href1 hbelow1 (by omega)
            (by rw [hc1]; omega) (by rw [hc1]; omega)
        have hno : holds pg j s text = false := by simpa using hmatch
        refine ⟨pg2, bs2, j2, found, by rw [hstep, if_neg hmatch, hmod]; exact hscan, hinv2,
          hfh2.trans hfh1, href2, hb2, ?_, ?_⟩
        · intro hf
          obtain ⟨h1, h2, h3, h4⟩ := hfound hf
          rw [hc1] at h2
          rw [holds_congr hfh1] at h3
          refine ⟨by omega, h2, h3, ?_⟩
          intro q hq1 hq2
          by_cases hqj : q = j
          · rw [hqj]; exact hno
          · rw [← holds_congr hfh1]
            exact h4 q (by omega) hq2
        · intro hf
          obtain ⟨h1, h2, h3⟩ := hnot hf
          rw [hc1] at h1 h3
          refine ⟨h1, h2, ?_⟩
          intro q hq1 hq2
          by_cases hqj : q = j
          · rw [hqj]; exact hno
          · rw [← holds_congr hfh1]
            exact h3 q (by omega) hq2
    · have hstep : NodeLabelStore.scan text (s * LABEL_SIZE) (fuel + 1) pg j =
          some (pg, j, false) := by
        simp only [NodeLabelStore.scan, hp0, num_pages_load, hlt, if_false]
      refine ⟨pg, bs, j, false, hstep, hinv, rfl, href, fun b hb => (hbelow b hb).1,
        fun h => absurd h (by simp), ?_⟩
      intro _
      exact ⟨by omega, hbelow, fun q h1 h2 => by omega⟩

/-! ### The two writing branches of `insert` -/

theorem memcpy_self (buf : Nat → Nat) (d n : Nat) : memcpy buf d (shift buf d) n = buf := by
  funext i
  by_cases h : d ≤ i ∧ i < d + n
  · rw [memcpy_mid h.1 h.2]
    simp only [shift]
    congr 1
    omega
  · simp [memcpy, h]

theorem storeInv_of_write {pg pgF : Pager} (hinv : StoreInv pg)
    (hcap : pgF.cache_cap = pg.cache_cap) (href : pgF.cache_ref_list = pg.cache_ref_list)
    (hkeys : holderKeys pgF.cache_holder = holderKeys pg.cache_holder)
    (hcoh : ∀ k p, holder_find k pgF.cache_holder = some p → p = pgF.load_from_disk k)
    (hcnt : ∀ s, s < 227 → lbl pgF 0 s 17 < 256) : StoreInv pgF := by
  refine ⟨by rw [hcap]; exact hinv.cap, ⟨?_, ?_, ?_, ?_⟩, ?_, hcoh, hcnt⟩
  · rw [hkeys]; exact hinv.inv.nodup
  · rw [hkeys, href]; exact hinv.inv.perm
  · rw [href]; exact hinv.inv.nonempty
  · rw [← holder_length, hkeys, holder_length, hcap]; exact hinv.inv.size
  · rw [hkeys]; exact hinv.small

theorem written_counters {pg pgF : Pager} {c s : Nat} {text : Nat → Nat}
    (hinv : StoreInv pg) (hw : Written pg pgF c s text) :
    ∀ s2, s2 < 227 → lbl pgF 0 s2 17 < 256 := by
  intro s2 hs2
  rw [hw 0 s2 17 (by decide) hs2 (by decide)]
  have h1 : ¬ (0 = c ∧ s2 = s ∧ 17 < 17) := by omega
  rw [if_neg h1]
  split
  · exact Nat.mod_lt _ (by decide)
  · exact hinv.counters s2 hs2

/-- The first branch of `insert`, on a pager that has page 0 on top: the text
goes to slot `s` of page 0 and the counter of the slot becomes 1. -/
theorem insert_empty_spec {pg : Pager} (hinv : StoreInv pg) {bs : List (Nat × List Nat)}
    {m : Nat} (href : pg.cache_ref_list = bs ++ [(m, [0])]) (text : Nat → Nat) (s : Nat)
    (hs : s < 227) (hc : lbl pg 0 s 17 = 0) :
    ∃ pgF, NodeLabelStore.insert_empty pg (pg.load_from_disk 0) text (s * LABEL_SIZE) s
        = some (pgF, 0, s) ∧
      StoreInv pgF ∧ pgF.cache_ref_list = pg.cache_ref_list ∧ Written pg pgF 0 s text := by
  have hp0 := top_resident hinv href
  let L1 : NodeLabel := (NodeLabel.mk (pg.load_from_disk 0) (2 + s * 18)).set_text text
  let L2 : NodeLabel := L1.set_num_pages (L1.num_pages + 1)
  have hL1n : L1.num_pages = 0 := by
    show L1.page.bytes (2 + s * 18 + 17) = 0
    rw [set_text_bytes, if_neg (by simp)]
    exact hc
  have hL2 : ∀ i, L2.page.bytes i =
      if i = 2 + s * 18 + 17 then 1
      else if 2 + s * 18 ≤ i ∧ i < 2 + s * 18 + 17 then copied text (i - (2 + s * 18))
      else (pg.load_from_disk 0).bytes i := by
    intro i
    rw [set_num_pages_bytes, hL1n, set_text_bytes]
    rfl
  obtain ⟨P2, hset, hnum, _, hbytes⟩ :=
    set_at_offset_ok L2.page (shift L2.page.bytes (2 + s * 18)) (s * 18) 18 (by omega)
  have hP2 : ∀ i, 2 ≤ i → P2.bytes i = L2.page.bytes i := by
    intro i hi
    rw [hbytes i hi, memcpy_self]
  have hP2n : P2.page_number = 0 := hnum
  have hP2t : P2.Tidy := by
    intro i hi
    rw [hP2 i (by omega), hL2, if_neg (by omega), if_neg (by omega)]
    exact load_from_disk_tidy pg 0 i hi
  have hput := put_page_resident P2 hp0
  let pgF : Pager :=
    ({ pg with cache_holder := holder_assign 0 P2 pg.cache_holder } : Pager).flush_page P2
  have h0mem : 0 ∈ holderKeys pg.cache_holder := by
    rw [← holder_find_isSome]
    have : holder_find 0 pg.cache_holder = some (pg.load_from_disk 0) := hp0
    rw [this]; rfl
  have hloadF0 : pgF.load_from_disk 0 = P2 := flush_load_same _ hP2n (by decide) hP2t
  have hloadF : ∀ k, k < 256 → k ≠ 0 → pgF.load_from_disk k = pg.load_from_disk k := by
    intro k hk hne
    exact flush_load_other _ hP2n (by decide) hk hne
  have hw : Written pg pgF 0 s text := by
    intro p2 s2 i hp2 hs2 hi
    by_cases hp : p2 = 0
    · subst hp
      show (pgF.load_from_disk 0).bytes (2 + s2 * 18 + i) = _
      rw [hloadF0, hP2 _ (by omega), hL2]
      by_cases h17 : s2 = s ∧ i = 17
      · obtain ⟨rfl, rfl⟩ := h17
        simp
      · have h1 : ¬ (2 + s2 * 18 + i = 2 + s * 18 + 17) := by omega
        rw [if_neg h1]
        by_cases htx : s2 = s ∧ i < 17
        · obtain ⟨rfl, hi17⟩ := htx
          have h2 : 2 + s2 * 18 ≤ 2 + s2 * 18 + i ∧ 2 + s2 * 18 + i < 2 + s2 * 18 + 17 := by
            omega
          rw [if_pos h2]
          simp only [hi17, and_self, if_true, true_and]
          congr 1
          omega
        · have h2 : ¬ (2 + s * 18 ≤ 2 + s2 * 18 + i ∧ 2 + s2 * 18 + i < 2 + s * 18 + 17) := by
            omega
          rw [if_neg h2]
          have h3 : ¬ (0 = 0 ∧ s2 = s ∧ i < 17) := by tauto
          have h4 : ¬ (0 = 0 ∧ s2 = s ∧ i = 17) := by tauto
          rw [if_neg h3, if_neg h4]
          rfl
    · have h3 : ¬ (p2 = 0 ∧ s2 = s ∧ i < 17) := by tauto
      have h4 : ¬ (p2 = 0 ∧ s2 = s ∧ i = 17) := by tauto
      rw [if_neg h3, if_neg h4]
      show (pgF.load_from_disk p2).bytes _ = (pg.load_from_disk p2).bytes _
      rw [hloadF p2 hp2 hp]
  refine ⟨pgF, ?_, ?_, rfl, hw⟩
  · show (match L2.page.set_at_offset (shift L2.page.bytes (2 + s * 18)) (s * 18) 18 with
      | none => none
      | some (_, first_page1) =>
        match pg.put_page 0 first_page1 with
        | none => none
        | some pg1 => some (pg1.flush_page first_page1, 0, s)) = _
    rw [hset]
    simp only [hput]
  · refine storeInv_of_write hinv rfl rfl ?_ ?_ (written_counters hinv hw)
    · exact holderKeys_assign_old h0mem
    · intro k p hf
      have hf2 : holder_find k (holder_assign 0 P2 pg.cache_holder) = some p := hf
      by_cases hk : k = 0
      · subst hk
        rw [holder_find_assign_same] at hf2
        rw [hloadF0]
        exact (Option.some.inj hf2).symm
      · rw [holder_find_assign_other _ _ hk] at hf2
        have hk256 : k < 256 := hinv.small k (holder_find_isSome.1 (by rw [hf2]; rfl))
        rw [hloadF k hk256 hk]
        exact hinv.coherent k p hf2

/-- The last branch of `insert`, on a pager that has page 0 on top at a count
`m ≥ 2`: the text goes to slot `s` of page `c`, the counter of the slot, and the
counter becomes `c + 1` (a byte). -/
theorem insert_chain_spec {pg : Pager} (hinv : StoreInv pg) (hcap : 2 ≤ pg.cache_cap)
    {bs : List (Nat × List Nat)} {m : Nat} (href : pg.cache_ref_list = bs ++ [(m, [0])]) (hm : 2 ≤ m) (text : Nat → Nat)
    (s : Nat) (hs : s < 227) (hc1 : 1 ≤ lbl pg 0 s 17) (hbelow : Below m (lbl pg 0 s 17) bs) :
    ∃ pgF bs1, NodeLabelStore.insert_chain pg text (s * LABEL_SIZE) s
        = some (pgF, lbl pg 0 s 17, s) ∧
      StoreInv pgF ∧ pgF.cache_ref_list = bs1 ++ [(m, [0])] ∧ (∀ b ∈ bs1, b.1 < m) ∧
      Written pg pgF (lbl pg 0 s 17) s text := by
  have hc : lbl pg 0 s 17 < 256 := hinv.counters s hs
  generalize hcdef : lbl pg 0 s 17 = c at hc hc1 hbelow ⊢
  have hp0 := top_resident hinv href
  obtain ⟨pg1, bs1, hget, hinv1, hfh1, hat1, href1, hbelow1⟩ :=
    get_page_top hinv hcap href hm hbelow hc1 hc
  let L : NodeLabel :=
    (NodeLabel.mk (pg.load_from_disk c) (PAGE_DATA_OFFSET + s * LABEL_SIZE)).set_text text
  let FL : NodeLabel :=
    (NodeLabel.mk (pg.load_from_disk 0) (PAGE_DATA_OFFSET + s * LABEL_SIZE)).set_num_pages (c + 1)
  have hL : ∀ i, L.page.bytes i =
      if 2 + s * 18 ≤ i ∧ i < 2 + s * 18 + 17 then copied text (i - (2 + s * 18))
      else (pg.load_from_disk c).bytes i := fun i => set_text_bytes _ text i
  have hFL : ∀ i, FL.page.bytes i =
      if i = 2 + s * 18 + 17 then (c + 1) % 256 else (pg.load_from_disk 0).bytes i :=
    fun i => set_num_pages_bytes _ _ i
  have hLn : L.page.page_number = c := rfl
  have hFLn : FL.page.page_number = 0 := rfl
  have hLt : L.page.Tidy := by
    intro i hi
    rw [hL, if_neg (by omega)]
    exact load_from_disk_tidy pg c i hi
  have hFLt : FL.page.Tidy := by
    intro i hi
    rw [hFL, if_neg (by omega)]
    exact load_from_disk_tidy pg 0 i hi
  have hput1 := put_page_resident L.page hat1
  let pg2 : Pager := { pg1 with cache_holder := holder_assign c L.page pg1.cache_holder }
  have hp0' : pg1.page_at 0 = some (pg1.load_from_disk 0) := top_resident hinv1 href1
  have hp02 : pg2.page_at 0 = some (pg.load_from_disk 0) := by
    show holder_find 0 (holder_assign c L.page pg1.cache_holder) = _
    rw [holder_find_assign_other _ _ (by omega), ← load_from_disk_congr hfh1]
    exact hp0'
  have hput2 := put_page_resident FL.page hp02
  let pg3 : Pager := { pg2 with cache_holder := holder_assign 0 FL.page pg2.cache_holder }
  let pgF : Pager := (pg3.flush_page L.page).flush_page FL.page
  have hfh3 : pg3.file_handler = pg.file_handler := hfh1
  have hloadF0 : pgF.load_from_disk 0 = FL.page := flush_load_same _ hFLn (by decide) hFLt
  have hloadFc : pgF.load_from_disk c = L.page := by
    show ((pg3.flush_page L.page).flush_page FL.page).load_from_disk c = _
    rw [flush_load_other _ hFLn (by decide) hc (by omega)]
    exact flush_load_same _ hLn hc hLt
  have hloadF : ∀ k, k < 256 → k ≠ 0 → k ≠ c → pgF.load_from_disk k = pg.load_from_disk k := by
    intro k hk hne0 hnec
    show ((pg3.flush_page L.page).flush_page FL.page).load_from_disk k = _
    rw [flush_load_other _ hFLn (by decide) hk hne0, flush_load_other _ hLn hc hk hnec]
    exact load_from_disk_congr hfh3 k
  have hw : Written pg pgF c s text := by
    intro p2 s2 i hp2 hs2 hi
    by_cases hpc : p2 = c
    · subst hpc
      show (pgF.load_from_disk p2).bytes (2 + s2 * 18 + i) = _
      rw [hloadFc, hL]
      have h4 : ¬ (p2 = 0 ∧ s2 = s ∧ i = 17) := by omega
      by_cases htx : s2 = s ∧ i < 17
      · obtain ⟨rfl, hi17⟩ := htx
        have h2 : 2 + s2 * 18 ≤ 2 + s2 * 18 + i ∧ 2 + s2 * 18 + i < 2 + s2 * 18 + 17 := by
          omega
        rw [if_pos h2]
        simp only [hi17, and_self, if_true]
        congr 1
        omega
      · have h2 : ¬ (2 + s * 18 ≤ 2 + s2 * 18 + i ∧ 2 + s2 * 18 + i < 2 + s * 18 + 17) := by
          omega
        have h3 : ¬ (p2 = p2 ∧ s2 = s ∧ i < 17) := by tauto
        rw [if_neg h2, if_neg h3, if_neg h4]
        rfl
    · have h3 : ¬ (p2 = c ∧ s2 = s ∧ i < 17) := by tauto
      rw [if_neg h3]
      by_cases hp0 : p2 = 0
      · subst hp0
        show (pgF.load_from_disk 0).bytes (2 + s2 * 18 + i) = _
        rw [hloadF0, hFL]
        by_cases h17 : s2 = s ∧ i = 17
        · obtain ⟨rfl, rfl⟩ := h17
          simp
        · have h1 : ¬ (2 + s2 * 18 + i = 2 + s * 18 + 17) := by omega
          have h4 : ¬ (0 = 0 ∧ s2 = s ∧ i = 17) := by tauto
          rw [if_neg h1, if_neg h4]
          rfl
      · have h4 : ¬ (p2 = 0 ∧ s2 = s ∧ i = 17) := by tauto
        rw [if_neg h4]
        show (pgF.load_from_disk p2).bytes _ = (pg.load_from_disk p2).bytes _
        rw [hloadF p2 hp2 hp0 hpc]
  have h0mem : 0 ∈ holderKeys pg2.cache_holder := by
    rw [← holder_find_isSome]
    have : holder_find 0 pg2.cache_holder = some (pg.load_from_disk 0) := hp02
    rw [this]; rfl
  have hcmem : c ∈ holderKeys pg1.cache_holder := by
    rw [← holder_find_isSome]
    have : holder_find c pg1.cache_holder = some (pg.load_from_disk c) := hat1
    rw [this]; rfl
  have hkeys : holderKeys pgF.cache_holder = holderKeys pg1.cache_holder := by
    show holderKeys (holder_assign 0 FL.page pg2.cache_holder) = _
    rw [holderKeys_assign_old h0mem]
    exact holderKeys_assign_old hcmem
  have hw1 : Written pg1 pgF c s text := by
    intro p2 s2 i hp2 hs2 hi
    rw [hw p2 s2 i hp2 hs2 hi, lbl_congr hfh1]
  have hb1 : ∀ b ∈ bs1, b.1 < m := fun b hb => (hbelow1 b hb).1
  have hins : NodeLabelStore.insert_chain pg text (s * LABEL_SIZE) s = some (pgF, c, s) := by
    simp only [NodeLabelStore.insert_chain, hp0, num_pages_load, hcdef, hget, hat1]
    simp only [hput1, hp02, hput2]
  have hcapF : pgF.cache_cap = pg1.cache_cap := by
    simp only [pgF, pg3, pg2, Pager.flush_page]
  have hrefF : pgF.cache_ref_list = pg1.cache_ref_list := by
    simp only [pgF, pg3, pg2, Pager.flush_page]
  have hstore : StoreInv pgF := by
    refine storeInv_of_write hinv1 hcapF hrefF hkeys ?_ (written_counters hinv1 hw1)
    intro k p hf
    have hf2 : holder_find k (holder_assign 0 FL.page
        (holder_assign c L.page pg1.cache_holder)) = some p := hf
    by_cases hk : k = 0
    · subst hk
      rw [holder_find_assign_same] at hf2
      rw [hloadF0]
      exact (Option.some.inj hf2).symm
    · rw [holder_find_assign_other _ _ hk] at hf2
      by_cases hkc : k = c
      · subst hkc
        rw [holder_find_assign_same] at hf2
        rw [hloadFc]
        exact (Option.some.inj hf2).symm
      · rw [holder_find_assign_other _ _ hkc] at hf2
        have hk256 : k < 256 := hinv1.small k (holder_find_isSome.1 (by rw [hf2]; rfl))
        rw [hloadF k hk256 hk hkc, ← load_from_disk_congr hfh1]
        exact hinv1.coherent k p hf2
  exact ⟨pgF, bs1, hins, hstore, hrefF.trans href1, hb1, hw⟩

/-! ### `insert` as a step on the label table -/

theorem written_congr {pg pg0 pgF : Pager} {c s : Nat} {text : Nat → Nat}
    (hfh : pg.file_handler = pg0.file_handler) (hw : Written pg pgF c s text) :
    Written pg0 pgF c s text := by
  intro p2 s2 i hp2 hs2 hi
  rw [hw p2 s2 i hp2 hs2 hi, lbl_congr hfh]

theorem lbl_zero_file {pg : Pager} (hz : ∀ i, pg.file_handler.contents i = 0) (p s i : Nat) :
    lbl pg p s i = 0 := by
  simp only [lbl, load_from_disk_bytes, hz]
  split <;> rfl

/-- Where `slot_for` returns, `insert` is its body at the slot returned. -/
theorem insert_eq {sc : Bool} {text : Nat → Nat} {s : Nat}
    (hslot : NodeLabelStore.slot_for sc text = some s) (pg : Pager) :
    NodeLabelStore.insert sc pg text = NodeLabelStore.insert_from pg text s := by
  simp only [NodeLabelStore.insert, hslot]

theorem insert_from_unfold {pg pg1 : Pager} (text : Nat → Nat) (s : Nat)
    (hget : pg.get_page 0 = some pg1) (hat : pg1.page_at 0 = some (pg.load_from_disk 0)) :
    NodeLabelStore.insert_from pg text s =
      if lbl pg 0 s 17 = 0 then
        NodeLabelStore.insert_empty pg1 (pg.load_from_disk 0) text (s * LABEL_SIZE) s
      else if holds pg 0 s text = true then some (pg1, 0, s)
      else
        match NodeLabelStore.scan text (s * LABEL_SIZE) 256 pg1 1 with
        | none => none
        | some (pg2, page_number, true) => some (pg2, page_number, s)
        | some (pg2, _, false) =>
            NodeLabelStore.insert_chain pg2 text (s * LABEL_SIZE) s := by
  simp only [NodeLabelStore.insert_from, hget, hat]
  rfl

/-! No step of `insert` changes the capacity of the pager. -/

theorem put_page_cap {pg pg1 : Pager} {k : Nat} {p : Page} (h : pg.put_page k p = some pg1) :
    pg1.cache_cap = pg.cache_cap := by
  unfold Pager.put_page at h
  cases hf : holder_find k pg.cache_holder with
  | none => rw [hf] at h; exact absurd h (by simp)
  | some q =>
    rw [hf] at h
    simp only [Option.some.injEq] at h
    rw [← h]

theorem scan_cap (text : Nat → Nat) (off : Nat) : ∀ (fuel : Nat) {pg pg1 : Pager} {j j1 : Nat}
    {f : Bool}, NodeLabelStore.scan text off fuel pg j = some (pg1, j1, f) →
    pg1.cache_cap = pg.cache_cap := by
  intro fuel
  induction fuel with
  | zero => intro pg pg1 j j1 f h; simp [NodeLabelStore.scan] at h
  | succ fuel ih =>
    intro pg pg1 j j1 f h
    unfold NodeLabelStore.scan at h
    cases h0 : pg.page_at 0 with
    | none => rw [h0] at h; exact absurd h (by simp)
    | some fp =>
      rw [h0] at h
      simp only at h
      by_cases hlt : j < (NodeLabel.mk fp (PAGE_DATA_OFFSET + off)).num_pages
      · rw [if_pos hlt] at h
        cases hg : pg.get_page j with
        | none => rw [hg] at h; exact absurd h (by simp)
        | some pg2 =>
          rw [hg] at h
          simp only at h
          cases hp : pg2.page_at j with
          | none => rw [hp] at h; exact absurd h (by simp)
          | some page =>
            rw [hp] at h
            simp only at h
            by_cases hm : (NodeLabel.mk page (PAGE_DATA_OFFSET + off)).is_text text = true
            · rw [if_pos hm] at h
              simp only [Option.some.injEq, Prod.mk.injEq] at h
              rw [← h.1]
              exact get_page_cap hg
            · rw [if_neg hm] at h
              exact (ih h).trans (get_page_cap hg)
      · rw [if_neg hlt] at h
        simp only [Option.some.injEq, Prod.mk.injEq] at h
        rw [← h.1]

theorem insert_empty_cap {pg pgF : Pager} {fp : Page} {text : Nat → Nat} {off s : Nat}
    {a : Nat × Nat} (h : NodeLabelStore.insert_empty pg fp text off s = some (pgF, a)) :
    pgF.cache_cap = pg.cache_cap := by
  unfold NodeLabelStore.insert_empty at h
  simp only at h
  split at h
  · exact absurd h (by simp)
  · split at h
    · exact absurd h (by simp)
    · rename_i pg1 hput
      simp only [Option.some.injEq, Prod.mk.injEq] at h
      rw [← h.1]
      exact (put_page_cap hput : pg1.cache_cap = pg.cache_cap)

theorem insert_chain_cap {pg pgF : Pager} {text : Nat → Nat} {off s : Nat}
    {a : Nat × Nat} (h : NodeLabelStore.insert_chain pg text off s = some (pgF, a)) :
    pgF.cache_cap = pg.cache_cap := by
  unfold NodeLabelStore.insert_chain at h
  split at h
  · exact absurd h (by simp)
  · try simp only at h
    split at h
    · exact absurd h (by simp)
    · rename_i pg1 hg
      split at h
      · exact absurd h (by simp)
      · try simp only at h
        split at h
        · exact absurd h (by simp)
        · rename_i pg2 hput1
          split at h
          · exact absurd h (by simp)
          · try simp only at h
            split at h
            · exact absurd h (by simp)
            · rename_i pg3 hput2
              simp only [Option.some.injEq, Prod.mk.injEq] at h
              rw [← h.1]
              exact ((put_page_cap hput2).trans ((put_page_cap hput1).trans (get_page_cap hg)) :
                pg3.cache_cap = pg.cache_cap)

theorem insert_from_cap {pg pgF : Pager} {text : Nat → Nat} {s : Nat} {a : Nat × Nat}
    (h : NodeLabelStore.insert_from pg text s = some (pgF, a)) :
    pgF.cache_cap = pg.cache_cap := by
  unfold NodeLabelStore.insert_from at h
  simp only at h
  cases hg : pg.get_page 0 with
  | none => rw [hg] at h; exact absurd h (by simp)
  | some pg1 =>
    rw [hg] at h
    simp only at h
    cases hp : pg1.page_at 0 with
    | none => rw [hp] at h; exact absurd h (by simp)
    | some fp =>
      rw [hp] at h
      simp only at h
      split at h
      · exact (insert_empty_cap h).trans (get_page_cap hg)
      · split at h
        · simp only [Option.some.injEq, Prod.mk.injEq] at h
          rw [← h.1]
          exact get_page_cap hg
        · split at h
          · exact absurd h (by simp)
          · rename_i pg2 pn hscan
            simp only [Option.some.injEq, Prod.mk.injEq] at h
            rw [← h.1]
            exact (scan_cap _ _ _ hscan).trans (get_page_cap hg)
          · rename_i pg2 pn hscan
            exact (insert_chain_cap h).trans ((scan_cap _ _ _ hscan).trans (get_page_cap hg))

/-- `NodeLabelStore::insert` from slot `s` on, on a store that satisfies the
invariant: the call is defined, keeps the store invariant and page 0 on top,
and, with `c` the chain counter of the slot, either returns the first page
below `c` whose label is the text and leaves the file as it is, or finds no
such page, returns `c` and writes the text there, raising the counter to
`c + 1` (a byte). -/
theorem insert_from_spec_aux {pg : Pager} (h : LabelInv pg) (text : Nat → Nat) (s : Nat)
    (hs : s < 227) :
    ∃ pgF p, NodeLabelStore.insert_from pg text s = some (pgF, p, s) ∧
      (StoreInv pgF ∧
        ((pgF.cache_holder = [] ∧ pgF.cache_ref_list = [] ∧
            ∀ i, pgF.file_handler.contents i = 0) ∨
          ∃ bs m, pgF.cache_ref_list = bs ++ [(m, [0])] ∧ 1 ≤ m ∧ ∀ b ∈ bs, b.1 < m)) ∧
      ((p < lbl pg 0 s 17 ∧ holds pg p s text = true ∧
          (∀ q, q < p → holds pg q s text = false) ∧
          pgF.file_handler = pg.file_handler) ∨
        (p = lbl pg 0 s 17 ∧ (∀ q, q < p → holds pg q s text = false) ∧
          Written pg pgF p s text)) := by
  obtain ⟨pg1, bs, m, hget, hinv1, hfh1, hat1, href1, hm, hbelow0, hfresh⟩ := get_page_zero h.1 h.2.1
  have hcap1 : 2 ≤ pg1.cache_cap := by rw [get_page_cap hget]; exact h.2.2
  have hc1 : lbl pg1 0 s 17 = lbl pg 0 s 17 := lbl_congr hfh1 0 s 17
  have hb1 : ∀ b ∈ bs, b.1 < m := fun b hb => (hbelow0 b hb).1
  have hunf := insert_from_unfold text s hget hat1
  rw [hunf]
  by_cases hc0 : lbl pg 0 s 17 = 0
  · rw [if_pos hc0]
    obtain ⟨pgF, hins, hinvF, hrefF, hw⟩ :=
      insert_empty_spec hinv1 href1 text s hs (by rw [hc1]; exact hc0)
    rw [load_from_disk_congr hfh1] at hins
    refine ⟨pgF, 0, hins, ⟨hinvF, Or.inr ⟨bs, m, by rw [hrefF]; exact href1, hm, hb1⟩⟩,
      Or.inr ⟨hc0.symm, fun q hq => by omega, written_congr hfh1 hw⟩⟩
  · rw [if_neg hc0]
    have hm2 : 2 ≤ m := by
      by_contra hlt
      exact hc0 (lbl_zero_file (hfresh (by omega)) 0 s 17)
    by_cases hfirst : holds pg 0 s text = true
    · rw [if_pos hfirst]
      refine ⟨pg1, 0, rfl, ⟨hinv1, Or.inr ⟨bs, m, href1, hm, hb1⟩⟩,
        Or.inl ⟨by omega, hfirst, fun q hq => by omega, hfh1⟩⟩
    · rw [if_neg hfirst]
      have hno0 : holds pg 0 s text = false := by simpa using hfirst
      have hc255 : lbl pg 0 s 17 < 256 := h.1.counters s hs
      obtain ⟨pg2, bs2, j2, found, hscan, hinv2, hfh2, href2, hb2, hfound, hnot⟩ :=
        scan_spec text s hs m hm2 256 hinv1 hcap1 href1 (hbelow0.mono (Nat.zero_le 1)) (le_refl 1)
          (by rw [hc1]; omega) (by rw [hc1]; omega)
      rw [hscan]
      cases found with
      | true =>
        obtain ⟨h1, h2, h3, h4⟩ := hfound rfl
        rw [hc1] at h2
        rw [holds_congr hfh1] at h3
        refine ⟨pg2, j2, rfl, ⟨hinv2, Or.inr ⟨bs2, m, href2, hm, hb2⟩⟩,
          Or.inl ⟨h2, h3, ?_, hfh2.trans hfh1⟩⟩
        intro q hq
        by_cases hq0 : q = 0
        · rw [hq0]; exact hno0
        · rw [← holds_congr hfh1]
          exact h4 q (by omega) hq
      | false =>
        obtain ⟨h1, h2, h3⟩ := hnot rfl
        have hfh21 : pg2.file_handler = pg.file_handler := hfh2.trans hfh1
        have hc2 : lbl pg2 0 s 17 = lbl pg 0 s 17 := lbl_congr hfh21 0 s 17
        rw [hc1] at h1 h3
        obtain ⟨pgF, bsF, hins, hinvF, hrefF, hbF, hw⟩ :=
          insert_chain_spec hinv2 (by rw [scan_cap _ _ _ hscan]; exact hcap1) href2 hm2 text s hs (by rw [hc2]; omega)
            (by rw [hc2, ← h1]; exact h2)
        rw [hc2] at hins hw
        refine ⟨pgF, lbl pg 0 s 17, hins, ⟨hinvF, Or.inr ⟨bsF, m, hrefF, hm, hbF⟩⟩,
          Or.inr ⟨rfl, ?_, written_congr hfh21 hw⟩⟩
        intro q hq
        by_cases hq0 : q = 0
        · rw [hq0]; exact hno0
        · rw [← holds_congr hfh1]
          exact h3 q (by omega) hq

/-- The step of `insert_from` on a store of capacity at least 2 that satisfies
the invariant: defined, and the invariant holds again. -/
theorem insert_from_spec {pg : Pager} (h : LabelInv pg) (text : Nat → Nat) (s : Nat)
    (hs : s < 227) :
    ∃ pgF p, NodeLabelStore.insert_from pg text s = some (pgF, p, s) ∧ LabelInv pgF ∧
      ((p < lbl pg 0 s 17 ∧ holds pg p s text = true ∧
          (∀ q, q < p → holds pg q s text = false) ∧
          pgF.file_handler = pg.file_handler) ∨
        (p = lbl pg 0 s 17 ∧ (∀ q, q < p → holds pg q s text = false) ∧
          Written pg pgF p s text)) := by
  obtain ⟨pgF, p, hins, hF, hcase⟩ := insert_from_spec_aux h text s hs
  exact ⟨pgF, p, hins, ⟨hF.1, hF.2, by rw [insert_from_cap hins]; exact h.2.2⟩, hcase⟩

/-- `NodeLabelStore::insert` of a text for which `slot_for` returns `s`, on a
store of capacity at least 2 that satisfies the invariant. -/
theorem insert_spec (sc : Bool) {pg : Pager} (h : LabelInv pg) (text : Nat → Nat) {s : Nat}
    (hslot : NodeLabelStore.slot_for sc text = some s) :
    ∃ pgF p, NodeLabelStore.insert sc pg text = some (pgF, p, s) ∧ LabelInv pgF ∧
      ((p < lbl pg 0 s 17 ∧ holds pg p s text = true ∧
          (∀ q, q < p → holds pg q s text = false) ∧
          pgF.file_handler = pg.file_handler) ∨
        (p = lbl pg 0 s 17 ∧ (∀ q, q < p → holds pg q s text = false) ∧
          Written pg pgF p s text)) := by
  rw [insert_eq hslot]
  exact insert_from_spec h text s (slot_for_lt hslot)

/-! ### `insert` on a pager of capacity 1 -/

theorem labelInv_new (cap : Int) (hcap : 2 ≤ cap) :
    LabelInv (Pager.new FileHandler.empty cap) := by
  refine ⟨⟨by show (1 : Int) ≤ cap; omega, pagerInv_new _ _ (by omega), ?_, ?_, ?_⟩,
    Or.inl ⟨rfl, rfl, fun _ => rfl⟩, hcap⟩
  · intro k hk
    simp [Pager.new, holderKeys] at hk
  · intro k p hf
    simp [Pager.new, holder_find] at hf
  · intro s _
    rw [lbl_zero_file (fun _ => rfl)]
    decide

/-- `NodeLabelStore::get(p, s)` for a page number that fits a byte and a slot
of the table: the label shows the 17 text bytes the file holds there. -/
theorem get_spec {pg : Pager} (hinv : StoreInv pg) (p s : Nat) (hp : p < 256) (hs : s < 227) :
    ∃ pg1 l, NodeLabelStore.get pg p s = some (pg1, l) ∧
      l.get_text = some ((List.range 17).map (fun i => lbl pg p s i)) := by
  obtain ⟨pg1, hget, _, _, hat⟩ := get_page_store hinv p hp
  refine ⟨pg1, ⟨pg.load_from_disk p, PAGE_DATA_OFFSET + s * LABEL_SIZE⟩, ?_, ?_⟩
  · simp only [NodeLabelStore.get, hget, hat]
  · have hin : 2 + s * 18 + 0 + 17 ≤ 4096 := by omega
    show (if 2 + s * 18 + 0 + 17 ≤ 4096 then
        some ((List.range 17).map (fun i => (pg.load_from_disk p).bytes (2 + s * 18 + 0 + i)))
      else none) = _
    rw [if_pos hin]
    rfl

/-- The text of at most 17 bytes, padded with zero bytes to 17 bytes, is what
the 17 bytes behind the pointer are. -/
theorem padded_eq_map_cstr (t : List Nat) (ht : t.length ≤ 17) :
    t ++ List.replicate (17 - t.length) 0 = (List.range 17).map (cstr t) := by
  apply List.ext_getElem
  · simp; omega
  · intro i h1 h2
    simp only [List.getElem_map, List.getElem_range, cstr, List.getD_eq_getElem?_getD]
    by_cases hi : i < t.length
    · rw [List.getElem_append_left hi, List.getElem?_eq_getElem hi]
      rfl
    · rw [List.getElem_append_right (by omega), List.getElem?_eq_none (by omega)]
      simp

theorem strncmp_eq_congr {a d b : Nat → Nat} {n : Nat} (h : ∀ i, i < n → a i = d i) :
    strncmp_eq a b n = strncmp_eq d b n := by
  have hnb : ∀ i, i ≤ n → has_nul_before a i = has_nul_before d i := by
    intro i
    induction i with
    | zero => intro _; rfl
    | succ i ih =>
      intro hi
      simp only [has_nul_before, ih (by omega), h i (by omega)]
  rw [Bool.eq_iff_iff, strncmp_eq_iff, strncmp_eq_iff]
  constructor
  · intro hh i hi
    have := hh i hi
    rwa [hnb i (by omega), h i hi] at this
  · intro hh i hi
    have := hh i hi
    rwa [← hnb i (by omega), ← h i hi] at this

theorem holds_eq (pg : Pager) (p s : Nat) (text : Nat → Nat) :
    holds pg p s text = strncmp_eq (fun i => lbl pg p s i) text 17 := rfl

/-- After a write of `text` to slot `s` of page `c`, the label there is `text`,
and the labels of the slot in the other pages are what they were. -/
theorem written_holds {pg pgF : Pager} {c s : Nat} {text : Nat → Nat} (hs : s < 227)
    (hc : c < 256) (hw : Written pg pgF c s text) :
    holds pgF c s text = true ∧
      ∀ q u, q < 256 → q ≠ c → holds pgF q s u = holds pg q s u := by
  constructor
  · rw [holds_eq, strncmp_eq_congr (d := copied text), strncmp_copied]
    intro i hi
    rw [hw c s i hc hs (by omega), if_pos ⟨rfl, rfl, hi⟩]
  · intro q u hq hne
    rw [holds_eq, holds_eq]
    apply strncmp_eq_congr
    intro i hi
    rw [hw q s i hq hs (by omega), if_neg (by tauto), if_neg (by omega)]

/-- Idempotence on a store that is used through `insert` alone, on a pager of
capacity at least 2: in a state that satisfies the invariant, for a text that
`slot_for` sends to slot `s` whose chain counter is below 255, two consecutive
`insert(text)` calls are defined and return the same `(page, slot)`, and the
second call leaves the file as it is: no byte of any page changes, every cached
page is still the image of its page in that file, and the counter of the slot
is the same before and after it. -/
theorem insert_twice_same (sc : Bool) (pg : Pager) (h : LabelInv pg) (t : List Nat) {s : Nat}
    (hslot : NodeLabelStore.slot_for sc (cstr t) = some s) (hc : lbl pg 0 s 17 < 255) :
    ∃ pg1 pg2 p, NodeLabelStore.insert sc pg (cstr t) = some (pg1, p, s) ∧
      NodeLabelStore.insert sc pg1 (cstr t) = some (pg2, p, s) ∧
      pg2.file_handler = pg1.file_handler ∧
      (∀ k page, pg2.page_at k = some page → page = pg1.load_from_disk k) ∧
      lbl pg2 0 s 17 = lbl pg1 0 s 17 := by
  obtain ⟨pg1, p, hins1, hinv1, hcase1⟩ := insert_spec sc h (cstr t) hslot
  obtain ⟨pg2, p2, hins2, hinv2, hcase2⟩ := insert_spec sc hinv1 (cstr t) hslot
  have hs := slot_for_lt hslot
  have key : p2 = p ∧ pg2.file_handler = pg1.file_handler := by
    rcases hcase1 with ⟨hp, hhold, hleast, hfh⟩ | ⟨hp, hnone, hw⟩
    · have hc1 : lbl pg1 0 s 17 = lbl pg 0 s 17 := lbl_congr hfh 0 s 17
      rcases hcase2 with ⟨hp2, hhold2, hleast2, hfh2⟩ | ⟨hp2, hnone2, _⟩
      · rw [holds_congr hfh] at hhold2
        refine ⟨?_, hfh2⟩
        rcases Nat.lt_trichotomy p2 p with hlt | heq | hgt
        · rw [hleast p2 hlt] at hhold2; exact absurd hhold2 (by simp)
        · exact heq
        · have := hleast2 p hgt
          rw [holds_congr hfh, hhold] at this
          exact absurd this (by simp)
      · have := hnone2 p (by rw [hp2, hc1]; exact hp)
        rw [holds_congr hfh, hhold] at this
        exact absurd this (by simp)
    · have hp256 : p < 256 := by omega
      obtain ⟨hnew, hold⟩ := written_holds hs hp256 hw
      have hc1 : lbl pg1 0 s 17 = p + 1 := by
        rw [hw 0 s 17 (by decide) hs (by decide), if_neg (by omega), if_pos ⟨rfl, rfl, rfl⟩]
        exact Nat.mod_eq_of_lt (by omega)
      rcases hcase2 with ⟨hp2, hhold2, hleast2, hfh2⟩ | ⟨hp2, hnone2, _⟩
      · refine ⟨?_, hfh2⟩
        rcases Nat.lt_trichotomy p2 p with hlt | heq | hgt
        · rw [hold p2 (cstr t) (by omega) (by omega), hnone p2 hlt] at hhold2
          exact absurd hhold2 (by simp)
        · exact heq
        · have := hleast2 p hgt
          rw [hnew] at this
          exact absurd this (by simp)
      · have := hnone2 p (by rw [hp2, hc1]; omega)
        rw [hnew] at this
        exact absurd this (by simp)
  obtain ⟨hpp, hfh⟩ := key
  subst hpp
  refine ⟨pg1, pg2, p2, hins1, hins2, hfh, ?_, lbl_congr hfh 0 s 17⟩
  intro k page hk
  rw [← load_from_disk_congr hfh]
  exact hinv2.1.coherent k page hk

/-- The fresh store of capacity 2 and the text `"00269_NODE_LABEL"`, twice. -/
theorem insert_twice_same_fresh :
    ∃ pg1 pg2 p,
      NodeLabelStore.insert true (Pager.new FileHandler.empty 2) (cstr (label_text 269))
        = some (pg1, p, 26) ∧
      NodeLabelStore.insert true pg1 (cstr (label_text 269)) = some (pg2, p, 26) ∧
      pg2.file_handler = pg1.file_handler ∧
      (∀ k page, pg2.page_at k = some page → page = pg1.load_from_disk k) ∧
      lbl pg2 0 26 17 = lbl pg1 0 26 17 :=
  insert_twice_same true (Pager.new FileHandler.empty 2) (labelInv_new 2 (by decide))
    (label_text 269) (by decide) (by rw [lbl_zero_file (fun _ => rfl)]; decide)

/-! ### Round trip -/

theorem get_text_eq {pg : Pager} (hinv : StoreInv pg) {p s : Nat} (hp : p < 256)
    (hs : s < 227) {t : List Nat} (ht : t.length ≤ 17)
    (h : ∀ i, i < 17 → lbl pg p s i = cstr t i) :
    ∃ pg1 l, NodeLabelStore.get pg p s = some (pg1, l) ∧
      l.get_text = some (t ++ List.replicate (17 - t.length) 0) := by
  obtain ⟨pg1, l, hget, htext⟩ := get_spec hinv p s hp hs
  refine ⟨pg1, l, hget, ?_⟩
  rw [htext, padded_eq_map_cstr t ht]
  congr 1
  apply List.map_congr_left
  intro i hi
  exact h i (List.mem_range.1 hi)

/-- One more distinct text for a slot whose chain is not full: it gets the next
page. -/
theorem chain_step (sc : Bool) {pg : Pager} {s : Nat} {done : List (List Nat)} {t : List Nat}
    (h : LabelInv pg) (hch : Chain pg s done) (hlen : done.length < 256)
    (hdone : ∀ u ∈ done, u.length ≤ 17 ∧ ∀ b ∈ u, b ≠ 0) (ht : t.length ≤ 17)
    (hnul : ∀ b ∈ t, b ≠ 0) (hnew : t ∉ done)
    (hslot : NodeLabelStore.slot_for sc (cstr t) = some s) :
    ∃ pg1, NodeLabelStore.insert sc pg (cstr t) = some (pg1, done.length, s) ∧
      LabelInv pg1 ∧ Chain pg1 s (done ++ [t]) := by
  obtain ⟨pg1, p, hins, hinv1, hcase⟩ := insert_spec sc h (cstr t) hslot
  have hs := slot_for_lt hslot
  have hc : lbl pg 0 s 17 = done.length := by
    rw [hch.1]; exact Nat.mod_eq_of_lt hlen
  have hnone : ∀ q, q < done.length → holds pg q s (cstr t) = false := by
    intro q hq
    have hmem : done.getD q [] ∈ done := by
      rw [List.getD_eq_getElem _ _ hq]
      exact List.getElem_mem hq
    rw [holds_eq, strncmp_eq_congr (d := cstr (done.getD q [])) (hch.2 q hq)]
    exact strncmp_cstr_ne (hdone _ hmem).1 ht (hdone _ hmem).2 hnul
      (fun heq => hnew (heq ▸ hmem))
  rcases hcase with ⟨hp, hhold, _, _⟩ | ⟨hp, _, hw⟩
  · rw [hc] at hp
    rw [hnone p hp] at hhold
    exact absurd hhold (by simp)
  · rw [hc] at hp
    subst hp
    refine ⟨pg1, hins, hinv1, ?_, ?_⟩
    · rw [hw 0 s 17 (by decide) hs (by decide), if_neg (by omega), if_pos ⟨rfl, rfl, rfl⟩]
      simp
    · intro q hq i hi
      rw [List.length_append, List.length_singleton] at hq
      rw [hw q s i (by omega) hs (by omega)]
      by_cases hqc : q = done.length
      · rw [if_pos ⟨hqc, rfl, hi⟩, copied_cstr hnul, hqc]
        simp [List.getD_eq_getElem?_getD]
      · rw [if_neg (by tauto), if_neg (by omega)]
        have hq2 : q < done.length := by omega
        rw [hch.2 q hq2 i hi]
        simp [List.getD_eq_getElem?_getD, List.getElem?_append_left hq2]

/-- Distinct texts of one slot, inserted in order while the chain holds at most
256 texts, get consecutive pages. -/
theorem chain_run (sc : Bool) (s : Nat) (ts : List (List Nat)) :
    ∀ {pg : Pager} {done : List (List Nat)}, LabelInv pg → Chain pg s done →
      (done ++ ts).length ≤ 256 → (∀ u ∈ done ++ ts, u.length ≤ 17 ∧ ∀ b ∈ u, b ≠ 0) →
      (done ++ ts).Nodup → (∀ t ∈ ts, NodeLabelStore.slot_for sc (cstr t) = some s) →
      ∃ pg1, NodeLabelStore.insert_all sc pg (ts.map cstr)
          = some (pg1, (List.range' done.length ts.length).map (fun q => (q, s))) ∧
        LabelInv pg1 ∧ Chain pg1 s (done ++ ts) := by
  induction ts with
  | nil =>
    intro pg done h hch _ _ _ _
    exact ⟨pg, rfl, h, by simpa using hch⟩
  | cons t ts ih =>
    intro pg done h hch hlen hvalid hnd hslot
    have hlen2 : done.length + (ts.length + 1) ≤ 256 := by simpa using hlen
    have htv := hvalid t (by simp)
    have hnew : t ∉ done := by
      intro hmem
      exact (List.nodup_append.1 hnd).2.2 hmem (List.mem_cons_self _ _)
    obtain ⟨pg1, hins, hinv1, hch1⟩ :=
      chain_step sc h hch (by omega) (fun u hu => hvalid u (by simp [hu])) htv.1 htv.2 hnew
        (hslot t (List.mem_cons_self _ _))
    have happ : (done ++ [t]) ++ ts = done ++ t :: ts := by simp
    obtain ⟨pg2, hall, hinv2, hch2⟩ :=
      @ih pg1 (done ++ [t]) hinv1 hch1 (by rw [happ]; exact hlen) (by rw [happ]; exact hvalid)
        (by rw [happ]; exact hnd) (fun u hu => hslot u (List.mem_cons_of_mem _ hu))
    refine ⟨pg2, ?_, hinv2, by rw [← happ]; exact hch2⟩
    simp only [List.map_cons, NodeLabelStore.insert_all, hins, hall, List.length_append,
      List.length_singleton, List.length_cons]
    rfl

theorem chain_new (cap : Int) (s : Nat) : Chain (Pager.new FileHandler.empty cap) s [] :=
  ⟨lbl_zero_file (fun _ => rfl) 0 s 17, fun q hq => absurd hq (by simp)⟩

/-- Collision chaining on a pager of capacity at least 2 over a fresh label
file: for every list of `k` pairwise distinct label texts (`1 ≤ k ≤ 255`, each
of at most 17 bytes and without a NUL byte) that `slot_for` all sends to the
slot `s`, inserting them in order is defined and returns `(i, s)` for the text
with index `i` (counted from 0); afterwards the counter of page 0 for slot `s`
is `k` and `get(i, s)` returns that text padded to 17 bytes. -/
theorem chain_addresses (sc : Bool) (cap : Int) (hcap : 2 ≤ cap)
    (ts : List (List Nat)) (s : Nat) (hk1 : 1 ≤ ts.length) (hk2 : ts.length ≤ 255)
    (hnd : ts.Nodup) (hlen : ∀ t ∈ ts, t.length ≤ 17) (hnul : ∀ t ∈ ts, ∀ b ∈ t, b ≠ 0)
    (hslot : ∀ t ∈ ts, NodeLabelStore.slot_for sc (cstr t) = some s) :
    ∃ pg, NodeLabelStore.insert_all sc (Pager.new FileHandler.empty cap) (ts.map cstr)
        = some (pg, (List.range ts.length).map (fun i => (i, s))) ∧
      lbl pg 0 s 17 = ts.length ∧
      ∀ i (hi : i < ts.length), ∃ pg1 l, NodeLabelStore.get pg i s = some (pg1, l) ∧
        l.get_text = some (ts.get ⟨i, hi⟩ ++ List.replicate (17 - (ts.get ⟨i, hi⟩).length) 0) := by
  obtain ⟨pg, hall, hinv, hch⟩ :=
    @chain_run sc s ts (Pager.new FileHandler.empty cap) [] (labelInv_new cap hcap)
      (chain_new cap s) (by simp; omega) (fun u hu => ⟨hlen u (by simpa using hu),
        hnul u (by simpa using hu)⟩) (by simpa using hnd) hslot
  simp only [List.nil_append, List.length_nil] at hall hch
  have hs : s < 227 := by
    obtain ⟨t, ht⟩ := List.exists_mem_of_length_pos (by omega : 0 < ts.length)
    exact slot_for_lt (hslot t ht)
  refine ⟨pg, by rw [hall, List.range_eq_range'], ?_, ?_⟩
  · rw [hch.1]; exact Nat.mod_eq_of_lt (by omega)
  · intro i hi
    apply get_text_eq hinv.1 (by omega) hs (hlen _ (List.get_mem _ _ _))
    intro j hj
    rw [hch.2 i hi j hj, List.getD_eq_getElem _ _ hi]
    rfl

/-! ### The chain counter is a byte -/

theorem insert_all_snoc (sc : Bool) (xs : List (Nat → Nat)) (y : Nat → Nat) :
    ∀ {pg pg1 pg2 : Pager} {a1 : List (Nat × Nat)} {a : Nat × Nat},
      NodeLabelStore.insert_all sc pg xs = some (pg1, a1) →
      NodeLabelStore.insert sc pg1 y = some (pg2, a) →
      NodeLabelStore.insert_all sc pg (xs ++ [y]) = some (pg2, a1 ++ [a]) := by
  induction xs with
  | nil =>
    intro pg pg1 pg2 a1 a h1 h2
    simp only [NodeLabelStore.insert_all, Option.some.injEq, Prod.mk.injEq] at h1
    obtain ⟨rfl, rfl⟩ := h1
    simp only [List.nil_append, NodeLabelStore.insert_all, h2]
  | cons x xs ih =>
    intro pg pg1 pg2 a1 a h1 h2
    simp only [NodeLabelStore.insert_all] at h1
    cases hx : NodeLabelStore.insert sc pg x with
    | none => simp [hx] at h1
    | some r =>
      obtain ⟨pgx, ax⟩ := r
      simp only [hx] at h1
      cases hy : NodeLabelStore.insert_all sc pgx xs with
      | none => simp [hy] at h1
      | some r2 =>
        obtain ⟨pgy, ay⟩ := r2
        simp only [hy, Option.some.injEq, Prod.mk.injEq] at h1
        obtain ⟨rfl, rfl⟩ := h1
        have := ih hy h2
        show NodeLabelStore.insert_all sc pg (x :: (xs ++ [y])) = _
        simp only [NodeLabelStore.insert_all, hx, this]
        rfl

/-- The 257th distinct text of a slot: the counter of the slot, a byte, is back at
0 after 256 texts, so the text is written over the first one, at `(0, s)`; and a
new `insert` of the first text is then sent to page 1. -/
theorem chain_wraps (sc : Bool) (cap : Int) (hcap : 2 ≤ cap) (all : List (List Nat)) (s : Nat)
    (hlen : all.length = 257) (hvalid : ∀ u ∈ all, u.length ≤ 17 ∧ ∀ b ∈ u, b ≠ 0)
    (hnd : all.Nodup) (hslot : ∀ u ∈ all, NodeLabelStore.slot_for sc (cstr u) = some s) :
    ∃ pg addrs,
      NodeLabelStore.insert_all sc (Pager.new FileHandler.empty cap) (all.map cstr)
        = some (pg, addrs) ∧
      addrs.head? = some (0, s) ∧
      (∃ pg1 l, NodeLabelStore.get pg 0 s = some (pg1, l) ∧
        l.get_text = some (all.getD 256 [] ++ List.replicate (17 - (all.getD 256 []).length) 0)) ∧
      (∃ pg1, NodeLabelStore.insert sc pg (cstr (all.getD 0 [])) = some (pg1, 1, s)) := by
  have hsplit : all = all.take 256 ++ [all.getD 256 []] := by
    apply List.ext_getElem
    · simp [hlen]
    · intro i h1 h2
      by_cases hi : i < 256
      · rw [List.getElem_append_left (by simp [hlen]; omega)]
        simp
      · have hi2 : i = 256 := by omega
        subst hi2
        rw [List.getElem_append_right (by simp [hlen])]
        simp [List.getD_eq_getElem?_getD, List.getElem?_eq_getElem h1, hlen]
  generalize hts : all.take 256 = ts at hsplit
  generalize ht : all.getD 256 [] = t at hsplit
  have htslen : ts.length = 256 := by rw [← hts]; simp [hlen]
  have ht0 : all.getD 0 [] = ts.getD 0 [] := by
    rw [hsplit, List.getD_eq_getElem?_getD, List.getD_eq_getElem?_getD,
      List.getElem?_append_left (by omega)]
  have ht0mem : ts.getD 0 [] ∈ ts := by
    rw [List.getD_eq_getElem _ _ (by omega)]
    exact List.getElem_mem _
  rw [hsplit] at hvalid hnd hslot
  have hs : s < 227 := slot_for_lt (hslot t (by simp))
  obtain ⟨pg, hall, hinv, hch⟩ :=
    @chain_run sc s ts (Pager.new FileHandler.empty cap) [] (labelInv_new cap hcap)
      (chain_new cap s) (by simp [htslen]) (fun u hu => hvalid u (by simp at hu; simp [hu]))
      (by simpa using (List.nodup_append.1 hnd).1) (fun u hu => hslot u (by simp [hu]))
  simp only [List.nil_append, List.length_nil, htslen] at hall
  rw [List.nil_append] at hch
  have hc0 : lbl pg 0 s 17 = 0 := by rw [hch.1, htslen]
  have htv := hvalid t (by simp)
  have htslot := hslot t (by simp)
  obtain ⟨pgA, p, hins, hinvA, hcase⟩ := insert_spec sc hinv (cstr t) htslot
  have hp0 : p = 0 := by
    rcases hcase with ⟨h1, _⟩ | ⟨h1, _⟩ <;> omega
  subst hp0
  have hw : Written pg pgA 0 s (cstr t) := by
    rcases hcase with ⟨h1, _⟩ | ⟨_, _, hw⟩
    · omega
    · exact hw
  have hstored : ∀ i, i < 17 → lbl pgA 0 s i = cstr t i := by
    intro i hi
    rw [hw 0 s i (by decide) hs (by omega), if_pos ⟨rfl, rfl, hi⟩]
    exact copied_cstr htv.2 i
  have hcA : lbl pgA 0 s 17 = 1 := by
    rw [hw 0 s 17 (by decide) hs (by decide), if_neg (by omega), if_pos ⟨rfl, rfl, rfl⟩]
  refine ⟨pgA, (List.range' 0 256).map (fun q => (q, s)) ++ [(0, s)], ?_, ?_, ?_, ?_⟩
  · rw [hsplit, List.map_append]
    exact insert_all_snoc sc _ _ hall hins
  · rfl
  · exact get_text_eq hinvA.1 (by decide) hs htv.1 hstored
  · rw [ht0]
    have hv0 := hvalid _ (List.mem_append_left _ ht0mem)
    have hne : t ≠ ts.getD 0 [] := by
      intro heq
      exact (List.nodup_append.1 hnd).2.2 ht0mem (by rw [← heq]; simp)
    obtain ⟨pgB, p, hinsB, _, hcaseB⟩ :=
      insert_spec sc hinvA (cstr (ts.getD 0 [])) (hslot _ (List.mem_append_left _ ht0mem))
    have hp1 : p = 1 := by
      rcases hcaseB with ⟨h1, hhold, _, _⟩ | ⟨h1, _⟩
      · rw [hcA] at h1
        have hp : p = 0 := by omega
        subst hp
        rw [holds_eq, strncmp_eq_congr (d := cstr t) hstored,
          strncmp_cstr_ne htv.1 hv0.1 htv.2 hv0.2 hne] at hhold
        exact absurd hhold (by simp)
      · rw [h1, hcA]
    subst hp1
    exact ⟨pgB, hinsB⟩

set_option maxRecDepth 100000 in
/-- C4 (evaluation at the failing input): the 257 texts of `overflow_texts`,
all of slot 26, are inserted in order into a fresh store on a pager of capacity
2.  The first text, `"00269_NODE_LABEL"`, is given the address `(0, 26)`.
After the other 256 inserts the chain counter of the slot, a byte, has wrapped:
`get(0, 26)` returns the last text, `"56077_NODE_LABEL"`, and
`insert("00269_NODE_LABEL")` returns `(1, 26)`.  The address of the first text
did not stay with it. -/
theorem label_address_overwritten :
    ∃ pg addrs,
      NodeLabelStore.insert_all true (Pager.new FileHandler.empty 2) (overflow_texts.map cstr)
        = some (pg, addrs) ∧
      overflow_texts.head? = some (label_text 269) ∧ addrs.head? = some (0, 26) ∧
      overflow_texts.getLast? = some (label_text 56077) ∧
      (∃ pg1 l, NodeLabelStore.get pg 0 26 = some (pg1, l) ∧
        l.get_text = some (label_text 56077 ++ [0])) ∧
      (∃ pg1, NodeLabelStore.insert true pg (cstr (label_text 269)) = some (pg1, 1, 26)) := by
  obtain ⟨pg, addrs, h1, h2, h3, h4⟩ :=
    chain_wraps true 2 (by decide) overflow_texts 26 (by decide!) (by decide!) (by decide!)
      (by decide!)
  exact ⟨pg, addrs, h1, by decide!, h2, by decide!, h3, h4⟩

/-! ### Where `insert` is not defined -/

set_option maxRecDepth 100000 in
/-- C3 (evaluation at the failing input): a label file with a chain of three
texts in slot 26 is opened with a pager of capacity 2.  The chain counter of
slot 26 is 3, below 255, and the text `"00957_NODE_LABEL"` maps to slot 26.
The first of two consecutive `insert("00957_NODE_LABEL")` calls is not defined:
its scan fetches pages 1 and 2, the second fetch evicts page 0, and the loop
then reads the counter through `first_page`. -/
theorem insert_undefined_on_reopened_chain :
    reopened_chain.isSome = true ∧
    (reopened_chain.map fun pg => lbl pg 0 26 17) = some 3 ∧
    NodeLabelStore.slot_for true (cstr (label_text 957)) = some 26 ∧
    (reopened_chain.bind fun pg => NodeLabelStore.insert true pg (cstr (label_text 957)))
      = none :=
  ⟨by decide!, by decide!, by decide, Option.isNone_iff_eq_none.1 (by decide!)⟩

set_option maxRecDepth 100000 in
/-- C5 (evaluation at the failing input): a fresh label store on a pager of
capacity 1 and the two distinct texts `"00269_NODE_LABEL"` and
`"00364_NODE_LABEL"`, both of slot 26 (`k = 2`).  The first insert returns `(0, 26)`.  The second is not defined:
fetching overflow page 1 evicts page 0, and `insert` then writes the counter
through `first_page`. -/
theorem chain_undefined_at_capacity_one :
    NodeLabelStore.slot_for true (cstr (label_text 269)) = some 26 ∧
    NodeLabelStore.slot_for true (cstr (label_text 364)) = some 26 ∧
    ((NodeLabelStore.insert_all true (Pager.new FileHandler.empty 1)
      [cstr (label_text 269)]).map fun r => r.2) = some [(0, 26)] ∧
    NodeLabelStore.insert_all true (Pager.new FileHandler.empty 1)
      ([label_text 269, label_text 364].map cstr) = none :=
  ⟨by decide, by decide, by decide!, Option.isNone_iff_eq_none.1 (by decide!)⟩

/-! ### Page writes -/

/-- C11 (evaluation at the failing input): on a freshly constructed page one
call `append(data, 3000, raw_offset)` passes the guard (`0 + 3000 < 4094`),
returns `true`, and leaves the length counter at 6000, above the data region
size 4094: `set_at_offset` raises the length to 3000 and `append` adds 3000
again. -/
theorem append_breaks_length_invariant :
    ∃ p, (Page.new 0).append (fun _ => 7) 3000 0 = some (true, 0, p) ∧
      p.data_length = 6000 ∧ ¬ p.data_length ≤ PAGE_DATA_SIZE :=
  ⟨_, rfl, by decide, by decide⟩

/-- C12. Effect of a successful `set_at_offset(data, offset, len)` on a page
of length `L`: the bytes at data-region offsets `offset .. offset + len - 1` are
those of `data`, every other byte of the data region (offsets below 4094) is
unchanged, and the length afterwards is `max(L, offset + len)`. -/
theorem set_at_offset_effect (p p1 : Page) (data : Nat → Nat) (offset len : Nat)
    (h : p.set_at_offset data offset len = some (true, p1)) :
    (∀ i, i < len → p1.data_at_offset offset i = data i) ∧
    (∀ j, j < PAGE_DATA_SIZE → ¬ (offset ≤ j ∧ j < offset + len) →
      p1.data_at_offset j 0 = p.data_at_offset j 0) ∧
    p1.data_length = max p.data_length (offset + len) := by
  have hin : 2 + offset + len ≤ 4096 := by
    by_contra hout
    unfold Page.set_at_offset at h
    simp only [U32, PAGE_SIZE, PAGE_DATA_OFFSET, PAGE_LENGTH_OFFSET, PAGE_LENGTH_SIZE,
      PAGE_DATA_SIZE] at h
    by_cases hg : (offset + len) % 4294967296 ≥ 0 + 2 + 4094
    · rw [if_pos hg] at h
      simp at h
    · rw [if_neg hg, if_pos (by omega)] at h
      simp at h
  obtain ⟨q, hq, _, hlen, hbytes⟩ := set_at_offset_ok p data offset len hin
  rw [hq] at h
  simp only [Option.some.injEq, Prod.mk.injEq, true_and] at h
  subst h
  refine ⟨?_, ?_, hlen⟩
  · intro i hi
    show q.bytes (0 + 2 + offset + i) = data i
    rw [hbytes _ (by omega), memcpy_mid (by omega) (by omega)]
    congr 1
    omega
  · intro j _ hj
    show q.bytes (0 + 2 + j + 0) = p.bytes (0 + 2 + j + 0)
    rw [hbytes _ (by omega)]
    by_cases hlt : j < offset
    · exact memcpy_lt (by omega)
    · exact memcpy_ge (by omega)

/-- C12 at a concrete input: five bytes written at data offset 10 of a fresh
page. -/
theorem set_at_offset_effect_witness :
    (Page.new 0).set_at_offset (fun i => i + 1) 10 5 =
        some (true, (Page.mk 0 (memcpy (Page.new 0).bytes 12 (fun i => i + 1) 5)).set_data_length 15) ∧
      ((Page.mk 0 (memcpy (Page.new 0).bytes 12 (fun i => i + 1) 5)).set_data_length 15).data_length
        = max (Page.new 0).data_length (10 + 5) :=
  ⟨rfl, (set_at_offset_effect (Page.new 0) _ (fun i => i + 1) 10 5 rfl).2.2⟩

/-! ### Label slots of a node -/

theorem get_set_same (n : Node) (k p s : Nat) : (n.set_label k p s).get_label k = (p, s) := by
  simp [Node.get_label, Node.set_label]

theorem get_set_other (n : Node) {k j : Nat} (p s : Nat) (h : j ≠ k) :
    (n.set_label k p s).get_label j = n.get_label j := by
  have h1 : ¬ 13 + j * 2 = 13 + k * 2 := by omega
  have h2 : ¬ 13 + j * 2 = 13 + k * 2 + 1 := by omega
  have h3 : ¬ 13 + j * 2 + 1 = 13 + k * 2 := by omega
  have h4 : ¬ 13 + j * 2 + 1 = 13 + k * 2 + 1 := by omega
  simp [Node.get_label, Node.set_label, h1, h2, h3, h4]

theorem set_label_same {n : Node} {k p s : Nat} (h : n.get_label k = (p, s)) :
    n.set_label k p s = n := by
  cases n with
  | mk bytes =>
    simp only [Node.get_label, Prod.mk.injEq] at h
    simp only [Node.set_label, Node.mk.injEq]
    funext i
    by_cases h1 : i = NODE_LABELS_OFFSET + k * 2
    · rw [if_pos h1, h1, h.1]
    · rw [if_neg h1]
      by_cases h2 : i = NODE_LABELS_OFFSET + k * 2 + 1
      · rw [if_pos h2, h2, h.2]
      · rw [if_neg h2]

/-- The loop writes at the first slot whose page byte is `0xFF`, when no slot
before it holds the address. -/
theorem add_label_loop_empty (n : Node) (p s k : Nat) : ∀ (left i : Nat), i ≤ k → k < i + left →
    (∀ t, i ≤ t → t < k → (n.get_label t).1 ≠ 0xFF ∧ n.get_label t ≠ (p, s)) →
    (n.get_label k).1 = 0xFF →
    n.add_label_loop p s i left = some (n.set_label k p s) := by
  intro left
  induction left with
  | zero => intro i h1 h2; omega
  | succ left ih =>
    intro i h1 h2 hpre hk
    unfold Node.add_label_loop
    by_cases hik : i = k
    · subst hik
      rw [if_pos hk]
    · have := hpre i (le_refl i) (by omega)
      rw [if_neg this.1, if_neg (by
        intro hm
        exact this.2 (Prod.ext hm.1 hm.2))]
      exact ih (i + 1) (by omega) (by omega) (fun t h3 h4 => hpre t (by omega) h4) hk

/-- The loop returns at the first slot that holds the address, when no slot
before it has page byte `0xFF`. -/
theorem add_label_loop_match (n : Node) (p s k : Nat) : ∀ (left i : Nat), i ≤ k → k < i + left →
    (∀ t, i ≤ t → t < k → (n.get_label t).1 ≠ 0xFF ∧ n.get_label t ≠ (p, s)) →
    (n.get_label k).1 ≠ 0xFF → n.get_label k = (p, s) →
    n.add_label_loop p s i left = some n := by
  intro left
  induction left with
  | zero => intro i h1 h2; omega
  | succ left ih =>
    intro i h1 h2 hpre hk hm
    unfold Node.add_label_loop
    by_cases hik : i = k
    · subst hik
      rw [if_neg hk, if_pos (by rw [hm]; exact ⟨rfl, rfl⟩)]
    · have := hpre i (le_refl i) (by omega)
      rw [if_neg this.1, if_neg (by
        intro hm
        exact this.2 (Prod.ext hm.1 hm.2))]
      exact ih (i + 1) (by omega) (by omega) (fun t h3 h4 => hpre t (by omega) h4) hk hm

/-- What a returning loop did: nothing, at a slot holding the address, or a
write at the first slot whose page byte is `0xFF`. -/
theorem add_label_loop_inv (n n1 : Node) (p s : Nat) : ∀ (left i : Nat),
    n.add_label_loop p s i left = some n1 →
    ∃ k, i ≤ k ∧ k < i + left ∧
      (∀ t, i ≤ t → t < k → (n.get_label t).1 ≠ 0xFF ∧ n.get_label t ≠ (p, s)) ∧
      (((n.get_label k).1 = 0xFF ∧ n1 = n.set_label k p s) ∨
       ((n.get_label k).1 ≠ 0xFF ∧ n.get_label k = (p, s) ∧ n1 = n)) := by
  intro left
  induction left with
  | zero => intro i h; simp [Node.add_label_loop] at h
  | succ left ih =>
    intro i h
    unfold Node.add_label_loop at h
    by_cases h1 : (n.get_label i).1 = 0xFF
    · rw [if_pos h1] at h
      refine ⟨i, le_refl i, by omega, fun t a b => by omega, Or.inl ⟨h1, ?_⟩⟩
      exact (Option.some.inj h).symm
    · rw [if_neg h1] at h
      by_cases h2 : (n.get_label i).1 = p ∧ (n.get_label i).2 = s
      · rw [if_pos h2] at h
        refine ⟨i, le_refl i, by omega, fun t a b => by omega, Or.inr ⟨h1, ?_, ?_⟩⟩
        · exact Prod.ext h2.1 h2.2
        · exact (Option.some.inj h).symm
      · rw [if_neg h2] at h
        obtain ⟨k, hk1, hk2, hpre, hcase⟩ := ih (i + 1) h
        refine ⟨k, by omega, by omega, ?_, hcase⟩
        intro t ht1 ht2
        by_cases hti : t = i
        · subst hti
          refine ⟨h1, fun hm => h2 ?_⟩
          rw [hm]
          exact ⟨rfl, rfl⟩
        · exact hpre t (by omega) ht2

theorem emptyTail_new : Node.new.EmptyTail := by
  intro i j hij hj _
  have : j = 1 ∨ j = 2 := by omega
  rcases this with rfl | rfl <;> simp [Node.get_label, Node.new]

theorem emptyTail_add_label {n n1 : Node} {p s : Nat} (hn : n.EmptyTail)
    (h : n.add_label p s = some n1) : n1.EmptyTail := by
  obtain ⟨k, _, hk, hpre, hcase⟩ := add_label_loop_inv n n1 p s 3 0 h
  rcases hcase with ⟨hff, rfl⟩ | ⟨_, _, rfl⟩
  · intro i j hij hj hi
    by_cases hik : i = k
    · subst hik
      rw [get_set_other n p s (by omega : j ≠ i)]
      exact hn i j hij hj hff
    · rw [get_set_other n p s hik] at hi
      have hki : k < i := by
        by_contra hlt
        exact (hpre i (by omega) (by omega)).1 hi
      rw [get_set_other n p s (by omega : j ≠ k)]
      exact hn i j hij hj hi
  · exact hn

theorem emptyTail_add_labels : ∀ (addrs : List (Nat × Nat)) {n n1 : Node}, n.EmptyTail →
    n.add_labels addrs = some n1 → n1.EmptyTail := by
  intro addrs
  induction addrs with
  | nil =>
    intro n n1 hn h
    simp only [Node.add_labels, Option.some.injEq] at h
    exact h ▸ hn
  | cons a rest ih =>
    intro n n1 hn h
    simp only [Node.add_labels] at h
    cases h1 : n.add_label a.1 a.2 with
    | none => rw [h1] at h; simp at h
    | some n2 =>
      rw [h1] at h
      exact ih (emptyTail_add_label hn h1) h

/-- With the tail shape, an address other than `(0xFF, 0x00)` held in slot `j`
makes the loop return the node as it is. -/
theorem add_label_loop_present {n : Node} (hn : n.EmptyTail) {p s j : Nat} (hj : j < 3)
    (hm : n.get_label j = (p, s)) (hne : (p, s) ≠ (0xFF, 0x00)) : ∀ (left i : Nat), i ≤ j →
    j < i + left → n.add_label_loop p s i left = some n := by
  intro left
  induction left with
  | zero => intro i h1 h2; omega
  | succ left ih =>
    intro i h1 h2
    unfold Node.add_label_loop
    by_cases hff : (n.get_label i).1 = 0xFF
    · rw [if_pos hff]
      by_cases hij : i = j
      · subst hij
        rw [set_label_same hm]
      · exact absurd ((hn i j (by omega) hj hff).symm.trans hm).symm hne
    · rw [if_neg hff]
      by_cases hps : (n.get_label i).1 = p ∧ (n.get_label i).2 = s
      · rw [if_pos hps]
      · rw [if_neg hps]
        have hij : i ≠ j := by
          rintro rfl
          rw [hm] at hps
          exact hps ⟨rfl, rfl⟩
        exact ih (i + 1) (by omega) (by omega)

/-- C13. `add_label` is a no-op on a label address already present.  For
every node `n` and address `(p, s)`: if `n` is reached from the default node
by `add_label` calls that did not take the fatal exit, and some slot of `n`
holds the address `(p, s)` (a slot that holds `(0xFF, 0x00)` is empty and holds
no address), then `add_label(p, s)` returns and leaves `n` as it is; and, for
every node, a second `add_label(p, s)` right after a first one changes nothing
more. -/
theorem add_label_present_noop (n : Node) (p s : Nat) :
    (∀ addrs, Node.new.add_labels addrs = some n →
      ∀ j, j < 3 → n.get_label j = (p, s) → (p, s) ≠ (0xFF, 0x00) →
        n.add_label p s = some n) ∧
    (∀ n1, n.add_label p s = some n1 → n1.add_label p s = some n1) := by
  refine ⟨fun addrs hreach j hj hm hne =>
    add_label_loop_present (emptyTail_add_labels addrs emptyTail_new hreach) hj hm hne 3 0
      (Nat.zero_le j) (by omega), ?_⟩
  intro n1 h
  obtain ⟨k, _, hk, hpre, hcase⟩ := add_label_loop_inv n n1 p s 3 0 h
  rcases hcase with ⟨_, rfl⟩ | ⟨_, _, rfl⟩
  · have hpre1 : ∀ t, 0 ≤ t → t < k → ((n.set_label k p s).get_label t).1 ≠ 0xFF ∧
        (n.set_label k p s).get_label t ≠ (p, s) := by
      intro t h0 ht
      rw [get_set_other n p s (by omega : t ≠ k)]
      exact hpre t h0 ht
    by_cases hp : p = 0xFF
    · have := add_label_loop_empty (n.set_label k p s) p s k 3 0 (Nat.zero_le k) (by omega) hpre1
        (by rw [get_set_same]; exact hp)
      rw [set_label_same (get_set_same n k p s)] at this
      exact this
    · exact add_label_loop_match (n.set_label k p s) p s k 3 0 (Nat.zero_le k) (by omega) hpre1
        (by rw [get_set_same]; exact hp) (get_set_same n k p s)
  · exact h

/-- C13 at a concrete node: after `add_label(1, 2)` and `add_label(3, 4)`, the
address `(3, 4)` is held in slot 1 and adding it again changes nothing. -/
theorem add_label_present_noop_witness :
    Node.new.add_labels [(1, 2), (3, 4)] = some ((Node.new.set_label 0 1 2).set_label 1 3 4) ∧
      ((Node.new.set_label 0 1 2).set_label 1 3 4).add_label 3 4
        = some ((Node.new.set_label 0 1 2).set_label 1 3 4) :=
  ⟨rfl, (add_label_present_noop ((Node.new.set_label 0 1 2).set_label 1 3 4) 3 4).1
    [(1, 2), (3, 4)] rfl 1 (by decide) rfl (by decide)⟩

/-- Counterexample to C17 as stated: slot 0 of the node reached by
`add_label(0xFF, 5)` holds `(0xFF, 5)`, which is not the pair `(0xFF, 0x00)`,
and `add_label(3, 4)` still treats the slot as empty and overwrites it. -/
theorem add_label_overwrites_non_sentinel :
    ∃ n n1, Node.new.add_labels [(0xFF, 5)] = some n ∧ n.get_label 0 = (0xFF, 5) ∧
      n.get_label 0 ≠ (0xFF, 0x00) ∧ n.add_label 3 4 = some n1 ∧ n1.get_label 0 = (3, 4) :=
  ⟨Node.new.set_label 0 0xFF 5, (Node.new.set_label 0 0xFF 5).set_label 0 3 4,
    rfl, rfl, by decide, rfl, rfl⟩

/-- C17 (amended). A slot counts as empty exactly when its page byte is
`0xFF`, whatever its slot byte: a returning `add_label(p, s)` leaves every
slot whose page byte is not `0xFF` as it was, a slot it changed had page byte
`0xFF` and now holds `(p, s)`, and a slot with page byte `0xFF` that the loop
reaches (no earlier slot has page byte `0xFF` or holds the address) is
overwritten with `(p, s)`. -/
theorem add_label_empty_is_page_ff (n n1 : Node) (p s : Nat)
    (h : n.add_label p s = some n1) :
    (∀ i, i < 3 → (n.get_label i).1 ≠ 0xFF → n1.get_label i = n.get_label i) ∧
    (∀ i, i < 3 → n1.get_label i ≠ n.get_label i →
      (n.get_label i).1 = 0xFF ∧ n1.get_label i = (p, s)) ∧
    (∀ k, k < 3 → (n.get_label k).1 = 0xFF →
      (∀ t, t < k → (n.get_label t).1 ≠ 0xFF ∧ n.get_label t ≠ (p, s)) →
      n1.get_label k = (p, s)) := by
  obtain ⟨k, _, hk, hpre, hcase⟩ := add_label_loop_inv n n1 p s 3 0 h
  refine ⟨?_, ?_, ?_⟩
  · intro i _ hi
    rcases hcase with ⟨hff, rfl⟩ | ⟨_, _, rfl⟩
    · rw [get_set_other n p s (by rintro rfl; exact hi hff)]
    · rfl
  · intro i _ hi
    rcases hcase with ⟨hff, rfl⟩ | ⟨_, _, rfl⟩
    · by_cases hik : i = k
      · subst hik
        exact ⟨hff, get_set_same n i p s⟩
      · exact absurd (get_set_other n p s hik) hi
    · exact absurd rfl hi
  · intro k2 hk2 hff2 hpre2
    have := add_label_loop_empty n p s k2 3 0 (Nat.zero_le k2) (by omega)
      (fun t _ ht => hpre2 t ht) hff2
    have heq : some n1 = some (n.set_label k2 p s) := h.symm.trans this
    rw [Option.some.inj heq]
    exact get_set_same n k2 p s

/-- C17 (amended) at a concrete node: `add_label(3, 4)` on the node holding
`(1, 2)` in slot 0 keeps slot 0 and fills slot 1. -/
theorem add_label_empty_is_page_ff_witness :
    (Node.new.set_label 0 1 2).add_label 3 4 = some ((Node.new.set_label 0 1 2).set_label 1 3 4) ∧
      ((Node.new.set_label 0 1 2).set_label 1 3 4).get_label 0 = (Node.new.set_label 0 1 2).get_label 0 :=
  ⟨rfl, (add_label_empty_is_page_ff (Node.new.set_label 0 1 2) _ 3 4 rfl).1 0 (by decide)
    (by decide)⟩

/-! ### NodeStore beyond the first page -/

theorem nodeStore_get_unfold (pg : Pager) (id : Nat) :
    NodeStore.get pg id =
      match pg.get_page (NodeStore.get_address id).1 with
      | none => none
      | some pg1 =>
        match pg1.page_at (NodeStore.get_address id).1 with
        | none => none
        | some page =>
          if PAGE_DATA_OFFSET + (NodeStore.get_address id).2 + NODE_SIZE ≤ PAGE_SIZE then
            some (pg1, { bytes := fun j =>
              if j < NODE_SIZE then page.data_at_offset (NodeStore.get_address id).2 j else 0 })
          else none := rfl

/-- C14 (evaluation at the failing input): for id 204 the code computes page 0
and data offset 4080, where the specification has page 1 and offset 0; the 20
bytes at offset 4080 leave the page buffer, so the read is not defined.  For id
4094 the code computes page 1, offset 0, where the specification has page 20,
offset 280. -/
theorem nodeStore_get_divides_by_page_data_size :
    NodeStore.get_address 204 = (0, 4080) ∧ NodeStore.get_address_spec 204 = (1, 0) ∧
    NodeStore.get (Pager.new FileHandler.empty 1) 204 = none ∧
    NodeStore.get_address 4094 = (1, 0) ∧ NodeStore.get_address_spec 4094 = (20, 280) := by
  refine ⟨by decide, by decide, ?_, by decide, by decide⟩
  obtain ⟨pg1, c, hget, hh, -, -, -⟩ := nodeHome_get_page (nodeHome_new 1 (le_refl 1))
  have hat : pg1.page_at 0 = some ((Pager.new FileHandler.empty 1).load_from_disk 0) := by
    simp [Pager.page_at, hh, holder_find]
  rw [nodeStore_get_unfold]
  have ha : NodeStore.get_address 204 = (0, 4080) := by decide
  simp only [ha, hget, hat]
  rfl

/-- A run of `NodeStore::insert` calls that fits into page 0 leaves the page
length at 20 times the number of records. -/
theorem nodeStore_insert_all_length (nodes : List Node) : ∀ {pg : Pager} {page : Page} (m : Nat),
    NodeHome pg page → page.data_length = 20 * m → m + nodes.length ≤ 204 →
    ∃ pg1 page1, NodeStore.insert_all pg nodes = some (pg1, List.range' m nodes.length) ∧
      NodeHome pg1 page1 ∧ page1.data_length = 20 * (m + nodes.length) := by
  induction nodes with
  | nil =>
    intro pg page m h hlen _
    exact ⟨pg, page, rfl, h, by simpa using hlen⟩
  | cons node nodes ih =>
    intro pg page m h hlen hfit
    simp only [List.length_cons] at hfit
    obtain ⟨pg1, page1, hins, hhome1, hlen1, -, -⟩ := nodeStore_insert_step h node (by omega)
    have hid : page.data_length / 20 = m := by omega
    obtain ⟨pg2, page2, hall, hhome2, hlen2⟩ := ih (m + 1) hhome1 (by omega) (by omega)
    refine ⟨pg2, page2, ?_, hhome2, ?_⟩
    · simp only [NodeStore.insert_all, hins, hall, hid, List.length_cons]
      rfl
    · rw [hlen2, List.length_cons]
      ring

/-- One `NodeStore::insert` on a page 0 that holds 204 records: the write is
refused, the page stays as it is, and the id returned is 204. -/
theorem nodeStore_insert_full {pg : Pager} {page : Page} (h : NodeHome pg page) (node : Node)
    (hlen : page.data_length = 4080) :
    ∃ pg1, NodeStore.insert pg node = some (pg1, 204) ∧ NodeHome pg1 page := by
  obtain ⟨pg1, c, hget, hh, hr, hfh, hcap⟩ := nodeHome_get_page h
  have hlast : (pg.last_page % U32).toNat = 0 := by simp [Pager.last_page, h.1]
  have hat : pg1.page_at 0 = some page := by simp [Pager.page_at, hh, holder_find]
  have hset : page.set_at_offset node.bytes 4080 NODE_SIZE = some (false, page) := rfl
  have hput : pg1.put_page 0 page = some { pg1 with cache_holder := [(0, page)] } := by
    simp [Pager.put_page, hh, holder_find, holder_assign]
  refine ⟨({ pg1 with cache_holder := [(0, page)] } : Pager).flush_page page, ?_, ?_⟩
  · simp only [NodeStore.insert, hlast, hget, hat, hlen, hset, hput]
    rfl
  · refine ⟨?_, ?_, Or.inr ⟨c, ?_, ?_⟩⟩
    · simp [Pager.flush_page, FileHandler.write, hfh, h.1]
    · simp [Pager.flush_page, hcap, h.2.1]
    · simp [Pager.flush_page]
    · simp [Pager.flush_page, hr]

theorem nodeStore_insert_all_full (nodes : List Node) : ∀ {pg : Pager} {page : Page},
    NodeHome pg page → page.data_length = 4080 →
    ∃ pg1, NodeStore.insert_all pg nodes = some (pg1, List.replicate nodes.length 204) ∧
      NodeHome pg1 page := by
  induction nodes with
  | nil =>
    intro pg page h _
    exact ⟨pg, rfl, h⟩
  | cons node nodes ih =>
    intro pg page h hlen
    obtain ⟨pg1, hins, hhome1⟩ := nodeStore_insert_full h node hlen
    obtain ⟨pg2, hall, hhome2⟩ := ih hhome1 hlen
    refine ⟨pg2, ?_, hhome2⟩
    simp only [NodeStore.insert_all, hins, hall, List.length_cons, List.replicate_succ]

theorem nodeStore_insert_all_append : ∀ (xs ys : List Node) {pg pg1 pg2 : Pager} {a b : List Nat},
    NodeStore.insert_all pg xs = some (pg1, a) → NodeStore.insert_all pg1 ys = some (pg2, b) →
    NodeStore.insert_all pg (xs ++ ys) = some (pg2, a ++ b) := by
  intro xs
  induction xs with
  | nil =>
    intro ys pg pg1 pg2 a b h1 h2
    simp only [NodeStore.insert_all, Option.some.injEq, Prod.mk.injEq] at h1
    obtain ⟨rfl, rfl⟩ := h1
    simpa using h2
  | cons x xs ih =>
    intro ys pg pg1 pg2 a b h1 h2
    simp only [NodeStore.insert_all] at h1
    cases hx : NodeStore.insert pg x with
    | none => rw [hx] at h1; simp at h1
    | some r =>
      obtain ⟨pg3, id⟩ := r
      rw [hx] at h1
      simp only at h1
      cases hxs : NodeStore.insert_all pg3 xs with
      | none => rw [hxs] at h1; simp at h1
      | some r2 =>
        obtain ⟨pg4, ids⟩ := r2
        rw [hxs] at h1
        simp only [Option.some.injEq, Prod.mk.injEq] at h1
        obtain ⟨rfl, rfl⟩ := h1
        have := ih ys hxs h2
        show NodeStore.insert_all pg (x :: (xs ++ ys)) = _
        simp only [NodeStore.insert_all, hx, this]
        rfl

/-- C20 (evaluation at the failing input): 206 inserts into a fresh node file
all return; the first 204 return the ids 0 to 203, and inserts 205 and 206,
refused by the full page 0, both return the id 204.  The ids are not pairwise
distinct. -/
theorem node_ids_repeat_after_204 :
    ∃ pg ids, NodeStore.insert_all (Pager.new FileHandler.empty 1)
        (List.replicate 206 Node.new) = some (pg, ids) ∧
      ids = List.range' 0 204 ++ [204, 204] ∧ ¬ ids.Nodup := by
  have hl : (List.replicate 204 Node.new).length = 204 := List.length_replicate 204 Node.new
  obtain ⟨pg1, page1, h1, hhome1, hlen1⟩ :=
    nodeStore_insert_all_length (List.replicate 204 Node.new) 0 (nodeHome_new 1 (le_refl 1))
      (by decide) (by rw [hl])
  rw [hl] at h1 hlen1
  obtain ⟨pg2, h2, -⟩ := nodeStore_insert_all_full [Node.new, Node.new] hhome1 hlen1
  have h3 := nodeStore_insert_all_append _ _ h1 h2
  have hsplit : List.replicate 204 Node.new ++ [Node.new, Node.new]
      = List.replicate 206 Node.new := by
    rw [show [Node.new, Node.new] = List.replicate 2 Node.new from rfl, ← List.replicate_add]
  rw [hsplit] at h3
  refine ⟨pg2, _, h3, rfl, ?_⟩
  intro hnd
  have h4 : [204, 204].Nodup := (List.nodup_append.1 hnd).2.1
  exact absurd h4 (by decide)

/-! ### NodePropStore -/

/-- One `NodePropStore::insert` on a page 0 of length `L` with `L + 13 ≤ 4094`:
the length becomes `L + 13`. -/
theorem nodePropStore_insert_step {pg : Pager} {page : Page} (h : NodeHome pg page)
    (node_prop : NodeProp) (hroom : page.data_length + 13 ≤ 4094) :
    ∃ pg1 page1, NodePropStore.insert pg node_prop = some pg1 ∧
      NodeHome pg1 page1 ∧ page1.data_length = page.data_length + 13 := by
  obtain ⟨pg1, c, hget, hh, hr, hfh, hcap⟩ := nodeHome_get_page h
  have hat : pg1.page_at 0 = some page := by simp [Pager.page_at, hh, holder_find]
  obtain ⟨page1, hset, _, hlen, -⟩ :=
    set_at_offset_ok page node_prop.bytes page.data_length 13 (by omega)
  have hput : pg1.put_page 0 page1 = some { pg1 with cache_holder := [(0, page1)] } := by
    simp [Pager.put_page, hh, holder_find, holder_assign]
  refine ⟨({ pg1 with cache_holder := [(0, page1)] } : Pager).flush_page page1, page1,
    ?_, ?_, ?_⟩
  · have hset2 : page.set_at_offset node_prop.bytes page.data_length NODE_PROP_SIZE
        = some (true, page1) := hset
    simp only [NodePropStore.insert, hget, hat, hset2, hput]
  · refine ⟨?_, ?_, Or.inr ⟨c, ?_, ?_⟩⟩
    · simp [Pager.flush_page, FileHandler.write, hfh, h.1]
    · simp [Pager.flush_page, hcap, h.2.1]
    · simp [Pager.flush_page]
    · simp [Pager.flush_page, hr]
  · rw [hlen]
    exact max_eq_right (by omega)

theorem nodePropStore_insert_all (props : List NodeProp) : ∀ {pg : Pager} {page : Page} (m : Nat),
    NodeHome pg page → page.data_length = 13 * m → m + props.length ≤ 314 →
    ∃ pg1 page1, NodePropStore.insert_all pg props = some pg1 ∧
      NodeHome pg1 page1 ∧ page1.data_length = 13 * (m + props.length) := by
  induction props with
  | nil =>
    intro pg page m h hlen _
    exact ⟨pg, page, rfl, h, by simpa using hlen⟩
  | cons node_prop props ih =>
    intro pg page m h hlen hfit
    simp only [List.length_cons] at hfit
    obtain ⟨pg1, page1, hins, hhome1, hlen1⟩ := nodePropStore_insert_step h node_prop (by omega)
    obtain ⟨pg2, page2, hall, hhome2, hlen2⟩ := ih (m + 1) hhome1 (by omega) (by omega)
    refine ⟨pg2, page2, ?_, hhome2, ?_⟩
    · simp only [NodePropStore.insert_all, hins, hall]
    · rw [hlen2, List.length_cons]
      ring

/-- The write of a 13-byte record at data offset 4082 passes the guard of
`set_at_offset` (`4082 + 13 = 4095 < 4096`) and its last byte lies at buffer
index 4096, outside the 4096-byte page: the call is not defined. -/
theorem set_at_offset_4082 (p : Page) (data : Nat → Nat) :
    p.set_at_offset data 4082 NODE_PROP_SIZE = none := rfl

/-- C19 (evaluation at the failing input): 314 inserts of a default record
into a fresh property file leave page 0 with length 4082.  The 315th write has
`o = 4082`, so `o + 13 = 4095 > 4094`; it passes the guard of `set_at_offset`
(`4095 < 4096`), would leave the length at 4095, and its last byte falls behind
the page buffer, so the insert is not defined. -/
theorem node_prop_leaves_data_region :
    ∃ pg pg1 page, NodePropStore.insert_all (Pager.new FileHandler.empty 2)
        (List.replicate 314 NodeProp.new) = some pg ∧
      pg.get_page 0 = some pg1 ∧ pg1.page_at 0 = some page ∧ page.data_length = 4082 ∧
      ¬ ((page.data_length + NODE_PROP_SIZE) % U32 ≥ PAGE_SIZE) ∧
      ¬ (page.data_length + NODE_PROP_SIZE ≤ PAGE_DATA_SIZE) ∧
      NodePropStore.insert pg NodeProp.new = none := by
  have hl : (List.replicate 314 NodeProp.new).length = 314 := List.length_replicate 314 _
  obtain ⟨pg, page, hall, hhome, hlen⟩ :=
    nodePropStore_insert_all (List.replicate 314 NodeProp.new) 0
      (nodeHome_new 2 (by decide)) (by decide) (by rw [hl])
  rw [hl] at hlen
  have hlen2 : page.data_length = 4082 := hlen
  obtain ⟨pg1, c, hget, hh, -, -, -⟩ := nodeHome_get_page hhome
  have hat : pg1.page_at 0 = some page := by simp [Pager.page_at, hh, holder_find]
  refine ⟨pg, pg1, page, hall, hget, hat, hlen2, ?_, ?_, ?_⟩
  · rw [hlen2]
    decide
  · rw [hlen2]
    decide
  · simp only [NodePropStore.insert, hget, hat, hlen2, set_at_offset_4082]

/-! ### The bucket list is sorted by count -/

theorem strictFrom_mono {lo lo1 : Nat} (h : lo1 ≤ lo) : ∀ {l : List (Nat × List Nat)},
    StrictFrom lo l → StrictFrom lo1 l
  | [], _ => trivial
  | (_, _) :: _, hl => ⟨lt_of_le_of_lt h hl.1, hl.2⟩

theorem strictFrom_pairwise : ∀ {l : List (Nat × List Nat)} {lo : Nat}, StrictFrom lo l →
    (∀ b ∈ l, lo < b.1) ∧ l.Pairwise (fun a b => a.1 < b.1)
  | [], _, _ => ⟨fun _ hb => absurd hb (List.not_mem_nil _), List.Pairwise.nil⟩
  | (c, ks) :: rest, lo, hl => by
    obtain ⟨hlo, hrest⟩ := hl
    obtain ⟨h1, h2⟩ := strictFrom_pairwise hrest
    refine ⟨?_, List.Pairwise.cons (fun b hb => h1 b hb) h2⟩
    intro b hb
    rcases List.mem_cons.1 hb with rfl | hb
    · exact hlo
    · exact lt_trans hlo (h1 b hb)

theorem ref_promote_strict (key c : Nat) {rest : List (Nat × List Nat)}
    (h : StrictFrom c rest) : StrictFrom c (ref_promote (c + 1) key rest) := by
  cases rest with
  | nil => exact ⟨Nat.lt_succ_self c, trivial⟩
  | cons b rest =>
    obtain ⟨c2, ks2⟩ := b
    obtain ⟨h1, h2⟩ := h
    simp only [ref_promote]
    by_cases hc : c2 ≠ c + 1
    · rw [if_pos hc]
      exact ⟨Nat.lt_succ_self c, by omega, h2⟩
    · rw [if_neg hc]
      exact ⟨h1, h2⟩

theorem visit_strict (key : Nat) : ∀ {l : List (Nat × List Nat)} {lo : Nat}, StrictFrom lo l →
    StrictFrom lo (visit key l)
  | [], _, _ => trivial
  | (c, ks) :: rest, lo, hl => by
    obtain ⟨hlo, hrest⟩ := hl
    simp only [visit]
    by_cases hk : key ∈ ks
    · rw [if_pos hk]
      by_cases he : ks.erase key = []
      · rw [if_pos he]
        exact strictFrom_mono (le_of_lt hlo) (ref_promote_strict key c hrest)
      · rw [if_neg he]
        exact ⟨hlo, ref_promote_strict key c hrest⟩
    · rw [if_neg hk]
      exact ⟨hlo, visit_strict key hrest⟩

theorem ref_insert_strict (key : Nat) {l : List (Nat × List Nat)} (h : StrictFrom 0 l) :
    StrictFrom 0 (ref_insert key l) := by
  cases l with
  | nil => exact ⟨Nat.zero_lt_one, trivial⟩
  | cons b rest =>
    obtain ⟨c, ks⟩ := b
    obtain ⟨h1, h2⟩ := h
    simp only [ref_insert]
    by_cases hc : c ≠ 1
    · rw [if_pos hc]
      exact ⟨Nat.zero_lt_one, by omega, h2⟩
    · rw [if_neg hc]
      exact ⟨h1, h2⟩

/-- Every `get_page` keeps the bucket list sorted by strictly increasing
count, with all counts at least 1. -/
theorem get_page_strict {pg pg1 : Pager} {key : Nat} (h : pg.get_page key = some pg1)
    (hs : StrictFrom 0 pg.cache_ref_list) : StrictFrom 0 pg1.cache_ref_list := by
  rcases get_page_cases h with ⟨_, _, rfl⟩ | ⟨_, _, rfl⟩ | ⟨_, _, c, k, ks, rest, href, rfl⟩
  · exact visit_strict key hs
  · exact ref_insert_strict key hs
  · rw [href] at hs
    apply ref_insert_strict
    by_cases hks : ks = []
    · rw [if_pos hks]
      exact strictFrom_mono (Nat.zero_le c) hs.2
    · rw [if_neg hks]
      exact ⟨hs.1, hs.2⟩

theorem get_pages_strict (keys : List Nat) : ∀ {pg pg1 : Pager}, pg.get_pages keys = some pg1 →
    StrictFrom 0 pg.cache_ref_list → StrictFrom 0 pg1.cache_ref_list := by
  induction keys with
  | nil =>
    intro pg pg1 h hs
    simp only [Pager.get_pages, Option.some.injEq] at h
    exact h ▸ hs
  | cons key keys ih =>
    intro pg pg1 h hs
    simp only [Pager.get_pages] at h
    cases h1 : pg.get_page key with
    | none => rw [h1] at h; simp at h
    | some pg2 =>
      rw [h1] at h
      exact ih h (get_page_strict h1 hs)

/-- C15. Pager frequency list is well-formed: on a pager of capacity `C ≥ 1`
that starts with an empty cache (over any file), every sequence of `get_page`
calls is defined and leaves a bucket list whose counts increase strictly from
front to back, in which no bucket is empty, and in which a page number occurs
exactly once over all buckets if it is resident and not at all if it is not. -/
theorem frequency_list_well_formed (fh : FileHandler) (C : Int) (hC : 1 ≤ C) (keys : List Nat) :
    ∃ pg, (Pager.new fh C).get_pages keys = some pg ∧
      pg.cache_ref_list.Pairwise (fun a b => a.1 < b.1) ∧
      (∀ b ∈ pg.cache_ref_list, b.2 ≠ []) ∧
      (∀ k, (refKeys pg.cache_ref_list).count k = if pg.resident k then 1 else 0) := by
  obtain ⟨pg, h, hinv, hcap⟩ :=
    get_pages_inv keys (pagerInv_new fh C (by omega)) (by simpa [Pager.new] using hC)
  have hs : StrictFrom 0 pg.cache_ref_list := get_pages_strict keys h trivial
  refine ⟨pg, h, (strictFrom_pairwise hs).2, hinv.nonempty, ?_⟩
  intro k
  rw [hinv.perm.count_eq]
  by_cases hk : k ∈ holderKeys pg.cache_holder
  · rw [resident_iff.2 hk, List.count_eq_one_of_mem hinv.nodup hk]
    rfl
  · have : pg.resident k = false := by
      cases hr : pg.resident k with
      | false => rfl
      | true => exact absurd (resident_iff.1 hr) hk
    rw [this, List.count_eq_zero_of_not_mem hk]
    rfl

/-- C15 at a concrete input: capacity 2 and the requests 0, 1, 0, 2, 3, 3. -/
theorem frequency_list_well_formed_witness :
    (1 : Int) ≤ 2 ∧ ∃ pg, (Pager.new ⟨fun _ => 0, 0⟩ 2).get_pages [0, 1, 0, 2, 3, 3] = some pg ∧
      pg.cache_ref_list.Pairwise (fun a b => a.1 < b.1) ∧
      (∀ b ∈ pg.cache_ref_list, b.2 ≠ []) ∧
      (∀ k, (refKeys pg.cache_ref_list).count k = if pg.resident k then 1 else 0) :=
  ⟨by decide, frequency_list_well_formed ⟨fun _ => 0, 0⟩ 2 (by decide) [0, 1, 0, 2, 3, 3]⟩

/-! ### A page in use can be evicted -/

/-- When a resident page `a` leaves the cache on the next `get_page(b)`: exactly
when `b` is a miss on a full cache and `a` is the first page number of the front
bucket. -/
theorem get_page_evicts_iff {pg pg1 : Pager} {a b : Nat} (ha : pg.resident a = true)
    (h : pg.get_page b = some pg1) :
    pg1.resident a = false ↔
      (pg.resident b = false ∧ (pg.cache_holder.length : Int) = pg.cache_cap ∧
        ∃ c ks rest, pg.cache_ref_list = (c, a :: ks) :: rest) := by
  rcases get_page_cases h with ⟨p, hfind, rfl⟩ | ⟨hfind, hroom, rfl⟩ |
    ⟨hfind, hfull, c, k, ks, rest, href, hpg1⟩
  · constructor
    · intro h1
      have h2 : pg.resident a = false := h1
      rw [ha] at h2
      exact absurd h2 (by decide)
    · rintro ⟨h1, -, -⟩
      simp [Pager.resident, hfind] at h1
  · have hab : a ≠ b := by
      rintro rfl
      simp [Pager.resident, hfind] at ha
    constructor
    · intro h1
      have h2 : (holder_find a (holder_assign b (pg.load_from_disk b) pg.cache_holder)).isSome
          = false := h1
      rw [holder_find_assign_other _ _ hab] at h2
      have h3 : pg.resident a = false := h2
      rw [ha] at h3
      exact absurd h3 (by decide)
    · rintro ⟨-, h1, -⟩
      exact absurd h1 hroom
  · have hb : pg.resident b = false := by simp [Pager.resident, hfind]
    have hab : a ≠ b := by
      rintro rfl
      rw [ha] at hb
      exact absurd hb (by decide)
    obtain ⟨pg2, h2, hres⟩ := get_page_miss_full hb hfull href
    have heq : pg2 = pg1 := Option.some.inj (h2.symm.trans h)
    rw [heq] at hres
    constructor
    · intro h1
      refine ⟨hb, hfull, c, ks, rest, ?_⟩
      have hak : a = k := by
        by_contra hne
        have := (hres a).2 (Or.inr ⟨ha, hne⟩)
        rw [h1] at this
        exact absurd this (by decide)
      rw [hak]
      exact href
    · rintro ⟨-, -, c2, ks2, rest2, href2⟩
      rw [href] at href2
      have hak : k = a := by
        simp only [List.cons.injEq, Prod.mk.injEq] at href2
        exact href2.1.2.1
      cases hr : pg1.resident a with
      | false => rfl
      | true =>
        rcases (hres a).1 hr with h3 | ⟨-, h3⟩
        · exact absurd h3 hab
        · exact absurd hak.symm h3

set_option maxRecDepth 100000 in
/-- C18 (evaluation at the failing input): on a pager of capacity 2, after the
requests 2, 2, 2 the request `get_page(0)` hands out page 0 and the next
request `get_page(1)` evicts it: page 0 is resident before and not after.
`NodeLabelStore::insert` meets this state: after the insert of
`"00269_NODE_LABEL"` and three `get` calls on page 2, the insert of
`"00364_NODE_LABEL"`, a second text of the same slot 26, fetches overflow page 1
while it still uses page 0, page 0 is evicted and deleted under it, and the
insert is not defined. -/
theorem page_evicted_by_next_request :
    (((Pager.new FileHandler.empty 2).get_pages [2, 2, 2, 0]).bind fun p =>
        (p.get_page 1).map fun q => (p.resident 0, q.resident 0)) = some (true, false) ∧
    ((NodeLabelStore.insert false (Pager.new FileHandler.empty 2)
        (cstr (label_text 269))).bind
        fun r => NodeLabelStore.get_all r.1 [(2, 0), (2, 0), (2, 0)]).isSome = true ∧
    (((NodeLabelStore.insert false (Pager.new FileHandler.empty 2)
        (cstr (label_text 269))).bind
        fun r => NodeLabelStore.get_all r.1 [(2, 0), (2, 0), (2, 0)]).bind
        fun pg => NodeLabelStore.insert false pg (cstr (label_text 364))) = none ∧
    NodeLabelStore.slot_for false (cstr (label_text 269)) = some 26 ∧
    NodeLabelStore.slot_for false (cstr (label_text 364)) = some 26 :=
  ⟨by decide!, by decide!, Option.isNone_iff_eq_none.1 (by decide!), by decide, by decide⟩

/-! ### `slot_for` against the hash of the specification -/

/-- Below the two test branches, and for bytes that are not sign-extended, the
loop of `slot_for` computes the hash of the specification. -/
theorem slot_hash_eq_djb2 (sc : Bool) (text : List Nat)
    (hb : sc = false ∨ ∀ b ∈ text, b < 128) :
    ∀ n, slot_hash sc (cstr text) n = djb2_spec text n := by
  intro n
  induction n with
  | zero => rfl
  | succ n ih =>
    have hc : char_to_u32 sc (cstr text n) = text.getD n 0 := by
      unfold char_to_u32
      rcases hb with rfl | hb
      · simp [cstr]
      · have : ¬ 128 ≤ cstr text n := by
          unfold cstr
          by_cases hn : n < text.length
          · rw [List.getD_eq_getElem _ _ hn]
            exact not_le.2 (hb _ (List.getElem_mem hn))
          · rw [List.getD_eq_default _ _ (not_lt.1 hn)]
            decide
        rw [if_neg (fun h => this h.2)]
        rfl
    show ((slot_hash sc (cstr text) n * 32 % 4294967296 + slot_hash sc (cstr text) n) % 4294967296
        + char_to_u32 sc (cstr text n)) % 4294967296
      = (djb2_spec text n * 33 + text.getD n 0) % 4294967296
    rw [hc, ih]
    omega

/-- Where `slot_for` agrees with the specification: texts other than the two
test literals whose bytes are not sign-extended. -/
theorem slot_for_eq_spec (sc : Bool) (text : List Nat)
    (h1 : strcmp_eq (cstr text) TEACHES_HOMEROOM = false)
    (h2 : strcmp_eq (cstr text) COORDINATES = false)
    (hb : sc = false ∨ ∀ b ∈ text, b < 128) :
    NodeLabelStore.slot_for sc (cstr text) = some (slot_for_spec text) := by
  rw [slot_for_of_not_literal h1 h2]
  unfold slot_for_hashed slot_for_spec
  rw [slot_hash_eq_djb2 sc text hb 17]

/-- C16 (evaluation at the failing inputs).  For the 11-byte text
`"COORDINATES"` and the 16-byte text `"TEACHES_HOMEROOM"` the code does not
hash the text: it returns `slot_for("TEACHES")`, where the hash of the
specification gives the slots 111 and 3; and that call reads 17 bytes of the
8-byte literal, so it has no defined result.  Where `char` is signed, the
one-byte text `0xC8` gets slot 123 where the specification gives 178. -/
theorem slot_for_test_branches (sc : Bool) :
    NodeLabelStore.slot_for sc (cstr COORDINATES) = none ∧
    slot_for_spec COORDINATES = 111 ∧
    NodeLabelStore.slot_for sc (cstr TEACHES_HOMEROOM) = none ∧
    slot_for_spec TEACHES_HOMEROOM = 3 ∧
    NodeLabelStore.slot_for true (cstr [200]) = some 123 ∧ slot_for_spec [200] = 178 := by
  cases sc <;> decide

end MobileGraph
